import Mathlib

/-!
PointerMap: an open-addressing pointer hash table (map.cpp).

Shallow embedding of `src/map.cpp` and `src/map.h`.

Modelling conventions.

* A `void*` key or value is its bit pattern, a natural number. `empty` is the
  null pointer `0`, `overflow_empty` is the pointer with bit pattern `1`.
* The three heap arrays are lists of naturals. `HEAP_ALLOCATE` is `calloc`, so a
  freshly allocated array is a list of zeros. Reading index `i` is `rd a i`,
  writing is `List.set`. On a table whose arrays have the lengths the data
  model prescribes (`Shaped`) and whose capacity is a power of two every
  access of the code is in bounds.
* `u32` and `u64` arithmetic is arithmetic on naturals reduced modulo `2^32`
  and `2^64`. The conversion `u32 -> int` is `toS32`, `int -> u32` is `toU32`.
* `cap` is a natural number (the code only ever stores positive values in it
  before `map_destroy`), `count` is an integer. Signed `int` overflow is
  undefined behaviour in C++; in `map_add` and `map_remove` the arithmetic
  `3 * cap`, `2 * cap`, `count + 1` and `count - 1` is modelled without
  wraparound, so they describe the executions in which it does not overflow.
  `3 * cap` and `2 * cap` overflow only at a capacity of `2^30` slots; `count`
  overflows after `2^31` calls of `map_add` on a table of any size.
  `map_add32` and `map_remove32` are the same functions with `count` stored in
  the 32 bits of an `int` (`wrap32`), and `ReachedWithin n` are the states they
  reach with `n` calls of `map_add`; the two models agree while `n < 2^31`
  (`within_is_reached`).
* A loop that may fail to terminate is a function with a fuel argument that
  returns `none` when the fuel runs out. `find_slot` is run with `cap` units of
  fuel, which is exact on a ring of `cap` slots (`fs_loop_fuel_exact`).
  `map_remove` runs its scan with `cap` units, one per advance of `j`; on a
  table with an empty primary slot the scan ends within them
  (`remove_loop_terminates`). A result obtained with some fuel is the result with any
  larger fuel (`fs_loop_fuel_mono`, `remove_loop_fuel_mono`).
-/

namespace PointerMap

/-! ## Constants and machine integers -/

/-- The key that marks an empty primary slot: `const void* empty = 0`. -/
def empty : Nat := 0

/-- The key that marks an empty overflow slot: `reinterpret_cast<void*>(1)`. -/
def overflow_empty : Nat := 1

/-- Index of an iterator that is invalid or has reached the end. -/
def end_index : Int := -1

/-- Conversion of a `u32` to `int` (two's complement). -/
def toS32 (x : Nat) : Int :=
  if x % 2 ^ 32 < 2 ^ 31 then ((x % 2 ^ 32 : Nat) : Int) else ((x % 2 ^ 32 : Nat) : Int) - 2 ^ 32

/-- Conversion of an `int` to `u32` (reduction modulo `2^32`). -/
def toU32 (x : Int) : Nat := (x % 2 ^ 32).toNat

/-- Array read; `calloc`-style zero outside the allocated block. -/
def rd (a : List Nat) (i : Nat) : Nat := a.getD i 0

/-! ## Helper functions of map.cpp -/

/-- Source `is_power_of_two(unsigned int x)`: `(x != 0) && !(x & (x - 1))`. -/
def is_power_of_two (x : Nat) : Bool :=
  (x != 0) && ((x &&& ((x + (2 ^ 32 - 1)) % 2 ^ 32)) == 0)

/-- Source `next_power_of_two(u32 x)`. -/
def next_power_of_two (x : Nat) : Nat :=
  let x := x ||| (x >>> 1)
  let x := x ||| (x >>> 2)
  let x := x ||| (x >>> 4)
  let x := x ||| (x >>> 8)
  let x := x ||| (x >>> 16)
  (x + 1) % 2 ^ 32

/-- Source `can_use_bitwise_and_to_cycle(int count)`. -/
def can_use_bitwise_and_to_cycle (count : Nat) : Bool :=
  is_power_of_two count

/-- Source `hash_key(u64 key)`: the arithmetic is modulo `2^64`, the result is
truncated to `u32`. -/
def hash_key (key : Nat) : Nat :=
  let key := key % 2 ^ 64
  let key := ((2 ^ 64 - 1 - key) + (key <<< 18)) % 2 ^ 64
  let key := key ^^^ (key >>> 31)
  let key := (key * 21) % 2 ^ 64
  let key := key ^^^ (key >>> 11)
  let key := (key + (key <<< 6)) % 2 ^ 64
  let key := key ^^^ (key >>> 22)
  key % 2 ^ 32

/-! ## The table -/

/-- Source `struct Map`. -/
structure Map where
  keys : List Nat
  values : List Nat
  hashes : List Nat
  cap : Nat
  count : Int
deriving DecidableEq, Repr

/-- Source `struct MapIterator`; the map itself is passed alongside. -/
structure MapIterator where
  index : Int
deriving DecidableEq, Repr

/-- Source `map_create`. -/
def map_create : Map :=
  let cap := 16
  { keys := (List.replicate (cap + 1) 0).set cap overflow_empty
    values := (List.replicate (cap + 1) 0).set cap 0
    hashes := List.replicate cap 0
    cap := cap
    count := 0 }

/-- The probing loop of `find_slot`, started at `probe`. -/
def find_slot_loop : Nat → List Nat → Nat → Nat → Nat → Option Nat
  | 0, _, _, _, _ => none
  | fuel + 1, keys, cap, key, probe =>
    if rd keys probe ≠ key ∧ rd keys probe ≠ empty then
      find_slot_loop fuel keys cap key ((probe + 1) &&& (cap - 1))
    else
      some probe

/-- Source `find_slot(keys, cap, key, hash)`. -/
def find_slot (keys : List Nat) (cap key hash : Nat) : Option Nat :=
  find_slot_loop cap keys cap key (hash &&& (cap - 1))

/-- Source `map_get`: `none` when probing does not end, `some none` for a
`false` return, `some (some v)` for a `true` return with `*value = v`. -/
def map_get (map : Map) (key : Nat) : Option (Option Nat) :=
  if key = empty then
    let overflow_index := map.cap
    if rd map.keys overflow_index = overflow_empty then
      some none
    else
      some (some (rd map.values overflow_index))
  else
    let hash := hash_key key
    match find_slot map.keys map.cap key hash with
    | none => none
    | some slot =>
      if rd map.keys slot = key then some (some (rd map.values slot)) else some none

/-- The new arrays being filled by the rehash loop of `map_grow`. -/
structure Arrays where
  keys : List Nat
  values : List Nat
  hashes : List Nat
deriving DecidableEq, Repr

/-- One iteration of the `for` loop of `map_grow`, at old index `i`. -/
def grow_step (map : Map) (cap : Nat) (a : Arrays) (i : Nat) : Option Arrays :=
  let key := rd map.keys i
  if key = empty then
    some a
  else
    let hash := rd map.hashes i
    match find_slot a.keys cap key hash with
    | none => none
    | some slot =>
      some { keys := a.keys.set slot key
             hashes := a.hashes.set slot hash
             values := a.values.set slot (rd map.values i) }

/-- The `for` loop of `map_grow` over the old indices in `is`. -/
def grow_loop (map : Map) (cap : Nat) : List Nat → Arrays → Option Arrays
  | [], a => some a
  | i :: is, a =>
    match grow_step map cap a i with
    | none => none
    | some a' => grow_loop map cap is a'

/-- Source `map_grow(map, cap, heap)`. -/
def map_grow (map : Map) (cap : Nat) : Option Map :=
  let prior_cap := map.cap
  let fresh : Arrays :=
    { keys := List.replicate (cap + 1) 0
      values := List.replicate (cap + 1) 0
      hashes := List.replicate cap 0 }
  match grow_loop map cap (List.range prior_cap) fresh with
  | none => none
  | some a =>
    some { keys := a.keys.set cap (rd map.keys prior_cap)
           values := a.values.set cap (rd map.values prior_cap)
           hashes := a.hashes
           cap := cap
           count := map.count }

/-- Source `map_add(map, key, value, heap)`. -/
def map_add (map : Map) (key value : Nat) : Option Map :=
  if key = empty then
    let overflow_index := map.cap
    some { map with
      keys := map.keys.set overflow_index key
      values := map.values.set overflow_index value
      count := map.count + 1 }
  else
    let load_limit : Int := (3 * (map.cap : Int)) / 4
    let grown : Option Map :=
      if map.count ≥ load_limit then map_grow map (2 * map.cap) else some map
    match grown with
    | none => none
    | some map =>
      let hash := hash_key key
      match find_slot map.keys map.cap key hash with
      | none => none
      | some slot =>
        some { map with
          keys := map.keys.set slot key
          values := map.values.set slot value
          hashes := map.hashes.set slot hash
          count := map.count + 1 }

/-- Source `in_cyclic_interval(int x, int first, int second)`. -/
def in_cyclic_interval (x first second : Int) : Bool :=
  if second > first then
    decide (x > first) && decide (x ≤ second)
  else
    decide (x > first) || decide (x ≤ second)

/-- The two nested loops of `map_remove`, entered in the inner `do`-loop with
`keys[i]` already emptied. Each unit of fuel is one advance of `j`. On leaving
the inner loop the pair at `j` is copied to `i`, and the next round of the
outer loop (`i = j`) empties `keys[j]`. -/
def remove_loop : Nat → Map → Nat → Nat → Option Map
  | 0, _, _, _ => none
  | fuel + 1, map, i, j =>
    let j := (j + 1) &&& (map.cap - 1)
    if rd map.keys j = empty then
      some map
    else
      let k : Int := toS32 (rd map.hashes j)
      if in_cyclic_interval k i j then
        remove_loop fuel map i j
      else
        let moved : Map := { map with
          keys := map.keys.set i (rd map.keys j)
          values := map.values.set i (rd map.values j)
          hashes := map.hashes.set i (rd map.hashes j) }
        remove_loop fuel { moved with keys := moved.keys.set j empty } j j

/-- Source `map_remove(map, key)`. -/
def map_remove (map : Map) (key : Nat) : Option Map :=
  if key = empty then
    let overflow_index := map.cap
    if rd map.keys overflow_index = key then
      some { map with
        keys := map.keys.set overflow_index overflow_empty
        values := map.values.set overflow_index 0
        count := map.count - 1 }
    else
      some map
  else
    let hash := hash_key key
    match find_slot map.keys map.cap key hash with
    | none => none
    | some slot =>
      if rd map.keys slot = empty then
        some map
      else
        remove_loop map.cap { map with keys := map.keys.set slot empty } slot slot

/-- Source `map_reserve(map, cap, heap)`: the `int` argument is converted to
`u32` for `next_power_of_two` and the result back to `int`. -/
def map_reserve (map : Map) (cap : Int) : Option Map :=
  let cap : Int := toS32 (next_power_of_two (toU32 cap))
  if cap > (map.cap : Int) then
    map_grow map cap.toNat
  else
    some map

/-- The `do`-loop of `map_iterator_next`; `index` is the value before the
increment, `fuel` bounds the number of increments. -/
def iterator_next_loop (map : Map) : Nat → Int → Option MapIterator
  | 0, _ => none
  | fuel + 1, index =>
    let index := index + 1
    if index ≥ (map.cap : Int) then
      if index = (map.cap : Int) ∧ rd map.keys map.cap ≠ overflow_empty then
        some { index := (map.cap : Int) }
      else
        some { index := end_index }
    else if rd map.keys index.toNat = empty then
      iterator_next_loop map fuel index
    else
      some { index := index }

/-- Source `map_iterator_next(it)`. From an index `>= -1` the loop leaves after
at most `cap + 1` increments. -/
def map_iterator_next (map : Map) (it : MapIterator) : Option MapIterator :=
  iterator_next_loop map (map.cap + 1) it.index

/-- Source `map_iterator_start(map)`. -/
def map_iterator_start (map : Map) : MapIterator :=
  if map.count > 0 then { index := 0 } else { index := end_index }

/-- Source `map_iterator_is_not_end(it)`. -/
def map_iterator_is_not_end (it : MapIterator) : Bool :=
  it.index != end_index

/-- Source `map_iterator_get_key(it)`. -/
def map_iterator_get_key (map : Map) (it : MapIterator) : Nat :=
  rd map.keys it.index.toNat

/-- Source `map_iterator_get_value(it)`. -/
def map_iterator_get_value (map : Map) (it : MapIterator) : Nat :=
  rd map.values it.index.toNat

/-- The `for` loop of `ITERATE_MAP` with the body of `test_iterate`: the pair
read at every visited position, in visiting order. -/
def iterate_loop (map : Map) : Nat → MapIterator → Option (List (Nat × Nat))
  | 0, _ => none
  | fuel + 1, it =>
    if map_iterator_is_not_end it then
      match map_iterator_next map it with
      | none => none
      | some it' =>
        match iterate_loop map fuel it' with
        | none => none
        | some rest =>
          some ((map_iterator_get_key map it, map_iterator_get_value map it) :: rest)
    else
      some []

/-- Source `ITERATE_MAP(it, map)` collecting the pairs. Every step moves to a
larger index or to the end, so `cap + 2` steps suffice from index `0`. -/
def map_iterate (map : Map) : Option (List (Nat × Nat)) :=
  iterate_loop map (map.cap + 2) (map_iterator_start map)

/-- Calls `map_add` on the pairs of a list, in order. -/
def add_all : Map → List (Nat × Nat) → Option Map
  | map, [] => some map
  | map, (k, v) :: rest =>
    match map_add map k v with
    | none => none
    | some map' => add_all map' rest

/-! ## Specification predicates -/

/-- The exit condition of the probing loop at slot `q`. -/
@[reducible] def Stop (keys : List Nat) (key q : Nat) : Prop :=
  rd keys q = key ∨ rd keys q = 0

/-- Capacity is a power of two. -/
def IsPow2 (n : Nat) : Prop := ∃ k, n = 2 ^ k

/-- Some primary slot is empty. -/
def HasEmpty (keys : List Nat) (N : Nat) : Prop := ∃ q, q < N ∧ rd keys q = 0

/-- No key is stored in two primary slots. -/
def NoDuplicate (keys : List Nat) (N : Nat) : Prop :=
  ∀ i, i < N → ∀ j, j < N → rd keys i ≠ 0 → rd keys i = rd keys j → i = j

/-- Every stored key is reached from its home slot `hash_key key % N` (which is
`hash_key key & (N - 1)` for a power of two `N`) by stepping forward cyclically
through occupied slots only. -/
def Reachable (keys : List Nat) (N : Nat) : Prop :=
  ∀ i, i < N → rd keys i ≠ 0 →
    ∃ d, d < N ∧ (hash_key (rd keys i) % N + d) % N = i ∧
      ∀ e, e < d → rd keys ((hash_key (rd keys i) % N + e) % N) ≠ 0

/-- The cached hash of every occupied primary slot is the hash of its key. -/
def HashesConsistent (keys hashes : List Nat) (N : Nat) : Prop :=
  ∀ i, i < N → rd keys i ≠ 0 → rd hashes i = hash_key (rd keys i)

/-- Number of occupied slots among the first `n`. -/
def occupied (keys : List Nat) : Nat → Nat
  | 0 => 0
  | n + 1 => occupied keys n + (if rd keys n = 0 then 0 else 1)

/-- The arrays have the lengths of the data model: `cap + 1` keys and values,
`cap` hashes. -/
def Shaped (t : Map) : Prop :=
  t.keys.length = t.cap + 1 ∧ t.values.length = t.cap + 1 ∧ t.hashes.length = t.cap

/-- The overflow slot is in one of its two states: it holds the sentinel key
(occupied) or the `overflow_empty` marker. -/
def OverflowState (t : Map) : Prop :=
  rd t.keys t.cap = empty ∨ rd t.keys t.cap = overflow_empty

/-- At most three quarters of the primary slots are occupied. -/
def LoadOK (t : Map) : Prop := 4 * occupied t.keys t.cap ≤ 3 * t.cap

/-- The pair `(k, v)` is stored in one of the first `N` primary slots. -/
def HoldsP (keys values : List Nat) (N k v : Nat) : Prop :=
  ∃ i, i < N ∧ rd keys i = k ∧ rd values i = v

/-- The pair `(k, v)` is stored in the table: in the overflow slot for the
sentinel key, in a primary slot otherwise. -/
def Holds (t : Map) (k v : Nat) : Prop :=
  (k = 0 ∧ rd t.keys t.cap = 0 ∧ rd t.values t.cap = v) ∨
  (k ≠ 0 ∧ HoldsP t.keys t.values t.cap k v)

/-- The invariant of the tables built from `map_create` by `map_add`. -/
structure Inv (t : Map) : Prop where
  shaped : Shaped t
  pow2 : IsPow2 t.cap
  cap_ge : 16 ≤ t.cap
  nodup : NoDuplicate t.keys t.cap
  reach : Reachable t.keys t.cap
  hashes : HashesConsistent t.keys t.hashes t.cap
  load : LoadOK t
  live : (occupied t.keys t.cap : Int) ≤ t.count
  overflow : OverflowState t

/-! ## Reachable states -/

/-- The states reached from the table of `map_create` by calls of `map_add`,
`map_remove` and `map_reserve` that end; `addOk t k` and `removeOk t k` say
which keys may be added to, and removed from, the state `t`. -/
inductive ReachedBy (addOk removeOk : Map → Nat → Prop) : Map → Prop
  | create : ReachedBy addOk removeOk map_create
  | add (t t' : Map) (k v : Nat) : ReachedBy addOk removeOk t → addOk t k →
      map_add t k v = some t' → ReachedBy addOk removeOk t'
  | remove (t t' : Map) (k : Nat) : ReachedBy addOk removeOk t → removeOk t k →
      map_remove t k = some t' → ReachedBy addOk removeOk t'
  | reserve (t t' : Map) (n : Int) : ReachedBy addOk removeOk t →
      map_reserve t n = some t' → ReachedBy addOk removeOk t'

/-- The states reachable from `map_create` by any finite sequence of `map_add`,
`map_remove` and `map_reserve` calls. -/
def Reached : Map → Prop := ReachedBy (fun _ _ => True) (fun _ _ => True)

/-- One when the overflow slot is occupied (it does not hold the `overflow_empty`
marker, the test of `map_get` and `map_iterator_next`), zero otherwise. -/
def overflow_count (t : Map) : Nat :=
  if rd t.keys t.cap = overflow_empty then 0 else 1

/-- Number of live pairs: the occupied primary slots, plus one when the overflow
slot is occupied. -/
def live (t : Map) : Nat := occupied t.keys t.cap + overflow_count t

/-- The states reached from `map_create` when every `map_add` adds a key that
`map_get` does not find at that moment and every `map_remove` removes the
sentinel key or a key that `map_get` does not find. -/
def ReachedFresh : Map → Prop :=
  ReachedBy (fun t k => map_get t k = some none)
    (fun t k => k = 0 ∨ map_get t k = some none)

/-- The states reached from `map_create` when the sentinel key is only added
while `map_get` does not find it (the overflow slot is empty); any other
`map_add`, `map_remove` and `map_reserve` call is allowed. -/
def ReachedOnce : Map → Prop :=
  ReachedBy (fun t k => k ≠ 0 ∨ map_get t 0 = some none) (fun _ _ => True)

/-- Every occupied primary slot of `t'` holds a key, value and cached hash that
one primary slot of `t` holds together. -/
def CopiedFrom (t t' : Map) : Prop :=
  ∀ q, q < t'.cap → rd t'.keys q ≠ 0 →
    ∃ i, i < t.cap ∧ rd t.keys i = rd t'.keys q ∧ rd t.values i = rd t'.values q ∧
      rd t.hashes i = rd t'.hashes q

/-- The six-round mix of `hash_key` with its first and third rounds written in
the forms of the comments next to them: `(key << 18) - key - 1` for
`(~key) + (key << 18)` and `(key + (key << 2)) + (key << 4)` for `key * 21`,
every `u64` operation reduced modulo `2^64`. -/
def hash_key_rewritten (key : Nat) : Nat :=
  let key := key % 2 ^ 64
  let key := (((key <<< 18) % 2 ^ 64 + 2 ^ 64 - key) % 2 ^ 64 + 2 ^ 64 - 1) % 2 ^ 64
  let key := key ^^^ (key >>> 31)
  let key := ((key + (key <<< 2) % 2 ^ 64) % 2 ^ 64 + (key <<< 4) % 2 ^ 64) % 2 ^ 64
  let key := key ^^^ (key >>> 11)
  let key := (key + (key <<< 6)) % 2 ^ 64
  let key := key ^^^ (key >>> 22)
  key % 2 ^ 32

/-- The `(key, value, cached hash)` triples read from the occupied slots among
the first `n` of three arrays. -/
def triplesOf (keys values hashes : List Nat) : Nat → List (Nat × Nat × Nat)
  | 0 => []
  | n + 1 =>
    if rd keys n = 0 then triplesOf keys values hashes n
    else (rd keys n, rd values n, rd hashes n) :: triplesOf keys values hashes n

/-- The triples held in the occupied primary slots of a table; as a list up to
permutation it is the multiset of stored entries. -/
def triples (t : Map) : List (Nat × Nat × Nat) :=
  triplesOf t.keys t.values t.hashes t.cap

/-- The value an `int` variable holds after a result `x` is stored in it: the
two's complement wraparound of the compiled code, `x` itself for
`-2^31 <= x < 2^31`. -/
def wrap32 (x : Int) : Int := toS32 (toU32 x)

/-- Source `map_add(map, key, value, heap)` with the store `map->count += 1`
reduced to the 32 bits of `int`. -/
def map_add32 (map : Map) (key value : Nat) : Option Map :=
  if key = empty then
    let overflow_index := map.cap
    some { map with
      keys := map.keys.set overflow_index key
      values := map.values.set overflow_index value
      count := wrap32 (map.count + 1) }
  else
    let load_limit : Int := (3 * (map.cap : Int)) / 4
    let grown : Option Map :=
      if map.count ≥ load_limit then map_grow map (2 * map.cap) else some map
    match grown with
    | none => none
    | some map =>
      let hash := hash_key key
      match find_slot map.keys map.cap key hash with
      | none => none
      | some slot =>
        some { map with
          keys := map.keys.set slot key
          values := map.values.set slot value
          hashes := map.hashes.set slot hash
          count := wrap32 (map.count + 1) }

/-- Source `map_remove(map, key)` with the store `map->count -= 1` reduced to
the 32 bits of `int`. -/
def map_remove32 (map : Map) (key : Nat) : Option Map :=
  if key = empty then
    let overflow_index := map.cap
    if rd map.keys overflow_index = key then
      some { map with
        keys := map.keys.set overflow_index overflow_empty
        values := map.values.set overflow_index 0
        count := wrap32 (map.count - 1) }
    else
      some map
  else
    let hash := hash_key key
    match find_slot map.keys map.cap key hash with
    | none => none
    | some slot =>
      if rd map.keys slot = empty then
        some map
      else
        remove_loop map.cap { map with keys := map.keys.set slot empty } slot slot

/-- Calls `map_add32` on the pairs of a list, in order. -/
def add_all32 : Map → List (Nat × Nat) → Option Map
  | map, [] => some map
  | map, (k, v) :: rest =>
    match map_add32 map k v with
    | none => none
    | some map' => add_all32 map' rest

/-- The states reached from the table of `map_create` by calls of `map_add`,
`map_remove` and `map_reserve` that end, with `count` kept in the 32 bits of an
`int`; the index is the number of `map_add` calls made. -/
inductive ReachedWithin : Nat → Map → Prop
  | create : ReachedWithin 0 map_create
  | add (n : Nat) (t t' : Map) (k v : Nat) : ReachedWithin n t →
      map_add32 t k v = some t' → ReachedWithin (n + 1) t'
  | remove (n : Nat) (t t' : Map) (k : Nat) : ReachedWithin n t →
      map_remove32 t k = some t' → ReachedWithin n t'
  | reserve (n : Nat) (t t' : Map) (m : Int) : ReachedWithin n t →
      map_reserve t m = some t' → ReachedWithin n t'

/-! ## Arrays and ring arithmetic -/

theorem rd_set_eq (a : List Nat) (i v : Nat) (h : i < a.length) : rd (a.set i v) i = v := by
  simp [rd, List.getElem?_set, h]

theorem rd_set_ne (a : List Nat) (i j v : Nat) (h : i ≠ j) : rd (a.set i v) j = rd a j := by
  simp [rd, List.getElem?_set_ne h]

theorem rd_replicate (n i : Nat) : rd (List.replicate n 0) i = 0 := by
  simp [rd, List.getElem?_replicate]
  split <;> simp

theorem mask_eq_mod (N : Nat) (hN : ∃ k, N = 2 ^ k) (x : Nat) : x &&& (N - 1) = x % N := by
  obtain ⟨k, rfl⟩ := hN
  exact Nat.and_pow_two_sub_one_eq_mod x k

theorem pow2_pos (N : Nat) (hN : ∃ k, N = 2 ^ k) : 0 < N := by
  obtain ⟨k, rfl⟩ := hN
  exact Nat.pos_pow_of_pos k (by decide)

theorem ring_reach (N p q : Nat) (hp : p < N) (hq : q < N) : ∃ d, d < N ∧ (p + d) % N = q := by
  by_cases h : p ≤ q
  · refine ⟨q - p, by omega, ?_⟩
    rw [show p + (q - p) = q by omega]
    exact Nat.mod_eq_of_lt hq
  · refine ⟨q + N - p, by omega, ?_⟩
    rw [show p + (q + N - p) = q + N by omega, Nat.add_mod_right]
    exact Nat.mod_eq_of_lt hq

theorem ring_inj (N p d e : Nat) (hd : d < N) (he : e < N)
    (h : (p + d) % N = (p + e) % N) : d = e := by
  have h1 : d % N = e % N := Nat.ModEq.add_left_cancel' p h
  rwa [Nat.mod_eq_of_lt hd, Nat.mod_eq_of_lt he] at h1

theorem ring_succ (N p e : Nat) : ((p + 1) % N + e) % N = (p + (e + 1)) % N := by
  rw [Nat.add_mod, Nat.mod_mod, ← Nat.add_mod]
  congr 1
  omega

/-! ## The probing loop -/

theorem fs_loop_unfold (fuel : Nat) (keys : List Nat) (N key p : Nat) :
    find_slot_loop (fuel + 1) keys N key p =
      if Stop keys key p then some p
      else find_slot_loop fuel keys N key ((p + 1) &&& (N - 1)) := by
  show (if rd keys p ≠ key ∧ rd keys p ≠ empty then _ else _) = _
  unfold Stop empty
  by_cases h1 : rd keys p = key
  · simp [h1]
  · by_cases h2 : rd keys p = 0
    · simp [h2]
    · simp [h1, h2]

theorem fs_loop_hit (keys : List Nat) (N key : Nat) (hN : ∃ k, N = 2 ^ k) :
    ∀ (d fuel p : Nat), p < N → d < fuel →
      (∀ e, e < d → ¬ Stop keys key ((p + e) % N)) → Stop keys key ((p + d) % N) →
      find_slot_loop fuel keys N key p = some ((p + d) % N) := by
  intro d
  induction d with
  | zero =>
    intro fuel p hp hf _ hs
    obtain ⟨f, rfl⟩ : ∃ f, fuel = f + 1 := ⟨fuel - 1, by omega⟩
    have e0 : (p + 0) % N = p := by simpa using Nat.mod_eq_of_lt hp
    rw [e0] at hs
    rw [e0, fs_loop_unfold, if_pos hs]
  | succ d ih =>
    intro fuel p hp hf hpre hs
    obtain ⟨f, rfl⟩ : ∃ f, fuel = f + 1 := ⟨fuel - 1, by omega⟩
    have h0 : ¬ Stop keys key p := by
      have e0 : (p + 0) % N = p := by simpa using Nat.mod_eq_of_lt hp
      have := hpre 0 (by omega)
      rwa [e0] at this
    rw [fs_loop_unfold, if_neg h0, mask_eq_mod N hN]
    have hp' : (p + 1) % N < N := Nat.mod_lt _ (pow2_pos N hN)
    have := ih f ((p + 1) % N) hp' (by omega)
      (fun e he => by rw [ring_succ]; exact hpre (e + 1) (by omega))
      (by rw [ring_succ]; exact hs)
    rw [this, ring_succ]

theorem fs_loop_result (keys : List Nat) (N key : Nat) (hN : ∃ k, N = 2 ^ k) :
    ∀ (fuel p s : Nat), p < N → find_slot_loop fuel keys N key p = some s →
      ∃ d, d < fuel ∧ s = (p + d) % N ∧ Stop keys key s ∧
        ∀ e, e < d → ¬ Stop keys key ((p + e) % N) := by
  intro fuel
  induction fuel with
  | zero => intro p s _ h; simp [find_slot_loop] at h
  | succ f ih =>
    intro p s hp h
    rw [fs_loop_unfold] at h
    by_cases hs : Stop keys key p
    · rw [if_pos hs] at h
      obtain rfl : p = s := by simpa using h
      have e0 : (p + 0) % N = p := by simpa using Nat.mod_eq_of_lt hp
      exact ⟨0, by omega, e0.symm, hs, fun e he => by omega⟩
    · rw [if_neg hs, mask_eq_mod N hN] at h
      have hp' : (p + 1) % N < N := Nat.mod_lt _ (pow2_pos N hN)
      obtain ⟨d, hd, hsd, hst, hpre⟩ := ih ((p + 1) % N) s hp' h
      refine ⟨d + 1, by omega, by rw [hsd, ring_succ], hst, ?_⟩
      intro e he
      cases e with
      | zero =>
        have e0 : (p + 0) % N = p := by simpa using Nat.mod_eq_of_lt hp
        rwa [e0]
      | succ e => rw [← ring_succ]; exact hpre e (by omega)

/-- A result of the probing loop does not depend on spare fuel. -/
theorem fs_loop_fuel_mono (keys : List Nat) (N key : Nat) :
    ∀ (fuel fuel' p s : Nat), fuel ≤ fuel' → find_slot_loop fuel keys N key p = some s →
      find_slot_loop fuel' keys N key p = some s := by
  intro fuel
  induction fuel with
  | zero => intro _ p s _ h; simp [find_slot_loop] at h
  | succ f ih =>
    intro fuel' p s hle h
    obtain ⟨f', rfl⟩ : ∃ f', fuel' = f' + 1 := ⟨fuel' - 1, by omega⟩
    rw [fs_loop_unfold] at h ⊢
    by_cases hs : Stop keys key p
    · rw [if_pos hs] at h ⊢; exact h
    · rw [if_neg hs] at h ⊢; exact ih f' _ s (by omega) h

/-- Fuel `N` is exact for the probing loop on a ring of `N` slots: a result
reached with any amount of fuel is reached with fuel `N`. -/
theorem fs_loop_fuel_exact (keys : List Nat) (N key : Nat) (hN : ∃ k, N = 2 ^ k)
    (fuel p s : Nat) (hp : p < N) (h : find_slot_loop fuel keys N key p = some s) :
    find_slot_loop N keys N key p = some s := by
  obtain ⟨d, _, hsd, hst, hpre⟩ := fs_loop_result keys N key hN fuel p s hp h
  have hpos := pow2_pos N hN
  have hd : d < N := by
    by_contra hc
    have hmod : (p + (d - N)) % N = (p + d) % N := by
      have : p + d = p + (d - N) + N := by omega
      rw [this, Nat.add_mod_right]
    exact hpre (d - N) (by omega) (by rw [hmod, ← hsd]; exact hst)
  rw [hsd] at hst ⊢
  exact fs_loop_hit keys N key hN d N p hp hd hpre hst

theorem find_slot_result (keys : List Nat) (N key hash s : Nat) (hN : ∃ k, N = 2 ^ k)
    (h : find_slot keys N key hash = some s) :
    s < N ∧ Stop keys key s ∧ ∃ d, d < N ∧ s = (hash % N + d) % N ∧
      ∀ e, e < d → ¬ Stop keys key ((hash % N + e) % N) := by
  unfold find_slot at h
  rw [mask_eq_mod N hN] at h
  have hpos := pow2_pos N hN
  obtain ⟨d, hd, hsd, hst, hpre⟩ := fs_loop_result keys N key hN N _ s (Nat.mod_lt _ hpos) h
  exact ⟨by rw [hsd]; exact Nat.mod_lt _ hpos, hst, d, hd, hsd, hpre⟩

theorem find_slot_hit (keys : List Nat) (N key hash d : Nat) (hN : ∃ k, N = 2 ^ k)
    (hd : d < N) (hpre : ∀ e, e < d → ¬ Stop keys key ((hash % N + e) % N))
    (hs : Stop keys key ((hash % N + d) % N)) :
    find_slot keys N key hash = some ((hash % N + d) % N) := by
  unfold find_slot
  rw [mask_eq_mod N hN]
  exact fs_loop_hit keys N key hN d N _ (Nat.mod_lt _ (pow2_pos N hN)) hd hpre hs

/-- Probing ends as soon as the ring holds the key or an empty slot. -/
theorem find_slot_terminates (keys : List Nat) (N key hash q : Nat) (hN : ∃ k, N = 2 ^ k)
    (hq : q < N) (hs : Stop keys key q) : ∃ s, find_slot keys N key hash = some s := by
  have hpos := pow2_pos N hN
  obtain ⟨d, hd, hdq⟩ := ring_reach N (hash % N) q (Nat.mod_lt _ hpos) hq
  have hex : ∃ d, d < N ∧ Stop keys key ((hash % N + d) % N) := ⟨d, hd, by rw [hdq]; exact hs⟩
  classical
  have hmin := Nat.find_spec hex
  refine ⟨_, find_slot_hit keys N key hash (Nat.find hex) hN hmin.1 ?_ hmin.2⟩
  intro e he hse
  exact Nat.find_min hex he ⟨by omega, hse⟩

/-! ## Lookup and slot counting -/

theorem lookup_present (keys : List Nat) (N i : Nat) (hN : IsPow2 N)
    (hnd : NoDuplicate keys N) (hr : Reachable keys N) (hi : i < N) (hk : rd keys i ≠ 0) :
    find_slot keys N (rd keys i) (hash_key (rd keys i)) = some i := by
  obtain ⟨d, hd, hdi, hpath⟩ := hr i hi hk
  have hpos := pow2_pos N hN
  generalize hash_key (rd keys i) = h at hdi hpath ⊢
  have := find_slot_hit keys N (rd keys i) h d hN hd ?_ ?_
  · rwa [hdi] at this
  · intro e he hs
    rcases hs with hs | hs
    · have hlt : (h % N + e) % N < N := Nat.mod_lt _ hpos
      have h1 := hnd i hi _ hlt hk hs.symm
      have := ring_inj N _ d e hd (by omega) (hdi.trans h1)
      omega
    · exact hpath e he hs
  · rw [hdi]; exact Or.inl rfl

theorem lookup_absent (keys : List Nat) (N key hash : Nat) (hN : IsPow2 N)
    (he : HasEmpty keys N) (ha : ∀ i, i < N → rd keys i ≠ key) :
    ∃ s, find_slot keys N key hash = some s ∧ s < N ∧ rd keys s = 0 := by
  obtain ⟨q, hq, hq0⟩ := he
  obtain ⟨s, hs⟩ := find_slot_terminates keys N key hash q hN hq (Or.inr hq0)
  obtain ⟨hlt, hst, _⟩ := find_slot_result keys N key hash s hN hs
  rcases hst with h | h
  · exact absurd h (ha s hlt)
  · exact ⟨s, hs, hlt, h⟩

theorem occupied_le (keys : List Nat) (n : Nat) : occupied keys n ≤ n := by
  induction n with
  | zero => simp [occupied]
  | succ n ih => simp only [occupied]; split <;> omega

theorem occupied_full (keys : List Nat) (n : Nat) (h : ∀ i, i < n → rd keys i ≠ 0) :
    occupied keys n = n := by
  induction n with
  | zero => simp [occupied]
  | succ n ih =>
    simp only [occupied]
    rw [ih (fun i hi => h i (by omega)), if_neg (h n (by omega))]

theorem hasEmpty_of_occupied_lt (keys : List Nat) (N : Nat) (h : occupied keys N < N) :
    HasEmpty keys N := by
  by_contra hc
  have : ∀ i, i < N → rd keys i ≠ 0 := fun i hi h0 => hc ⟨i, hi, h0⟩
  have := occupied_full keys N this
  omega

theorem occupied_set_le (keys : List Nat) (s v n : Nat) :
    occupied (keys.set s v) n ≤ occupied keys n + (if s < n ∧ rd keys s = 0 then 1 else 0) := by
  induction n with
  | zero => simp [occupied]
  | succ n ih =>
    simp only [occupied]
    by_cases hs : s = n
    · subst hs
      have h1 : occupied (keys.set s v) s ≤ occupied keys s := by
        have := ih; simpa using this
      by_cases h0 : rd keys s = 0
      · simp [h0]; split <;> omega
      · simp [h0]; split <;> omega
    · rw [rd_set_ne keys s n v hs]
      by_cases hlt : s < n
      · have : s < n + 1 := by omega
        by_cases h0 : rd keys s = 0
        · simp [hlt, this, h0] at ih ⊢; omega
        · simp [hlt, this, h0] at ih ⊢; omega
      · have : ¬ s < n + 1 := by omega
        simp [hlt, this] at ih ⊢; omega

/-! ## Insertion into the primary region -/

theorem rd_set (a : List Nat) (i j v : Nat) (h : i < a.length) :
    rd (a.set i v) j = if j = i then v else rd a j := by
  by_cases hj : j = i
  · subst hj; rw [if_pos rfl]; exact rd_set_eq a j v h
  · rw [if_neg hj]; exact rd_set_ne a i j v (fun e => hj e.symm)

theorem noDuplicate_congr (keys keys' : List Nat) (N : Nat)
    (h : ∀ q, q < N → rd keys' q = rd keys q) (hnd : NoDuplicate keys N) :
    NoDuplicate keys' N := by
  intro i hi j hj hne heq
  rw [h i hi] at hne heq
  rw [h j hj] at heq
  exact hnd i hi j hj hne heq

theorem reachable_congr (keys keys' : List Nat) (N : Nat) (hN : IsPow2 N)
    (h : ∀ q, q < N → rd keys' q = rd keys q) (hr : Reachable keys N) :
    Reachable keys' N := by
  intro i hi hne
  rw [h i hi] at hne ⊢
  obtain ⟨d, hd, hdi, hpath⟩ := hr i hi hne
  refine ⟨d, hd, hdi, fun e he => ?_⟩
  rw [h _ (Nat.mod_lt _ (pow2_pos N hN))]
  exact hpath e he

theorem hashesConsistent_congr (keys keys' hashes hashes' : List Nat) (N : Nat)
    (h : ∀ q, q < N → rd keys' q = rd keys q) (hh : ∀ q, q < N → rd hashes' q = rd hashes q)
    (hc : HashesConsistent keys hashes N) : HashesConsistent keys' hashes' N := by
  intro i hi hne
  rw [h i hi] at hne ⊢
  rw [hh i hi]
  exact hc i hi hne

theorem occupied_congr (keys keys' : List Nat) (N : Nat)
    (h : ∀ q, q < N → rd keys' q = rd keys q) : occupied keys' N = occupied keys N := by
  induction N with
  | zero => rfl
  | succ n ih =>
    simp only [occupied]
    rw [ih (fun q hq => h q (by omega)), h n (by omega)]

/-- Writing a key into the slot that `find_slot` returns for it keeps the
primary region duplicate-free, reachable and hash-consistent. -/
theorem insert_wf (keys hashes : List Nat) (N k s : Nat) (hN : IsPow2 N)
    (hlk : N ≤ keys.length) (hlh : N ≤ hashes.length) (hk : k ≠ 0)
    (hnd : NoDuplicate keys N) (hr : Reachable keys N) (hc : HashesConsistent keys hashes N)
    (hs : find_slot keys N k (hash_key k) = some s) :
    NoDuplicate (keys.set s k) N ∧ Reachable (keys.set s k) N ∧
      HashesConsistent (keys.set s k) (hashes.set s (hash_key k)) N := by
  obtain ⟨hsN, hstop, d, hd, hsd, hpre⟩ := find_slot_result keys N k (hash_key k) s hN hs
  have hpos := pow2_pos N hN
  have hsk : s < keys.length := by omega
  have hsh : s < hashes.length := by omega
  have hfound : ∀ j, j < N → rd keys j = k → j = s := by
    intro j hj hjk
    have := lookup_present keys N j hN hnd hr hj (by rw [hjk]; exact hk)
    rw [hjk, hs] at this
    exact (Option.some.inj this).symm
  have hmono : ∀ q, rd keys q ≠ 0 → rd (keys.set s k) q ≠ 0 := by
    intro q hq
    rw [rd_set keys s q k hsk]
    split
    · exact hk
    · exact hq
  refine ⟨?_, ?_, ?_⟩
  · intro i hi j hj hne heq
    rw [rd_set keys s i k hsk] at hne heq
    rw [rd_set keys s j k hsk] at heq
    by_cases his : i = s
    · by_cases hjs : j = s
      · rw [his, hjs]
      · rw [if_pos his, if_neg hjs] at heq
        rw [his]; exact (hfound j hj heq.symm).symm
    · by_cases hjs : j = s
      · rw [if_neg his, if_pos hjs] at heq
        rw [hjs]; exact hfound i hi heq
      · rw [if_neg his] at hne heq
        rw [if_neg hjs] at heq
        exact hnd i hi j hj hne heq
  · intro i hi hne
    rw [rd_set keys s i k hsk] at hne ⊢
    by_cases his : i = s
    · rw [if_pos his]
      refine ⟨d, hd, by rw [his]; exact hsd.symm, fun e he => hmono _ ?_⟩
      intro h0
      exact hpre e he (Or.inr h0)
    · rw [if_neg his] at hne ⊢
      obtain ⟨d', hd', hdi, hpath⟩ := hr i hi hne
      exact ⟨d', hd', hdi, fun e he => hmono _ (hpath e he)⟩
  · intro i hi hne
    rw [rd_set keys s i k hsk] at hne ⊢
    rw [rd_set hashes s i (hash_key k) hsh]
    by_cases his : i = s
    · rw [if_pos his, if_pos his]
    · rw [if_neg his] at hne ⊢
      rw [if_neg his]
      exact hc i hi hne

/-! ## Growth -/

theorem grow_loop_append (m : Map) (N : Nat) (l1 l2 : List Nat) (a : Arrays) :
    grow_loop m N (l1 ++ l2) a =
      match grow_loop m N l1 a with
      | none => none
      | some a' => grow_loop m N l2 a' := by
  induction l1 generalizing a with
  | nil => rfl
  | cons i is ih =>
    simp only [List.cons_append, grow_loop]
    cases grow_step m N a i with
    | none => rfl
    | some a' => exact ih a'

/-- One round of the rehash loop: it ends, keeps the array lengths, adds at most
one occupied slot, and (for a duplicate-free, hash-consistent old table) keeps
the new primary region well formed with exactly the pairs rehashed so far. -/
theorem grow_step_spec (m : Map) (N : Nat) (a : Arrays) (n : Nat) (hN : IsPow2 N)
    (hlt : n < N)
    (hlk : a.keys.length = N + 1) (hlv : a.values.length = N + 1) (hlh : a.hashes.length = N)
    (hocc : occupied a.keys N ≤ occupied m.keys n) :
    ∃ a', grow_step m N a n = some a' ∧
      a'.keys.length = N + 1 ∧ a'.values.length = N + 1 ∧ a'.hashes.length = N ∧
      occupied a'.keys N ≤ occupied m.keys (n + 1) ∧
      (n < m.cap → NoDuplicate m.keys m.cap → HashesConsistent m.keys m.hashes m.cap →
        NoDuplicate a.keys N → Reachable a.keys N → HashesConsistent a.keys a.hashes N →
        (∀ k v, k ≠ 0 → (HoldsP a.keys a.values N k v ↔ HoldsP m.keys m.values n k v)) →
        NoDuplicate a'.keys N ∧ Reachable a'.keys N ∧ HashesConsistent a'.keys a'.hashes N ∧
        (∀ k v, k ≠ 0 →
          (HoldsP a'.keys a'.values N k v ↔ HoldsP m.keys m.values (n + 1) k v))) := by
  unfold grow_step
  by_cases hkey : rd m.keys n = empty
  · simp only [hkey, if_true]
    refine ⟨a, rfl, hlk, hlv, hlh, ?_, ?_⟩
    · simp only [occupied]
      have : rd m.keys n = 0 := hkey
      rw [if_pos this]; omega
    · intro _ _ _ hnd hr hc hcont
      refine ⟨hnd, hr, hc, fun k v hk => ?_⟩
      rw [hcont k v hk]
      constructor
      · rintro ⟨i, hi, h1, h2⟩; exact ⟨i, by omega, h1, h2⟩
      · rintro ⟨i, hi, h1, h2⟩
        have : i ≠ n := by
          rintro rfl
          rw [h1] at hkey; exact hk hkey
        exact ⟨i, by omega, h1, h2⟩
  · simp only [hkey, if_false]
    have hkey0 : rd m.keys n ≠ 0 := hkey
    have hoccn : occupied m.keys (n + 1) = occupied m.keys n + 1 := by
      simp only [occupied]; rw [if_neg hkey0]
    have hempty : HasEmpty a.keys N := by
      apply hasEmpty_of_occupied_lt
      have := occupied_le m.keys n
      omega
    obtain ⟨q, hq, hq0⟩ := hempty
    obtain ⟨s, hs⟩ := find_slot_terminates a.keys N (rd m.keys n) (rd m.hashes n) q hN hq
      (Or.inr hq0)
    obtain ⟨hsN, hstop, _⟩ := find_slot_result a.keys N _ _ s hN hs
    rw [hs]
    refine ⟨_, rfl, by simp [hlk], by simp [hlv], by simp [hlh], ?_, ?_⟩
    · have := occupied_set_le a.keys s (rd m.keys n) N
      simp only at this ⊢
      split at this <;> omega
    · intro hn hndm hcm hnd hr hc hcont
      have hhash : rd m.hashes n = hash_key (rd m.keys n) := hcm n hn hkey0
      rw [hhash] at hs ⊢
      have hs0 : rd a.keys s = 0 := by
        rcases hstop with h | h
        · exfalso
          have : HoldsP a.keys a.values N (rd m.keys n) (rd a.values s) := ⟨s, hsN, h, rfl⟩
          obtain ⟨i, hi, h1, _⟩ := (hcont _ _ hkey0).1 this
          have := hndm i (by omega) n hn (by rw [h1]; exact hkey0) h1
          omega
        · exact h
      obtain ⟨h1, h2, h3⟩ := insert_wf a.keys a.hashes N (rd m.keys n) s hN (by omega) (by omega)
        hkey0 hnd hr hc hs
      refine ⟨h1, h2, h3, fun k v hk => ?_⟩
      simp only
      constructor
      · rintro ⟨i, hi, e1, e2⟩
        rw [rd_set a.keys s i _ (by omega)] at e1
        rw [rd_set a.values s i _ (by omega)] at e2
        by_cases his : i = s
        · rw [if_pos his] at e1 e2
          exact ⟨n, by omega, e1, e2⟩
        · rw [if_neg his] at e1 e2
          obtain ⟨i', hi', e1', e2'⟩ := (hcont k v hk).1 ⟨i, hi, e1, e2⟩
          exact ⟨i', by omega, e1', e2'⟩
      · rintro ⟨i, hi, e1, e2⟩
        by_cases hin : i = n
        · subst hin
          refine ⟨s, hsN, ?_, ?_⟩
          · rw [rd_set_eq a.keys s _ (by omega)]; exact e1
          · rw [rd_set_eq a.values s _ (by omega)]; exact e2
        · obtain ⟨i', hi', e1', e2'⟩ := (hcont k v hk).2 ⟨i, by omega, e1, e2⟩
          have hne : s ≠ i' := by
            rintro rfl
            rw [hs0] at e1'; exact hk e1'.symm
          exact ⟨i', hi', by rw [rd_set_ne a.keys s i' _ hne]; exact e1',
            by rw [rd_set_ne a.values s i' _ hne]; exact e2'⟩

theorem occupied_replicate (n N : Nat) : occupied (List.replicate n 0) N = 0 := by
  induction N with
  | zero => rfl
  | succ N ih => simp only [occupied]; rw [ih, rd_replicate]; rfl

/-- The rehash loop of `map_grow` over the first `n` old slots. -/
theorem grow_loop_spec (m : Map) (N : Nat) (hN : IsPow2 N) (hlt : m.cap < N) :
    ∀ n, n ≤ m.cap →
    ∃ a, grow_loop m N (List.range n)
        { keys := List.replicate (N + 1) 0, values := List.replicate (N + 1) 0,
          hashes := List.replicate N 0 } = some a ∧
      a.keys.length = N + 1 ∧ a.values.length = N + 1 ∧ a.hashes.length = N ∧
      occupied a.keys N ≤ occupied m.keys n ∧
      (NoDuplicate m.keys m.cap → HashesConsistent m.keys m.hashes m.cap →
        NoDuplicate a.keys N ∧ Reachable a.keys N ∧ HashesConsistent a.keys a.hashes N ∧
        (∀ k v, k ≠ 0 → (HoldsP a.keys a.values N k v ↔ HoldsP m.keys m.values n k v))) := by
  intro n
  induction n with
  | zero =>
    intro _
    refine ⟨_, rfl, by simp, by simp, by simp, ?_, ?_⟩
    · simp only
      rw [occupied_replicate]
      omega
    · intro _ _
      refine ⟨?_, ?_, ?_, ?_⟩
      · intro i _ j _ hne; simp only at hne; rw [rd_replicate] at hne; exact absurd rfl hne
      · intro i _ hne; simp only at hne; rw [rd_replicate] at hne; exact absurd rfl hne
      · intro i _ hne; simp only at hne; rw [rd_replicate] at hne; exact absurd rfl hne
      · intro k v hk
        simp only
        constructor
        · rintro ⟨i, _, h1, _⟩
          rw [rd_replicate] at h1; exact absurd h1.symm hk
        · rintro ⟨i, hi, _, _⟩; omega
  | succ n ih =>
    intro hn
    obtain ⟨a, ha, hlk, hlv, hlh, hocc, hstrong⟩ := ih (by omega)
    obtain ⟨a', ha', hlk', hlv', hlh', hocc', hstrong'⟩ :=
      grow_step_spec m N a n hN (by omega) hlk hlv hlh hocc
    refine ⟨a', ?_, hlk', hlv', hlh', hocc', ?_⟩
    · rw [List.range_succ, grow_loop_append, ha]
      simp only [grow_loop, ha']
    · intro hndm hcm
      obtain ⟨h1, h2, h3, h4⟩ := hstrong hndm hcm
      exact hstrong' (by omega) hndm hcm h1 h2 h3 h4

/-- Source `map_grow` to a larger power-of-two capacity always ends; the new
table has the prescribed shape, the old overflow pair and count, no more
occupied slots than the old one, and, when the old table is duplicate-free and
hash-consistent, a well-formed primary region holding the same pairs. -/
theorem map_grow_spec (m : Map) (N : Nat) (hN : IsPow2 N) (hlt : m.cap < N) :
    ∃ t, map_grow m N = some t ∧ t.cap = N ∧ t.count = m.count ∧ Shaped t ∧
      rd t.keys N = rd m.keys m.cap ∧ rd t.values N = rd m.values m.cap ∧
      occupied t.keys N ≤ occupied m.keys m.cap ∧
      (NoDuplicate m.keys m.cap → HashesConsistent m.keys m.hashes m.cap →
        NoDuplicate t.keys N ∧ Reachable t.keys N ∧ HashesConsistent t.keys t.hashes N ∧
        (∀ k v, k ≠ 0 → (HoldsP t.keys t.values N k v ↔ HoldsP m.keys m.values m.cap k v))) := by
  obtain ⟨a, ha, hlk, hlv, hlh, hocc, hstrong⟩ := grow_loop_spec m N hN hlt m.cap (Nat.le_refl _)
  unfold map_grow
  simp only [ha]
  have hk : ∀ q, q < N → rd (a.keys.set N (rd m.keys m.cap)) q = rd a.keys q :=
    fun q hq => rd_set_ne _ _ _ _ (by omega)
  have hv : ∀ q, q < N → rd (a.values.set N (rd m.values m.cap)) q = rd a.values q :=
    fun q hq => rd_set_ne _ _ _ _ (by omega)
  refine ⟨_, rfl, rfl, rfl, ⟨by simp [hlk], by simp [hlv], by simp [hlh]⟩, ?_, ?_, ?_, ?_⟩
  · exact rd_set_eq _ _ _ (by omega)
  · exact rd_set_eq _ _ _ (by omega)
  · simp only
    rw [occupied_congr _ _ N hk]; exact hocc
  · intro hndm hcm
    obtain ⟨h1, h2, h3, h4⟩ := hstrong hndm hcm
    refine ⟨noDuplicate_congr _ _ N hk h1, reachable_congr _ _ N hN hk h2,
      hashesConsistent_congr _ _ _ _ N hk (fun _ _ => rfl) h3, fun k v hkv => ?_⟩
    rw [← h4 k v hkv]
    simp only
    constructor
    · rintro ⟨i, hi, e1, e2⟩
      exact ⟨i, hi, by rw [← hk i hi]; exact e1, by rw [← hv i hi]; exact e2⟩
    · rintro ⟨i, hi, e1, e2⟩
      exact ⟨i, hi, by rw [hk i hi]; exact e1, by rw [hv i hi]; exact e2⟩

/-! ## map_get and map_add -/

theorem map_get_sentinel (t : Map) :
    map_get t 0 = if rd t.keys t.cap = 1 then some none else some (some (rd t.values t.cap)) := by
  simp [map_get, empty, overflow_empty]

theorem map_get_nonzero (t : Map) (k s : Nat) (hk : k ≠ 0)
    (hs : find_slot t.keys t.cap k (hash_key k) = some s) :
    map_get t k = if rd t.keys s = k then some (some (rd t.values s)) else some none := by
  have hke : ¬ k = empty := hk
  simp only [map_get, hke, if_false, hs]

theorem map_get_present (t : Map) (i : Nat) (hN : IsPow2 t.cap)
    (hnd : NoDuplicate t.keys t.cap) (hr : Reachable t.keys t.cap)
    (hi : i < t.cap) (hk : rd t.keys i ≠ 0) :
    map_get t (rd t.keys i) = some (some (rd t.values i)) := by
  rw [map_get_nonzero t _ i hk (lookup_present t.keys t.cap i hN hnd hr hi hk), if_pos rfl]

theorem map_get_absent (t : Map) (k : Nat) (hk : k ≠ 0) (hN : IsPow2 t.cap)
    (he : HasEmpty t.keys t.cap) (ha : ∀ i, i < t.cap → rd t.keys i ≠ k) :
    map_get t k = some none := by
  obtain ⟨s, hs, hlt, h0⟩ := lookup_absent t.keys t.cap k (hash_key k) hN he ha
  rw [map_get_nonzero t k s hk hs, if_neg (by rw [h0]; exact fun e => hk e.symm)]

/-- After the key is written into the slot `find_slot` returned, `find_slot`
returns the same slot again. -/
theorem find_slot_after_set (keys : List Nat) (N k h s : Nat) (hN : IsPow2 N)
    (hlen : N ≤ keys.length) (hs : find_slot keys N k h = some s) :
    find_slot (keys.set s k) N k h = some s := by
  obtain ⟨hsN, _, d, hd, hsd, hpre⟩ := find_slot_result keys N k h s hN hs
  have := find_slot_hit (keys.set s k) N k h d hN hd ?_ ?_
  · rwa [← hsd] at this
  · intro e he hst
    have hne : s ≠ (h % N + e) % N := by
      intro heq
      have := ring_inj N _ d e hd (by omega) (hsd.symm.trans heq)
      omega
    unfold Stop at hst
    rw [rd_set_ne keys s _ k hne] at hst
    exact hpre e he hst
  · rw [← hsd]
    exact Or.inl (rd_set_eq keys s k (by omega))

/-- The write phase of `map_add` for a non-sentinel key, on the table `t` in
which `find_slot` has returned `s`. -/
theorem add_core (t : Map) (k v s : Nat) (hk : k ≠ 0) (hN : IsPow2 t.cap) (hsh : Shaped t)
    (hs : find_slot t.keys t.cap k (hash_key k) = some s) :
    ∀ t', t' = ({ t with keys := t.keys.set s k, values := t.values.set s v,
                         hashes := t.hashes.set s (hash_key k),
                         count := t.count + 1 } : Map) →
      Shaped t' ∧ t'.cap = t.cap ∧ t'.count = t.count + 1 ∧
      map_get t' k = some (some v) ∧
      occupied t'.keys t.cap ≤ occupied t.keys t.cap + 1 ∧
      rd t'.keys t.cap = rd t.keys t.cap ∧ rd t'.values t.cap = rd t.values t.cap ∧
      HoldsP t'.keys t'.values t.cap k v ∧
      (∀ k' v', k' ≠ 0 → k' ≠ k →
        (HoldsP t'.keys t'.values t.cap k' v' ↔ HoldsP t.keys t.values t.cap k' v')) ∧
      (NoDuplicate t.keys t.cap → Reachable t.keys t.cap →
        HashesConsistent t.keys t.hashes t.cap →
        NoDuplicate t'.keys t.cap ∧ Reachable t'.keys t.cap ∧
        HashesConsistent t'.keys t'.hashes t.cap) := by
  intro t' ht'
  obtain ⟨hlk, hlv, hlh⟩ := hsh
  obtain ⟨hsN, hstop, _⟩ := find_slot_result t.keys t.cap k (hash_key k) s hN hs
  subst ht'
  refine ⟨⟨by simp [hlk], by simp [hlv], by simp [hlh]⟩, rfl, rfl, ?_, ?_, ?_, ?_, ?_, ?_, ?_⟩
  · have h1 := find_slot_after_set t.keys t.cap k (hash_key k) s hN (by omega) hs
    rw [map_get_nonzero _ k s hk h1]
    simp only
    rw [rd_set_eq _ _ _ (by omega), if_pos rfl, rd_set_eq _ _ _ (by omega)]
  · have := occupied_set_le t.keys s k t.cap
    simp only
    split at this <;> omega
  · exact rd_set_ne _ _ _ _ (by omega)
  · exact rd_set_ne _ _ _ _ (by omega)
  · exact ⟨s, hsN, rd_set_eq _ _ _ (by omega), rd_set_eq _ _ _ (by omega)⟩
  · intro k' v' hk'0 hk'
    simp only
    constructor
    · rintro ⟨i, hi, e1, e2⟩
      have his : s ≠ i := by
        rintro rfl
        rw [rd_set_eq _ _ _ (by omega)] at e1
        exact hk' e1.symm
      rw [rd_set_ne _ _ _ _ his] at e1 e2
      exact ⟨i, hi, e1, e2⟩
    · rintro ⟨i, hi, e1, e2⟩
      have his : s ≠ i := by
        rintro rfl
        rcases hstop with h | h
        · exact hk' (e1.symm.trans h)
        · exact hk'0 (e1.symm.trans h)
      exact ⟨i, hi, by rw [rd_set_ne _ _ _ _ his]; exact e1,
        by rw [rd_set_ne _ _ _ _ his]; exact e2⟩
  · intro hnd hr hc
    exact insert_wf t.keys t.hashes t.cap k s hN (by omega) (by omega) hk hnd hr hc hs

theorem isPow2_double (n : Nat) (h : IsPow2 n) : IsPow2 (2 * n) := by
  obtain ⟨k, rfl⟩ := h
  exact ⟨k + 1, by rw [Nat.pow_succ]; omega⟩

/-- Source `map_add` of a non-sentinel key on a table with room: it ends, and
the new table is described relative to the old one. -/
theorem map_add_spec (t : Map) (k v : Nat) (hk : k ≠ 0) (hN : IsPow2 t.cap) (hsh : Shaped t)
    (hroom : occupied t.keys t.cap < t.cap) :
    ∃ t', map_add t k v = some t' ∧ Shaped t' ∧ IsPow2 t'.cap ∧
      (t.count < (3 * (t.cap : Int)) / 4 → t'.cap = t.cap) ∧
      (t.count ≥ (3 * (t.cap : Int)) / 4 → t'.cap = 2 * t.cap) ∧
      t'.count = t.count + 1 ∧
      map_get t' k = some (some v) ∧
      occupied t'.keys t'.cap ≤ occupied t.keys t.cap + 1 ∧
      rd t'.keys t'.cap = rd t.keys t.cap ∧ rd t'.values t'.cap = rd t.values t.cap ∧
      HoldsP t'.keys t'.values t'.cap k v ∧
      (NoDuplicate t.keys t.cap → Reachable t.keys t.cap →
        HashesConsistent t.keys t.hashes t.cap →
        NoDuplicate t'.keys t'.cap ∧ Reachable t'.keys t'.cap ∧
        HashesConsistent t'.keys t'.hashes t'.cap ∧
        (∀ k' v', k' ≠ 0 → k' ≠ k →
          (HoldsP t'.keys t'.values t'.cap k' v' ↔ HoldsP t.keys t.values t.cap k' v'))) := by
  have hke : ¬ k = empty := hk
  have hpos := pow2_pos t.cap hN
  by_cases hgrow : t.count ≥ (3 * (t.cap : Int)) / 4
  · obtain ⟨t1, hg, hcap1, hcount1, hsh1, hov1, hovv1, hocc1, hstrong1⟩ :=
      map_grow_spec t (2 * t.cap) (isPow2_double _ hN) (by omega)
    have hN1 : IsPow2 t1.cap := by rw [hcap1]; exact isPow2_double _ hN
    have hempty1 : HasEmpty t1.keys t1.cap := by
      apply hasEmpty_of_occupied_lt
      rw [hcap1]; omega
    obtain ⟨q, hq, hq0⟩ := hempty1
    obtain ⟨s, hs⟩ := find_slot_terminates t1.keys t1.cap k (hash_key k) q hN1 hq (Or.inr hq0)
    obtain ⟨c1, c2, c3, c4, c5, c6, c7, c8, c9, c10⟩ := add_core t1 k v s hk hN1 hsh1 hs _ rfl
    refine ⟨_, ?_, c1, ?_, ?_, ?_, ?_, c4, ?_, ?_, ?_, ?_, ?_⟩
    · simp only [map_add, hke, if_false, hgrow, if_true, hg, hs]
    · exact hN1
    · intro h; omega
    · intro _; exact hcap1
    · show t1.count + 1 = t.count + 1
      rw [hcount1]
    · show occupied _ t1.cap ≤ _
      rw [hcap1] at c5 ⊢; omega
    · show rd _ t1.cap = _
      rw [c6, hcap1]; exact hov1
    · show rd _ t1.cap = _
      rw [c7, hcap1]; exact hovv1
    · exact c8
    · intro hnd hr hc
      obtain ⟨g1, g2, g3, g4⟩ := hstrong1 hnd hc
      rw [← hcap1] at g1 g2 g3 g4
      obtain ⟨w1, w2, w3⟩ := c10 g1 g2 g3
      refine ⟨w1, w2, w3, fun k' v' hk'0 hk' => ?_⟩
      rw [← g4 k' v' hk'0]
      exact c9 k' v' hk'0 hk'
  · have hempty : HasEmpty t.keys t.cap := hasEmpty_of_occupied_lt _ _ hroom
    obtain ⟨q, hq, hq0⟩ := hempty
    obtain ⟨s, hs⟩ := find_slot_terminates t.keys t.cap k (hash_key k) q hN hq (Or.inr hq0)
    obtain ⟨c1, c2, c3, c4, c5, c6, c7, c8, c9, c10⟩ := add_core t k v s hk hN hsh hs _ rfl
    refine ⟨_, ?_, c1, hN, ?_, ?_, rfl, c4, c5, c6, c7, c8, ?_⟩
    · simp only [map_add, hke, if_false, hgrow, hs]
    · intro _; rfl
    · intro h; exact absurd h hgrow
    · intro hnd hr hc
      obtain ⟨w1, w2, w3⟩ := c10 hnd hr hc
      exact ⟨w1, w2, w3, c9⟩

theorem map_add_sentinel (t : Map) (v : Nat) :
    map_add t 0 v = some { t with keys := t.keys.set t.cap 0, values := t.values.set t.cap v,
                                  count := t.count + 1 } := by
  simp [map_add, empty]

theorem map_add_sentinel_get (t : Map) (v : Nat) (hsh : Shaped t) :
    ∃ t', map_add t 0 v = some t' ∧ map_get t' 0 = some (some v) := by
  obtain ⟨hlk, hlv, _⟩ := hsh
  refine ⟨_, map_add_sentinel t v, ?_⟩
  rw [map_get_sentinel]
  simp only
  rw [rd_set_eq _ _ _ (by omega), rd_set_eq _ _ _ (by omega)]
  simp

theorem inv_create : Inv map_create := by
  have hk : ∀ q, q < 16 → rd map_create.keys q = 0 := by decide
  refine ⟨⟨rfl, rfl, rfl⟩, ⟨4, rfl⟩, Nat.le_refl _, ?_, ?_, ?_, ?_, ?_, Or.inr rfl⟩
  · intro i hi j hj hne; exact absurd (hk i hi) hne
  · intro i hi hne; exact absurd (hk i hi) hne
  · intro i hi hne; exact absurd (hk i hi) hne
  · show 4 * occupied map_create.keys 16 ≤ 3 * 16
    decide
  · show ((occupied map_create.keys 16 : Nat) : Int) ≤ 0
    decide

/-- Source `map_add` keeps the invariant, stores the pair and leaves every other
key as it was. -/
theorem map_add_inv (t : Map) (k v : Nat) (h : Inv t) :
    ∃ t', map_add t k v = some t' ∧ Inv t' ∧ Holds t' k v ∧
      ∀ k' v', k' ≠ k → (Holds t' k' v' ↔ Holds t k' v') := by
  obtain ⟨hsh, hN, hcap, hnd, hr, hc, hload, hlive, hov⟩ := h
  have hload' : 4 * occupied t.keys t.cap ≤ 3 * t.cap := hload
  by_cases hk : k = 0
  · subst hk
    obtain ⟨hlk, hlv, hlh⟩ := hsh
    have hkeys : ∀ q, q < t.cap → rd (t.keys.set t.cap 0) q = rd t.keys q :=
      fun q hq => rd_set_ne _ _ _ _ (by omega)
    have hvals : ∀ q, q < t.cap → rd (t.values.set t.cap v) q = rd t.values q :=
      fun q hq => rd_set_ne _ _ _ _ (by omega)
    refine ⟨_, map_add_sentinel t v,
      ⟨⟨by simp [hlk], by simp [hlv], hlh⟩, hN, hcap, ?_, ?_, ?_, ?_, ?_,
        Or.inl (rd_set_eq _ _ _ (by omega))⟩, ?_, ?_⟩
    · exact noDuplicate_congr _ _ _ hkeys hnd
    · exact reachable_congr _ _ _ hN hkeys hr
    · exact hashesConsistent_congr _ _ _ _ _ hkeys (fun _ _ => rfl) hc
    · show 4 * occupied (t.keys.set t.cap 0) t.cap ≤ 3 * t.cap
      rw [occupied_congr _ _ _ hkeys]; exact hload'
    · show ((occupied (t.keys.set t.cap 0) t.cap : Nat) : Int) ≤ t.count + 1
      rw [occupied_congr _ _ _ hkeys]; omega
    · exact Or.inl ⟨rfl, rd_set_eq _ _ _ (by omega), rd_set_eq _ _ _ (by omega)⟩
    · intro k' v' hk'
      unfold Holds HoldsP
      simp only [hk', false_and, false_or]
      constructor
      · rintro ⟨h0, i, hi, e1, e2⟩
        exact ⟨h0, i, hi, by rw [← hkeys i hi]; exact e1, by rw [← hvals i hi]; exact e2⟩
      · rintro ⟨h0, i, hi, e1, e2⟩
        exact ⟨h0, i, hi, (hkeys i hi).trans e1, (hvals i hi).trans e2⟩
  · obtain ⟨t', hadd, c1, c2, c3, c4, c5, c6, c7, c8, c9, c10, c11⟩ :=
      map_add_spec t k v hk hN hsh (by omega)
    obtain ⟨w1, w2, w3, w4⟩ := c11 hnd hr hc
    refine ⟨t', hadd, ⟨c1, c2, ?_, w1, w2, w3, ?_, ?_, ?_⟩, Or.inr ⟨hk, c10⟩, ?_⟩
    · by_cases hg : t.count ≥ (3 * (t.cap : Int)) / 4
      · rw [c4 hg]; omega
      · rw [c3 (by omega)]; exact hcap
    · show 4 * occupied t'.keys t'.cap ≤ 3 * t'.cap
      by_cases hg : t.count ≥ (3 * (t.cap : Int)) / 4
      · rw [c4 hg] at c7 ⊢; omega
      · rw [c3 (by omega)] at c7 ⊢; omega
    · rw [c5]; omega
    · unfold OverflowState
      rw [c8]; exact hov
    · intro k' v' hk'
      unfold Holds
      by_cases hk'0 : k' = 0
      · subst hk'0
        simp only [true_and, ne_eq, not_true_eq_false, false_and, or_false]
        rw [c8, c9]
      · simp only [hk'0, false_and, false_or, ne_eq, not_false_eq_true, true_and]
        exact w4 k' v' hk'0 hk'

theorem remove_loop_unfold (fuel : Nat) (m : Map) (i j : Nat) :
    remove_loop (fuel + 1) m i j =
      if rd m.keys ((j + 1) &&& (m.cap - 1)) = empty then some m
      else if in_cyclic_interval (toS32 (rd m.hashes ((j + 1) &&& (m.cap - 1)))) i
          (((j + 1) &&& (m.cap - 1) : Nat) : Int) = true then
        remove_loop fuel m i ((j + 1) &&& (m.cap - 1))
      else
        remove_loop fuel
          { keys := (m.keys.set i (rd m.keys ((j + 1) &&& (m.cap - 1)))).set
                      ((j + 1) &&& (m.cap - 1)) empty
            values := m.values.set i (rd m.values ((j + 1) &&& (m.cap - 1)))
            hashes := m.hashes.set i (rd m.hashes ((j + 1) &&& (m.cap - 1)))
            cap := m.cap
            count := m.count }
          ((j + 1) &&& (m.cap - 1)) ((j + 1) &&& (m.cap - 1)) := by
  rfl

/-- A result of the scan of `map_remove` does not depend on spare fuel. -/
theorem remove_loop_fuel_mono :
    ∀ (fuel fuel' : Nat) (m : Map) (i j : Nat) (r : Map), fuel ≤ fuel' →
      remove_loop fuel m i j = some r → remove_loop fuel' m i j = some r := by
  intro fuel
  induction fuel with
  | zero => intro _ m i j r _ h; simp [remove_loop] at h
  | succ f ih =>
    intro fuel' m i j r hle h
    obtain ⟨f', rfl⟩ : ∃ f', fuel' = f' + 1 := ⟨fuel' - 1, by omega⟩
    rw [remove_loop_unfold] at h ⊢
    split
    · rename_i h0; rw [if_pos h0] at h; exact h
    · rename_i h0
      rw [if_neg h0] at h
      split
      · rename_i h1; rw [if_pos h1] at h; exact ih f' _ _ _ r (by omega) h
      · rename_i h1; rw [if_neg h1] at h; exact ih f' _ _ _ r (by omega) h

/-- The scan of `map_remove` ends before it passes an empty slot `e`, and only
moves stored keys: a key absent at the start is absent at the end, the empty
slot stays empty and the overflow pair, capacity and count are untouched. -/
theorem remove_loop_spec (k e : Nat) (hk : k ≠ 0) :
    ∀ (d fuel : Nat) (m : Map) (i j : Nat), IsPow2 m.cap → Shaped m →
      i < m.cap → j < m.cap → e < m.cap → rd m.keys e = 0 → j ≠ e → i ≠ e →
      (j + d) % m.cap = e → d ≤ fuel → (∀ q, q < m.cap → rd m.keys q ≠ k) →
      ∃ m', remove_loop fuel m i j = some m' ∧ Shaped m' ∧ m'.cap = m.cap ∧
        m'.count = m.count ∧ rd m'.keys e = 0 ∧ (∀ q, q < m.cap → rd m'.keys q ≠ k) ∧
        rd m'.keys m.cap = rd m.keys m.cap ∧ rd m'.values m.cap = rd m.values m.cap := by
  intro d
  induction d with
  | zero =>
    intro fuel m i j _ _ _ hj _ _ hje _ hd
    exfalso
    have : (j + 0) % m.cap = j := by simpa using Nat.mod_eq_of_lt hj
    rw [this] at hd
    exact hje hd
  | succ d ih =>
    intro fuel m i j hN hsh hi hj he he0 hje hie hd hfuel habs
    obtain ⟨f, rfl⟩ : ∃ f, fuel = f + 1 := ⟨fuel - 1, by omega⟩
    have hpos := pow2_pos m.cap hN
    have hj' : (j + 1) % m.cap < m.cap := Nat.mod_lt _ hpos
    have hd' : ((j + 1) % m.cap + d) % m.cap = e := by rw [ring_succ]; exact hd
    rw [remove_loop_unfold, mask_eq_mod m.cap hN]
    by_cases h0 : rd m.keys ((j + 1) % m.cap) = empty
    · rw [if_pos h0]
      exact ⟨m, rfl, hsh, rfl, rfl, he0, habs, rfl, rfl⟩
    · rw [if_neg h0]
      have hj'e : (j + 1) % m.cap ≠ e := by
        intro heq; rw [heq] at h0; exact h0 he0
      split
      · exact ih f m i _ hN hsh hi hj' he he0 hj'e hie hd' (by omega) habs
      · obtain ⟨hlk, hlv, hlh⟩ := hsh
        generalize (j + 1) % m.cap = j' at *
        have hkeys : ∀ q, rd ((m.keys.set i (rd m.keys j')).set j' empty) q =
            if q = j' then 0 else if q = i then rd m.keys j' else rd m.keys q := by
          intro q
          rw [rd_set _ _ _ _ (by simp; omega), rd_set _ _ _ _ (by omega)]
          rfl
        have := ih f
          { keys := (m.keys.set i (rd m.keys j')).set j' empty
            values := m.values.set i (rd m.values j')
            hashes := m.hashes.set i (rd m.hashes j')
            cap := m.cap
            count := m.count } j' j' hN
          ⟨by simp [hlk], by simp [hlv], by simp [hlh]⟩ hj' hj' he
          (by show rd _ e = 0
              rw [hkeys, if_neg (fun h => hj'e h.symm), if_neg (fun h => hie h.symm)]
              exact he0)
          hj'e hj'e hd' (by omega)
          (by intro q hq
              show rd _ q ≠ k
              rw [hkeys]
              split
              · exact fun h => hk h.symm
              · split
                · exact habs j' hj'
                · exact habs q hq)
        obtain ⟨m', h1, h2, h3, h4, h5, h6, h7, h8⟩ := this
        refine ⟨m', h1, h2, h3, h4, h5, h6, ?_, ?_⟩
        · rw [h7]
          show rd _ m.cap = _
          rw [hkeys, if_neg (by omega), if_neg (by omega)]
        · rw [h8]
          show rd _ m.cap = _
          rw [rd_set_ne _ _ _ _ (by omega)]

theorem map_remove_sentinel (t : Map) :
    map_remove t 0 =
      if rd t.keys t.cap = 0 then
        some { t with keys := t.keys.set t.cap 1, values := t.values.set t.cap 0,
                      count := t.count - 1 }
      else some t := by
  simp [map_remove, empty, overflow_empty]

theorem map_remove_sentinel_get (t : Map) (hsh : Shaped t) (hov : OverflowState t) :
    ∃ t', map_remove t 0 = some t' ∧ map_get t' 0 = some none := by
  obtain ⟨hlk, _, _⟩ := hsh
  rw [map_remove_sentinel]
  by_cases h0 : rd t.keys t.cap = 0
  · rw [if_pos h0]
    refine ⟨_, rfl, ?_⟩
    rw [map_get_sentinel]
    simp only
    rw [rd_set_eq _ _ _ (by omega), if_pos rfl]
  · rw [if_neg h0]
    refine ⟨t, rfl, ?_⟩
    have h1 : rd t.keys t.cap = 1 := by
      rcases hov with h | h
      · exact absurd h h0
      · exact h
    rw [map_get_sentinel, if_pos h1]

/-- Source `map_remove` of a non-sentinel key on a duplicate-free, reachable
table with an empty primary slot ends and leaves no primary slot holding the
key. -/
theorem map_remove_spec (t : Map) (k : Nat) (hk : k ≠ 0) (hsh : Shaped t) (hN : IsPow2 t.cap)
    (hnd : NoDuplicate t.keys t.cap) (hr : Reachable t.keys t.cap)
    (he : HasEmpty t.keys t.cap) :
    ∃ t', map_remove t k = some t' ∧ Shaped t' ∧ t'.cap = t.cap ∧ t'.count = t.count ∧
      HasEmpty t'.keys t'.cap ∧ (∀ q, q < t'.cap → rd t'.keys q ≠ k) ∧
      rd t'.keys t'.cap = rd t.keys t.cap ∧ rd t'.values t'.cap = rd t.values t.cap := by
  have hke : ¬ k = empty := hk
  obtain ⟨e, he, he0⟩ := he
  obtain ⟨s, hs⟩ := find_slot_terminates t.keys t.cap k (hash_key k) e hN he (Or.inr he0)
  obtain ⟨hsN, hstop, _⟩ := find_slot_result t.keys t.cap k (hash_key k) s hN hs
  simp only [map_remove, hke, if_false, hs]
  by_cases hs0 : rd t.keys s = empty
  · rw [if_pos hs0]
    refine ⟨t, rfl, hsh, rfl, rfl, ⟨e, he, he0⟩, ?_, rfl, rfl⟩
    intro q hq hqk
    have := lookup_present t.keys t.cap q hN hnd hr hq (by rw [hqk]; exact hk)
    rw [hqk, hs] at this
    rw [Option.some.inj this, hqk] at hs0
    exact hk hs0
  · rw [if_neg hs0]
    have hsk : rd t.keys s = k := by
      rcases hstop with h | h
      · exact h
      · exact absurd h hs0
    have hse : s ≠ e := by
      intro h; rw [h] at hs0; exact hs0 he0
    obtain ⟨hlk, hlv, hlh⟩ := hsh
    obtain ⟨d, hd, hde⟩ := ring_reach t.cap s e hsN he
    have := remove_loop_spec k e hk d t.cap { t with keys := t.keys.set s empty } s s hN
      ⟨by simp [hlk], hlv, hlh⟩ hsN hsN he
      (by show rd (t.keys.set s empty) e = 0
          rw [rd_set_ne _ _ _ _ hse]; exact he0)
      hse hse hde (by omega)
      (by intro q hq
          show rd (t.keys.set s empty) q ≠ k
          rw [rd_set _ _ _ _ (by omega)]
          split
          · exact fun h => hk h.symm
          · rename_i hqs
            intro hqk
            exact hqs (hnd q hq s hsN (by rw [hqk]; exact hk) (hqk.trans hsk.symm)))
    obtain ⟨m', h1, h2, h3, h4, h5, h6, h7, h8⟩ := this
    refine ⟨m', h1, h2, h3, h4, ⟨e, by rw [h3]; exact he, h5⟩, ?_, ?_, ?_⟩
    · intro q hq; rw [h3] at hq; exact h6 q hq
    · rw [h3, h7]
      show rd (t.keys.set s empty) t.cap = _
      rw [rd_set_ne _ _ _ _ (by omega)]
    · rw [h3, h8]

/-! ## next_power_of_two and map_reserve -/

theorem shiftRight_le_self (y m : Nat) : y >>> m ≤ y := by
  rw [Nat.shiftRight_eq_div_pow]
  exact Nat.div_le_self _ _

/-- One smearing step `y |= y >> m` doubles the run of set bits below the top
bit `t`. -/
theorem smear_step (y t m : Nat) (hlt : y < 2 ^ (t + 1))
    (hbits : ∀ i, i ≤ t → t + 1 ≤ i + m → y.testBit i = true) :
    (y ||| (y >>> m)) < 2 ^ (t + 1) ∧
      ∀ i, i ≤ t → t + 1 ≤ i + 2 * m → (y ||| (y >>> m)).testBit i = true := by
  refine ⟨Nat.or_lt_two_pow hlt (Nat.lt_of_le_of_lt (shiftRight_le_self y m) hlt), ?_⟩
  intro i hi him
  rw [Nat.testBit_or, Nat.testBit_shiftRight]
  by_cases h : t + 1 ≤ i + m
  · rw [hbits i hi h]; rfl
  · rw [hbits (m + i) (by omega) (by omega)]; simp

theorem all_bits_set (y t : Nat) (hlt : y < 2 ^ (t + 1))
    (hbits : ∀ i, i ≤ t → y.testBit i = true) : y = 2 ^ (t + 1) - 1 := by
  apply Nat.eq_of_testBit_eq
  intro i
  rw [Nat.testBit_two_pow_sub_one]
  by_cases hi : i ≤ t
  · rw [hbits i hi]; simp; omega
  · have : y < 2 ^ i :=
      Nat.lt_of_lt_of_le hlt (Nat.pow_le_pow_right (by decide) (by omega))
    rw [Nat.testBit_lt_two_pow this]; simp; omega

/-- Source `next_power_of_two` on a value whose top set bit is bit `t <= 31`. -/
theorem next_power_of_two_top (x t : Nat) (hbit : x.testBit t = true) (hlt : x < 2 ^ (t + 1))
    (ht : t ≤ 31) : next_power_of_two x = 2 ^ (t + 1) % 2 ^ 32 := by
  have s0 : ∀ i, i ≤ t → t + 1 ≤ i + 1 → x.testBit i = true := by
    intro i hi h
    have : i = t := by omega
    rw [this]; exact hbit
  obtain ⟨l1, s1⟩ := smear_step x t 1 hlt s0
  obtain ⟨l2, s2⟩ := smear_step _ t 2 l1 s1
  obtain ⟨l3, s3⟩ := smear_step _ t 4 l2 s2
  obtain ⟨l4, s4⟩ := smear_step _ t 8 l3 s3
  obtain ⟨l5, s5⟩ := smear_step _ t 16 l4 s4
  have := all_bits_set _ t l5 (fun i hi => s5 i hi (by omega))
  unfold next_power_of_two
  simp only
  rw [this]
  have hpos : 0 < 2 ^ (t + 1) := Nat.pos_pow_of_pos _ (by decide)
  rw [Nat.sub_add_cancel hpos]

/-- Source `next_power_of_two` on a `u32`: the result is the least power of two
strictly above `x`, reduced modulo `2^32`. -/
theorem next_power_of_two_spec (x : Nat) (hx : x < 2 ^ 32) :
    ∃ k, k ≤ 32 ∧ next_power_of_two x = 2 ^ k % 2 ^ 32 ∧ x < 2 ^ k ∧
      (∀ j, x < 2 ^ j → k ≤ j) := by
  by_cases h0 : x = 0
  · subst h0
    exact ⟨0, by omega, by decide, by decide, fun j _ => by omega⟩
  · obtain ⟨t, hbit, htop⟩ := Nat.exists_most_significant_bit h0
    have hlt : x < 2 ^ (t + 1) := Nat.lt_pow_two_of_testBit x (fun i hi => htop i (by omega))
    have hge : 2 ^ t ≤ x := Nat.testBit_implies_ge hbit
    have ht : t < 32 := by
      by_contra hc
      have : 2 ^ 32 ≤ 2 ^ t := Nat.pow_le_pow_right (by decide) (by omega)
      omega
    refine ⟨t + 1, by omega, next_power_of_two_top x t hbit hlt (by omega), hlt, ?_⟩
    intro j hj
    by_contra hc
    have : 2 ^ j ≤ 2 ^ t := Nat.pow_le_pow_right (by decide) (by omega)
    omega

/-- Smearing never leaves the range `[0, 2^k)`, so the result is at most `2^k`. -/
theorem next_power_of_two_le (x k : Nat) (hx : x < 2 ^ k) : next_power_of_two x ≤ 2 ^ k := by
  have step : ∀ y m, y < 2 ^ k → (y ||| (y >>> m)) < 2 ^ k := fun y m hy =>
    Nat.or_lt_two_pow hy (Nat.lt_of_le_of_lt (shiftRight_le_self y m) hy)
  have h5 := step _ 16 (step _ 8 (step _ 4 (step _ 2 (step x 1 hx))))
  unfold next_power_of_two
  simp only
  exact Nat.le_trans (Nat.mod_le _ _) h5

theorem toU32_lt (n : Int) : toU32 n < 2 ^ 32 := by
  unfold toU32
  have h1 : 0 ≤ n % 2 ^ 32 := Int.emod_nonneg _ (by decide)
  have h2 : n % 2 ^ 32 < 2 ^ 32 := Int.emod_lt_of_pos _ (by decide)
  omega

theorem toU32_of_nonneg (n : Int) (h0 : 0 ≤ n) (hn : n < 2 ^ 32) : toU32 n = n.toNat := by
  unfold toU32
  rw [Int.emod_eq_of_lt h0 hn]

theorem toU32_le (n : Int) (h0 : 0 ≤ n) : toU32 n ≤ n.toNat := by
  unfold toU32
  omega

theorem toS32_small (x : Nat) (h : x < 2 ^ 31) : toS32 x = (x : Int) := by
  unfold toS32
  have : x % 2 ^ 32 = x := Nat.mod_eq_of_lt (by omega)
  rw [this, if_pos h]

theorem toS32_le (x : Nat) : toS32 x ≤ (x : Int) := by
  unfold toS32
  have : x % 2 ^ 32 ≤ x := Nat.mod_le _ _
  split <;> omega

/-- The capacity `map_reserve` asks for: when it is positive it is a power of
two, at most `2^30`, and the least power of two above the `u32` argument. -/
theorem reserve_target (x : Nat) (hx : x < 2 ^ 32) (hpos : 0 < toS32 (next_power_of_two x)) :
    ∃ k, k ≤ 30 ∧ toS32 (next_power_of_two x) = ((2 ^ k : Nat) : Int) ∧ x < 2 ^ k ∧
      (∀ j, x < 2 ^ j → k ≤ j) := by
  obtain ⟨k, hk, hnp, hlt, hmin⟩ := next_power_of_two_spec x hx
  rw [hnp] at hpos ⊢
  have hk' : k ≤ 30 := by
    by_contra hc
    have : k = 31 ∨ k = 32 := by omega
    rcases this with rfl | rfl
    · revert hpos; decide
    · revert hpos; decide
  have h30 : 2 ^ k ≤ 2 ^ 30 := Nat.pow_le_pow_right (by decide) hk'
  have hmod : 2 ^ k % 2 ^ 32 = 2 ^ k := Nat.mod_eq_of_lt (by omega)
  rw [hmod]
  exact ⟨k, hk', toS32_small _ (by omega), hlt, hmin⟩

/-- Source `map_reserve`: it always ends, keeps count, and the new table answers
every lookup as the old one did, when the old table is well formed. -/
theorem map_reserve_spec (t : Map) (n : Int) (hsh : Shaped t) (hN : IsPow2 t.cap)
    (hc : HashesConsistent t.keys t.hashes t.cap) (hnd : NoDuplicate t.keys t.cap)
    (hr : Reachable t.keys t.cap) (he : HasEmpty t.keys t.cap) :
    ∃ t', map_reserve t n = some t' ∧ t'.count = t.count ∧ Shaped t' ∧ IsPow2 t'.cap ∧
      t.cap ≤ t'.cap ∧ ∀ k, map_get t' k = map_get t k := by
  unfold map_reserve
  simp only
  by_cases hgt : toS32 (next_power_of_two (toU32 n)) > (t.cap : Int)
  · rw [if_pos hgt]
    obtain ⟨j, _, hj, _, _⟩ := reserve_target (toU32 n) (toU32_lt n) (by omega)
    rw [hj] at hgt ⊢
    rw [Int.toNat_ofNat]
    have hlt : t.cap < 2 ^ j := by omega
    obtain ⟨t', hg, hcap, hcount, hsh', hov, hovv, hocc, hstrong⟩ :=
      map_grow_spec t (2 ^ j) ⟨j, rfl⟩ hlt
    obtain ⟨g1, g2, g3, g4⟩ := hstrong hnd hc
    have hN' : IsPow2 t'.cap := ⟨j, hcap⟩
    rw [← hcap] at g1 g2 g3 g4 hov hovv hocc
    refine ⟨t', hg, hcount, hsh', hN', by omega, fun k => ?_⟩
    by_cases hk : k = 0
    · subst hk
      rw [map_get_sentinel, map_get_sentinel, hov, hovv]
    · by_cases hp : ∃ i, i < t.cap ∧ rd t.keys i = k
      · obtain ⟨i, hi, hik⟩ := hp
        obtain ⟨i', hi', e1, e2⟩ := (g4 k (rd t.values i) hk).2 ⟨i, hi, hik, rfl⟩
        have h1 := map_get_present t i hN hnd hr hi (by rw [hik]; exact hk)
        have h2 := map_get_present t' i' hN' g1 g2 hi' (by rw [e1]; exact hk)
        rw [hik] at h1
        rw [e1, e2] at h2
        rw [h1, h2]
      · have ha : ∀ i, i < t.cap → rd t.keys i ≠ k := fun i hi h => hp ⟨i, hi, h⟩
        have ha' : ∀ i, i < t'.cap → rd t'.keys i ≠ k := by
          intro i hi h
          obtain ⟨i0, hi0, e1, _⟩ := (g4 k (rd t'.values i) hk).1 ⟨i, hi, h, rfl⟩
          exact ha i0 hi0 e1
        have he' : HasEmpty t'.keys t'.cap := by
          apply hasEmpty_of_occupied_lt
          have := occupied_le t.keys t.cap
          omega
        rw [map_get_absent t k hk hN he ha, map_get_absent t' k hk hN' he' ha']
  · rw [if_neg hgt]
    exact ⟨t, rfl, rfl, hsh, hN, Nat.le_refl _, fun _ => rfl⟩

/-! ## The claims -/

/-- C3 fails on the code: after `map_add(1, 10)` and `map_add(4, 40)` on a fresh
table (home slots 12 and 13), `map_get(4)` finds 40, but after `map_remove(1)`
the pair of key 4 has been moved from its home slot 13 to slot 12 and
`map_get(4)` reports not found. The scan compares the raw cached hash with the
slot indices instead of its home position `hash & (cap - 1)`. -/
theorem remove_strands_other_key :
    (add_all map_create [(1, 10), (4, 40)]).bind (fun t => map_get t 4) = some (some 40) ∧
    ((add_all map_create [(1, 10), (4, 40)]).bind (fun t => map_remove t 1)).bind
      (fun t => map_get t 4) = some none ∧
    ((add_all map_create [(1, 10), (4, 40)]).bind (fun t => map_remove t 1)).map
      (fun t => (rd t.keys 12, rd t.keys 13)) = some (4, 0) ∧
    hash_key 4 % 16 = 13 := by
  decide

/-- C4: on a well-formed table (arrays of the data model's lengths, power-of-two
capacity, no key in two primary slots, every entry reachable from its home slot,
an empty primary slot, overflow slot in one of its two states) `map_remove` of
any key, present or not, ends, and `map_get` of that key on the result reports
not found. -/
theorem remove_then_get (t : Map) (k : Nat) (hshape : Shaped t) (hpow : IsPow2 t.cap)
    (hnodup : NoDuplicate t.keys t.cap) (hreach : Reachable t.keys t.cap)
    (hempty : HasEmpty t.keys t.cap) (hov : OverflowState t) :
    ∃ t', map_remove t k = some t' ∧ map_get t' k = some none := by
  by_cases hk : k = 0
  · subst hk
    exact map_remove_sentinel_get t hshape hov
  · obtain ⟨t', hrem, _, hcap, _, he', habs, _⟩ :=
      map_remove_spec t k hk hshape hpow hnodup hreach hempty
    exact ⟨t', hrem, map_get_absent t' k hk (by rw [hcap]; exact hpow) he' habs⟩

/-- C4 at the case of `test_remove`: `map_add(6356, 711677)` on a fresh table
gives the table shown, on which `map_remove(6356)` ends and `map_get(6356)` then
reports not found. -/
theorem remove_then_get_witness :
    map_add map_create 6356 711677 = some
        { keys := [0, 0, 6356, 0, 0, 0, 0, 0, 0, 0, 0, 0, 0, 0, 0, 0, 1]
          values := [0, 0, 711677, 0, 0, 0, 0, 0, 0, 0, 0, 0, 0, 0, 0, 0, 0]
          hashes := [0, 0, 1188253794, 0, 0, 0, 0, 0, 0, 0, 0, 0, 0, 0, 0, 0]
          cap := 16
          count := 1 } ∧
    ∃ t', map_remove
        { keys := [0, 0, 6356, 0, 0, 0, 0, 0, 0, 0, 0, 0, 0, 0, 0, 0, 1]
          values := [0, 0, 711677, 0, 0, 0, 0, 0, 0, 0, 0, 0, 0, 0, 0, 0, 0]
          hashes := [0, 0, 1188253794, 0, 0, 0, 0, 0, 0, 0, 0, 0, 0, 0, 0, 0]
          cap := 16
          count := 1 } 6356 = some t' ∧ map_get t' 6356 = some none :=
  ⟨by decide,
    remove_then_get _ 6356 ⟨rfl, rfl, rfl⟩ ⟨4, rfl⟩ (by unfold NoDuplicate; decide)
      (by unfold Reachable; decide) ⟨0, by decide, rfl⟩ (Or.inr rfl)⟩

/-- C5 fails on the code: after the single `map_add(253, 512)` on a fresh table
(N = 1, key stored in slot 2) the traversal of `ITERATE_MAP` runs its body
twice: `map_iterator_start` returns index 0 without looking at the slot, so the
first pair read is the empty slot 0, `(0, 0)`, followed by `(253, 512)`. -/
theorem iterate_visits_empty_slot_zero :
    (map_add map_create 253 512).bind (fun t => map_iterate t) =
      some [(0, 0), (253, 512)] ∧
    (map_add map_create 253 512).map (fun t => (map_iterator_start t).index) = some 0 ∧
    (map_add map_create 253 512).map (fun t => rd t.keys 0) = some empty := by
  decide

/-- C6: for every table whose arrays have the data model's lengths and whose
overflow slot is overflow-empty or occupied, whatever the primary region holds,
and every value `v`: `map_get` after `map_add(0, v)` reports found with `v`;
`map_get(0)` after `map_remove(0)` reports not found; and `map_add(0, v)`, then
`map_remove(0)`, then `map_get(0)` reports not found. -/
theorem sentinel_round_trip (t : Map) (v : Nat) (hshape : Shaped t) (hov : OverflowState t) :
    (∃ t1, map_add t 0 v = some t1 ∧ map_get t1 0 = some (some v)) ∧
    (∃ t2, map_remove t 0 = some t2 ∧ map_get t2 0 = some none) ∧
    (∃ t1 t3, map_add t 0 v = some t1 ∧ map_remove t1 0 = some t3 ∧
      map_get t3 0 = some none) := by
  obtain ⟨hlk, hlv, hlh⟩ := hshape
  refine ⟨map_add_sentinel_get t v ⟨hlk, hlv, hlh⟩,
    map_remove_sentinel_get t ⟨hlk, hlv, hlh⟩ hov, ?_⟩
  obtain ⟨t3, h1, h2⟩ := map_remove_sentinel_get
    { t with keys := t.keys.set t.cap 0, values := t.values.set t.cap v, count := t.count + 1 }
    ⟨by simp [hlk], by simp [hlv], hlh⟩ (Or.inl (rd_set_eq _ _ _ (by omega)))
  exact ⟨_, t3, map_add_sentinel t v, h1, h2⟩

/-- C6 at the calls of `test_get_overflow` and `test_remove_overflow` on a fresh
table. -/
theorem sentinel_round_trip_witness :
    (∃ t1, map_add map_create 0 612377 = some t1 ∧ map_get t1 0 = some (some 612377)) ∧
    (∃ t2, map_remove map_create 0 = some t2 ∧ map_get t2 0 = some none) ∧
    (∃ t1 t3, map_add map_create 0 612377 = some t1 ∧ map_remove t1 0 = some t3 ∧
      map_get t3 0 = some none) :=
  sentinel_round_trip map_create 612377 ⟨rfl, rfl, rfl⟩ (Or.inr rfl)

/-- C7: in the table of `map_create` (capacity 16, count 0, the 16 primary slots
empty, overflow slot holding the overflow-empty marker) `map_get` reports not
found for every key, the sentinel 0 and the key with bit pattern 1 included. -/
theorem get_on_created_table :
    map_create.cap = 16 ∧ map_create.count = 0 ∧
    (∀ q, q < 16 → rd map_create.keys q = empty) ∧
    rd map_create.keys 16 = overflow_empty ∧
    ∀ k, map_get map_create k = some none := by
  refine ⟨rfl, rfl, by decide, rfl, fun k => ?_⟩
  by_cases hk : k = 0
  · subst hk; decide
  · exact map_get_absent map_create k hk ⟨4, rfl⟩ ⟨0, by decide, rfl⟩
      (fun i hi h => hk (by
        have h0 : ∀ q, q < 16 → rd map_create.keys q = 0 := by decide
        rw [← h, h0 i hi]))

/-- C8: on a well-formed table (arrays of the data model's lengths, power-of-two
capacity, consistent cached hashes, no duplicate key, every entry reachable from
its home slot, an empty primary slot) and for every requested capacity `n`,
`map_reserve` ends, leaves `count` unchanged, and `map_get` of every key
(sentinel included) gives on the new table the same found flag and value as on
the old one. -/
theorem reserve_preserves_get (t : Map) (n : Int) (hshape : Shaped t) (hpow : IsPow2 t.cap)
    (hhash : HashesConsistent t.keys t.hashes t.cap) (hnodup : NoDuplicate t.keys t.cap)
    (hreach : Reachable t.keys t.cap) (hempty : HasEmpty t.keys t.cap) :
    ∃ t', map_reserve t n = some t' ∧ t'.count = t.count ∧
      ∀ k, map_get t' k = map_get t k := by
  obtain ⟨t', h1, h2, _, _, _, h3⟩ :=
    map_reserve_spec t n hshape hpow hhash hnodup hreach hempty
  exact ⟨t', h1, h2, h3⟩

/-- C8 at `map_reserve(32)` on the table holding the pairs `(1, 10)` and
`(4, 40)`. -/
theorem reserve_preserves_get_witness :
    ∃ t', map_reserve
        { keys := [0, 0, 0, 0, 0, 0, 0, 0, 0, 0, 0, 0, 1, 4, 0, 0, 1]
          values := [0, 0, 0, 0, 0, 0, 0, 0, 0, 0, 0, 0, 10, 40, 0, 0, 0]
          hashes := [0, 0, 0, 0, 0, 0, 0, 0, 0, 0, 0, 0, 357654460, 1430614333, 0, 0]
          cap := 16
          count := 2 } 32 = some t' ∧
      t'.count = 2 ∧
      ∀ k, map_get t' k = map_get
        { keys := [0, 0, 0, 0, 0, 0, 0, 0, 0, 0, 0, 0, 1, 4, 0, 0, 1]
          values := [0, 0, 0, 0, 0, 0, 0, 0, 0, 0, 0, 0, 10, 40, 0, 0, 0]
          hashes := [0, 0, 0, 0, 0, 0, 0, 0, 0, 0, 0, 0, 357654460, 1430614333, 0, 0]
          cap := 16
          count := 2 } k :=
  reserve_preserves_get _ 32 ⟨rfl, rfl, rfl⟩ ⟨4, rfl⟩ (by unfold HashesConsistent; decide)
    (by unfold NoDuplicate; decide) (by unfold Reachable; decide) ⟨0, by decide, rfl⟩

/-- Source `map_reserve` with a request `0 <= n < 2^30`: it ends, and with `2^j`
the power of two it computes (above `n`, at most `2^30`) the capacity stays as it
is when `2^j` does not exceed it and becomes `2^j` otherwise. -/
theorem map_reserve_cap (t : Map) (n : Int) (h0 : 0 ≤ n)
    (hn : n < 2 ^ 30) :
    ∃ t' j, map_reserve t n = some t' ∧ j ≤ 30 ∧ n < ((2 ^ j : Nat) : Int) ∧
      (t'.cap = t.cap ∧ 2 ^ j ≤ t.cap ∨ t'.cap = 2 ^ j ∧ t.cap < 2 ^ j) := by
  have hx : toU32 n = n.toNat := toU32_of_nonneg n h0 (by omega)
  have hxlt : n.toNat < 2 ^ 32 := by omega
  obtain ⟨k, hk, hnp, hlt, hmin⟩ := next_power_of_two_spec n.toNat hxlt
  have hk30 : k ≤ 30 := hmin 30 (by omega)
  have h30 : 2 ^ k ≤ 2 ^ 30 := Nat.pow_le_pow_right (by decide) hk30
  have hmod : 2 ^ k % 2 ^ 32 = 2 ^ k := Nat.mod_eq_of_lt (by omega)
  have hs : toS32 (next_power_of_two (toU32 n)) = ((2 ^ k : Nat) : Int) := by
    rw [hx, hnp, hmod]; exact toS32_small _ (by omega)
  have hnk : n < ((2 ^ k : Nat) : Int) := by omega
  unfold map_reserve
  simp only
  rw [hs, Int.toNat_ofNat]
  by_cases hgt : ((2 ^ k : Nat) : Int) > (t.cap : Int)
  · rw [if_pos hgt]
    have hlt' : t.cap < 2 ^ k := by omega
    obtain ⟨t', hg, hcap, _⟩ := map_grow_spec t (2 ^ k) ⟨k, rfl⟩ hlt'
    exact ⟨t', k, hg, hk30, hnk, Or.inr ⟨hcap, hlt'⟩⟩
  · rw [if_neg hgt]
    exact ⟨t, k, rfl, hk30, hnk, Or.inl ⟨rfl, by omega⟩⟩

/-- C9: for every table whose capacity is a power of two and every `n` with
`0 <= n < 2^30`, `map_reserve(t, n)` ends and the capacity afterwards is a power
of two and at least `n`. -/
theorem reserve_capacity (t : Map) (n : Int) (hpow : IsPow2 t.cap) (h0 : 0 ≤ n)
    (hn : n < 2 ^ 30) :
    ∃ t', map_reserve t n = some t' ∧ IsPow2 t'.cap ∧ n ≤ (t'.cap : Int) := by
  obtain ⟨t', j, hres, _, hnj, hcase⟩ := map_reserve_cap t n h0 hn
  rcases hcase with ⟨hc, hle⟩ | ⟨hc, _⟩
  · exact ⟨t', hres, by rw [hc]; exact hpow, by rw [hc]; omega⟩
  · exact ⟨t', hres, ⟨j, hc⟩, by rw [hc]; omega⟩

/-- Source `map_reserve(1254)` on the fresh capacity-16 table is
`map_grow` to capacity 2048. -/
theorem reserve_1254 : map_reserve map_create 1254 = map_grow map_create 2048 := by
  have h : toS32 (next_power_of_two (toU32 1254)) = 2048 := by decide
  unfold map_reserve
  simp only
  rw [h, if_pos (by decide)]
  rfl

/-- C9 at the call of `test_reserve`: `map_reserve(1254)` on a fresh
capacity-16 table ends with a power-of-two capacity of at least 1254, namely
2048. -/
theorem reserve_capacity_witness :
    (∃ t', map_reserve map_create 1254 = some t' ∧ IsPow2 t'.cap ∧
      (1254 : Int) ≤ (t'.cap : Int)) ∧
    ∃ t', map_reserve map_create 1254 = some t' ∧ t'.cap = 2048 :=
  ⟨reserve_capacity map_create 1254 ⟨4, rfl⟩ (by decide) (by decide), by
    obtain ⟨t', hg, hcap, _⟩ := map_grow_spec map_create 2048 ⟨11, rfl⟩ (by decide)
    exact ⟨t', by rw [reserve_1254, hg], hcap⟩⟩

/-- C10 as stated fails at `n = c`: the fresh table has the power-of-two
capacity 16 and `0 <= 16 <= 16`, yet `map_reserve(16)` grows it to capacity 32,
because `next_power_of_two(16)` is 32; so `map_reserve` is not a no-op for every
`n <= c`. -/
theorem reserve_at_capacity_grows :
    IsPow2 map_create.cap ∧ (0 : Int) ≤ 16 ∧ (16 : Int) ≤ (map_create.cap : Int) ∧
    next_power_of_two 16 = 32 ∧
    (map_reserve map_create 16).map (fun m => m.cap) = some 32 ∧
    ¬ (∀ (t : Map) (n : Int), IsPow2 t.cap → 0 ≤ n → n ≤ (t.cap : Int) →
        ∃ t', map_reserve t n = some t' ∧ t'.cap = t.cap ∧ t'.keys = t.keys ∧
          t'.values = t.values ∧ t'.hashes = t.hashes) := by
  have h3 : (map_reserve map_create 16).map (fun m => m.cap) = some 32 := by decide
  refine ⟨⟨4, rfl⟩, by decide, by decide, by decide, h3, fun h => ?_⟩
  obtain ⟨t', h1, h2, _⟩ := h map_create 16 ⟨4, rfl⟩ (by decide) (by decide)
  rw [h1] at h3
  simp only [Option.map_some'] at h3
  rw [Option.some.injEq, h2] at h3
  revert h3
  decide

/-- C10 amended: for every table with power-of-two capacity `c` and every `n`
with `0 <= n < c`, `map_reserve(t, n)` returns the table unchanged (capacity,
count and the three arrays). -/
theorem reserve_below_capacity (t : Map) (n : Int) (hpow : IsPow2 t.cap) (h0 : 0 ≤ n)
    (hn : n < (t.cap : Int)) : map_reserve t n = some t := by
  obtain ⟨k, hk⟩ := hpow
  have hx : toU32 n < 2 ^ k := by
    have := toU32_le n h0
    omega
  have h1 := next_power_of_two_le (toU32 n) k hx
  have h2 := toS32_le (next_power_of_two (toU32 n))
  unfold map_reserve
  simp only
  rw [if_neg (by omega)]

/-- C10 amended at `map_reserve(15)` on the fresh capacity-16 table. -/
theorem reserve_below_capacity_witness : map_reserve map_create 15 = some map_create :=
  reserve_below_capacity map_create 15 ⟨4, rfl⟩ (by decide) (by decide)

/-! ## What the operations leave alone -/

theorem grow_loop_snoc (m : Map) (N : Nat) (l : List Nat) (n : Nat) (a a' : Arrays)
    (h : grow_loop m N (l ++ [n]) a = some a') :
    ∃ b, grow_loop m N l a = some b ∧ grow_step m N b n = some a' := by
  rw [grow_loop_append] at h
  cases hb : grow_loop m N l a with
  | none => rw [hb] at h; simp at h
  | some b =>
    rw [hb] at h
    refine ⟨b, rfl, ?_⟩
    simp only [grow_loop] at h
    cases hs : grow_step m N b n with
    | none => rw [hs] at h; simp at h
    | some c => rw [hs] at h; exact h

/-- The rehash loop only copies: after the first `n` old slots, every occupied
new slot holds the key, value and cached hash of one of those old slots. -/
theorem grow_loop_copied (m : Map) (N : Nat) (hN : IsPow2 N) :
    ∀ n a, grow_loop m N (List.range n)
        { keys := List.replicate (N + 1) 0, values := List.replicate (N + 1) 0,
          hashes := List.replicate N 0 } = some a →
      a.keys.length = N + 1 ∧ a.values.length = N + 1 ∧ a.hashes.length = N ∧
      ∀ q, q < N → rd a.keys q ≠ 0 →
        ∃ i, i < n ∧ rd m.keys i = rd a.keys q ∧ rd m.values i = rd a.values q ∧
          rd m.hashes i = rd a.hashes q := by
  intro n
  induction n with
  | zero =>
    intro a h
    simp only [List.range_zero, grow_loop] at h
    obtain rfl := Option.some.inj h
    refine ⟨by simp, by simp, by simp, fun q _ hq => ?_⟩
    simp only at hq
    rw [rd_replicate] at hq
    exact absurd rfl hq
  | succ n ih =>
    intro a' h
    rw [List.range_succ] at h
    obtain ⟨a, ha, hstep⟩ := grow_loop_snoc m N _ n _ a' h
    obtain ⟨hlk, hlv, hlh, hcop⟩ := ih a ha
    unfold grow_step at hstep
    by_cases hkey : rd m.keys n = empty
    · simp only [hkey, if_true] at hstep
      obtain rfl := Option.some.inj hstep
      refine ⟨hlk, hlv, hlh, fun q hq hne => ?_⟩
      obtain ⟨i, hi, e⟩ := hcop q hq hne
      exact ⟨i, by omega, e⟩
    · simp only [hkey, if_false] at hstep
      cases hs : find_slot a.keys N (rd m.keys n) (rd m.hashes n) with
      | none => rw [hs] at hstep; simp at hstep
      | some s =>
        rw [hs] at hstep
        obtain rfl := Option.some.inj hstep
        obtain ⟨hsN, _, _⟩ := find_slot_result a.keys N _ _ s hN hs
        refine ⟨by simp [hlk], by simp [hlv], by simp [hlh], fun q hq hne => ?_⟩
        simp only at hne ⊢
        rw [rd_set _ _ _ _ (by omega)] at hne ⊢
        rw [rd_set _ _ _ _ (by omega), rd_set _ _ _ _ (by omega)]
        by_cases hqs : q = s
        · simp only [hqs, if_true]
          exact ⟨n, by omega, rfl, rfl, rfl⟩
        · simp only [hqs, if_false] at hne ⊢
          obtain ⟨i, hi, e⟩ := hcop q hq hne
          exact ⟨i, by omega, e⟩

/-- Source `map_grow` only copies keys together with their value and cached
hash; the hash is never recomputed. -/
theorem map_grow_copied (m : Map) (N : Nat) (hN : IsPow2 N) (t' : Map)
    (h : map_grow m N = some t') : CopiedFrom m t' ∧ t'.cap = N := by
  unfold map_grow at h
  simp only at h
  cases ha : grow_loop m N (List.range m.cap)
      { keys := List.replicate (N + 1) 0, values := List.replicate (N + 1) 0,
        hashes := List.replicate N 0 } with
  | none => rw [ha] at h; simp at h
  | some a =>
    rw [ha] at h
    obtain rfl := Option.some.inj h
    obtain ⟨hlk, hlv, hlh, hcop⟩ := grow_loop_copied m N hN m.cap a ha
    refine ⟨fun q hq hne => ?_, rfl⟩
    simp only at hq hne ⊢
    rw [rd_set_ne _ _ _ _ (by omega)] at hne ⊢
    rw [rd_set_ne _ _ _ _ (by omega)]
    exact hcop q hq hne

theorem hashesConsistent_of_copied (t t' : Map) (hc : CopiedFrom t t')
    (h : HashesConsistent t.keys t.hashes t.cap) :
    HashesConsistent t'.keys t'.hashes t'.cap := by
  intro q hq hne
  obtain ⟨i, hi, e1, _, e3⟩ := hc q hq hne
  rw [← e3, ← e1]
  exact h i hi (by rw [e1]; exact hne)

theorem occupied_set_fill (keys : List Nat) (s v n : Nat) (hs : s < n) (hlen : s < keys.length)
    (h0 : rd keys s = 0) (hv : v ≠ 0) : occupied (keys.set s v) n = occupied keys n + 1 := by
  induction n with
  | zero => omega
  | succ n ih =>
    simp only [occupied]
    by_cases hsn : s = n
    · subst hsn
      rw [rd_set_eq _ _ _ hlen, if_neg hv, h0, if_pos rfl,
        occupied_congr keys (keys.set s v) s (fun q hq => rd_set_ne _ _ _ _ (by omega))]
    · rw [ih (by omega), rd_set_ne _ _ _ _ hsn]
      omega

theorem occupied_set_clear (keys : List Nat) (s n : Nat) (hs : s < n) (hlen : s < keys.length)
    (h0 : rd keys s ≠ 0) : occupied (keys.set s 0) n + 1 = occupied keys n := by
  induction n with
  | zero => omega
  | succ n ih =>
    simp only [occupied]
    by_cases hsn : s = n
    · subst hsn
      rw [rd_set_eq _ _ _ hlen, if_pos rfl, if_neg h0,
        occupied_congr keys (keys.set s 0) s (fun q hq => rd_set_ne _ _ _ _ (by omega))]
    · rw [rd_set_ne _ _ _ _ hsn]
      have := ih (by omega)
      omega

theorem copiedFrom_trans (a b c : Map) (h1 : CopiedFrom a b)
    (h2 : CopiedFrom b c) : CopiedFrom a c := by
  intro q hq hne
  obtain ⟨i, hi, e1, e2, e3⟩ := h2 q hq hne
  obtain ⟨i', hi', f1, f2, f3⟩ := h1 i hi (by rw [e1]; exact hne)
  exact ⟨i', hi', f1.trans e1, f2.trans e2, f3.trans e3⟩

/-- What the scan of `map_remove` leaves alone and what it does to the stored
triples, for a scan that ends: lengths, capacity, count and the overflow pair are
unchanged, every stored triple is one that was stored before, and the number of
occupied slots is the same (the hole slot `i` is empty on entry). -/
theorem remove_loop_frame :
    ∀ (fuel : Nat) (m : Map) (i j : Nat) (m' : Map), IsPow2 m.cap → Shaped m → i < m.cap →
      rd m.keys i = 0 → remove_loop fuel m i j = some m' →
      Shaped m' ∧ m'.cap = m.cap ∧ m'.count = m.count ∧
      rd m'.keys m.cap = rd m.keys m.cap ∧ rd m'.values m.cap = rd m.values m.cap ∧
      CopiedFrom m m' ∧ occupied m'.keys m.cap = occupied m.keys m.cap := by
  intro fuel
  induction fuel with
  | zero => intro m i j m' _ _ _ _ h; simp [remove_loop] at h
  | succ f ih =>
    intro m i j m' hN hsh hi hi0 h
    have hpos := pow2_pos m.cap hN
    rw [remove_loop_unfold, mask_eq_mod m.cap hN] at h
    have hj' : (j + 1) % m.cap < m.cap := Nat.mod_lt _ hpos
    generalize (j + 1) % m.cap = j' at h hj'
    by_cases h0 : rd m.keys j' = empty
    · rw [if_pos h0] at h
      obtain rfl := Option.some.inj h
      exact ⟨hsh, rfl, rfl, rfl, rfl, fun q hq hne => ⟨q, hq, rfl, rfl, rfl⟩, rfl⟩
    · rw [if_neg h0] at h
      have h0' : rd m.keys j' ≠ 0 := h0
      split at h
      · exact ih m i j' m' hN hsh hi hi0 h
      · obtain ⟨hlk, hlv, hlh⟩ := hsh
        have hij : i ≠ j' := by
          intro e; rw [e] at hi0; exact h0' hi0
        have hkeys : ∀ q, rd ((m.keys.set i (rd m.keys j')).set j' empty) q =
            if q = j' then 0 else if q = i then rd m.keys j' else rd m.keys q := by
          intro q
          rw [rd_set _ _ _ _ (by simp; omega), rd_set _ _ _ _ (by omega)]
          rfl
        obtain ⟨g1, g2, g3, g4, g5, g6, g7⟩ := ih
          { keys := (m.keys.set i (rd m.keys j')).set j' empty
            values := m.values.set i (rd m.values j')
            hashes := m.hashes.set i (rd m.hashes j')
            cap := m.cap
            count := m.count } j' j' m' hN
          ⟨by simp [hlk], by simp [hlv], by simp [hlh]⟩ hj'
          (by show rd _ j' = 0
              rw [hkeys, if_pos rfl]) h
        refine ⟨g1, g2, g3, ?_, ?_, ?_, ?_⟩
        · rw [g4]
          show rd _ m.cap = _
          rw [hkeys, if_neg (by omega), if_neg (by omega)]
        · rw [g5]
          show rd _ m.cap = _
          rw [rd_set_ne _ _ _ _ (by omega)]
        · refine copiedFrom_trans m _ m' ?_ g6
          intro q hq hne
          simp only at hq hne ⊢
          rw [hkeys] at hne ⊢
          by_cases hqj : q = j'
          · rw [if_pos hqj] at hne; exact absurd rfl hne
          · rw [if_neg hqj] at hne ⊢
            by_cases hqi : q = i
            · rw [if_pos hqi]
              refine ⟨j', hj', rfl, ?_, ?_⟩
              · rw [hqi, rd_set_eq _ _ _ (by omega)]
              · rw [hqi, rd_set_eq _ _ _ (by omega)]
            · rw [if_neg hqi]
              refine ⟨q, hq, rfl, ?_, ?_⟩
              · rw [rd_set_ne _ _ _ _ (fun e => hqi e.symm)]
              · rw [rd_set_ne _ _ _ _ (fun e => hqi e.symm)]
        · rw [g7]
          show occupied ((m.keys.set i (rd m.keys j')).set j' empty) m.cap = _
          have e1 := occupied_set_fill m.keys i (rd m.keys j') m.cap hi (by omega) hi0 h0'
          have e2 := occupied_set_clear (m.keys.set i (rd m.keys j')) j' m.cap hj'
            (by simp; omega) (by rw [rd_set_ne _ _ _ _ hij]; exact h0')
          have e3 : (m.keys.set i (rd m.keys j')).set j' empty =
              (m.keys.set i (rd m.keys j')).set j' 0 := rfl
          rw [e3]
          omega

theorem hashesConsistent_set (keys hashes : List Nat) (N s k : Nat) (hlk : s < keys.length)
    (hlh : s < hashes.length) (hc : HashesConsistent keys hashes N) :
    HashesConsistent (keys.set s k) (hashes.set s (hash_key k)) N := by
  intro q hq hne
  rw [rd_set _ _ _ _ hlk] at hne ⊢
  rw [rd_set _ _ _ _ hlh]
  by_cases hqs : q = s
  · rw [if_pos hqs, if_pos hqs]
  · rw [if_neg hqs] at hne ⊢
    rw [if_neg hqs]
    exact hc q hq hne

/-- The two ways a call of `map_add` with a non-sentinel key that ends can have
run: without growth, or after `map_grow` to twice the capacity; then the slot
found by `find_slot` is written. -/
theorem map_add_cases (t : Map) (k v : Nat) (t' : Map) (hk : k ≠ 0)
    (h : map_add t k v = some t') :
    ∃ t1 s, ((t.count < (3 * (t.cap : Int)) / 4 ∧ t1 = t) ∨
        (t.count ≥ (3 * (t.cap : Int)) / 4 ∧ map_grow t (2 * t.cap) = some t1)) ∧
      find_slot t1.keys t1.cap k (hash_key k) = some s ∧
      t' = { t1 with keys := t1.keys.set s k, values := t1.values.set s v,
                     hashes := t1.hashes.set s (hash_key k), count := t1.count + 1 } := by
  have hke : ¬ k = empty := hk
  unfold map_add at h
  simp only [hke, if_false] at h
  by_cases hgrow : t.count ≥ (3 * (t.cap : Int)) / 4
  · simp only [hgrow, if_true] at h
    cases hg : map_grow t (2 * t.cap) with
    | none => rw [hg] at h; simp at h
    | some t1 =>
      rw [hg] at h
      simp only at h
      cases hs : find_slot t1.keys t1.cap k (hash_key k) with
      | none => rw [hs] at h; simp at h
      | some s =>
        rw [hs] at h
        exact ⟨t1, s, Or.inr ⟨hgrow, rfl⟩, hs, (Option.some.inj h).symm⟩
  · simp only [hgrow, if_false] at h
    cases hs : find_slot t.keys t.cap k (hash_key k) with
    | none => rw [hs] at h; simp at h
    | some s =>
      rw [hs] at h
      exact ⟨t, s, Or.inl ⟨by omega, rfl⟩, hs, (Option.some.inj h).symm⟩

/-- What a call of `map_add` with a non-sentinel key that ends does to the shape,
capacity, count, overflow pair, cached hashes and number of occupied slots. -/
theorem map_add_frame (t : Map) (k v : Nat) (t' : Map) (hk : k ≠ 0) (hN : IsPow2 t.cap)
    (hsh : Shaped t) (h : map_add t k v = some t') :
    Shaped t' ∧ IsPow2 t'.cap ∧
      (t.count < (3 * (t.cap : Int)) / 4 → t'.cap = t.cap) ∧
      (t.count ≥ (3 * (t.cap : Int)) / 4 → t'.cap = 2 * t.cap) ∧
      t'.count = t.count + 1 ∧
      rd t'.keys t'.cap = rd t.keys t.cap ∧ rd t'.values t'.cap = rd t.values t.cap ∧
      occupied t'.keys t'.cap ≤ occupied t.keys t.cap + 1 ∧
      (HashesConsistent t.keys t.hashes t.cap → HashesConsistent t'.keys t'.hashes t'.cap) := by
  obtain ⟨t1, s, hcase, hs, ht'⟩ := map_add_cases t k v t' hk h
  have hpos := pow2_pos t.cap hN
  have key : Shaped t1 ∧ IsPow2 t1.cap ∧ t1.count = t.count ∧
      rd t1.keys t1.cap = rd t.keys t.cap ∧ rd t1.values t1.cap = rd t.values t.cap ∧
      occupied t1.keys t1.cap ≤ occupied t.keys t.cap ∧
      (HashesConsistent t.keys t.hashes t.cap → HashesConsistent t1.keys t1.hashes t1.cap) ∧
      (t.count < (3 * (t.cap : Int)) / 4 → t1.cap = t.cap) ∧
      (t.count ≥ (3 * (t.cap : Int)) / 4 → t1.cap = 2 * t.cap) := by
    rcases hcase with ⟨hlt, rfl⟩ | ⟨hge, hg⟩
    · exact ⟨hsh, hN, rfl, rfl, rfl, Nat.le_refl _, fun h => h, fun _ => rfl,
        fun h => absurd h (by omega)⟩
    · obtain ⟨t2, hg2, hcap, hcount, hsh2, hov, hovv, hocc, _⟩ :=
        map_grow_spec t (2 * t.cap) (isPow2_double _ hN) (by omega)
      rw [hg] at hg2
      obtain rfl := Option.some.inj hg2
      obtain ⟨hcop, _⟩ := map_grow_copied t (2 * t.cap) (isPow2_double _ hN) t1 hg
      refine ⟨hsh2, by rw [hcap]; exact isPow2_double _ hN, hcount, by rw [hcap]; exact hov,
        by rw [hcap]; exact hovv, by rw [hcap]; exact hocc,
        hashesConsistent_of_copied t t1 hcop, fun h => absurd hge (by omega), fun _ => hcap⟩
  obtain ⟨k1, k2, k3, k4, k5, k6, k7, k8, k9⟩ := key
  obtain ⟨c1, c2, c3, _, c5, c6, c7, _, _, _⟩ := add_core t1 k v s hk k2 k1 hs t' ht'
  obtain ⟨hsN, _, _⟩ := find_slot_result t1.keys t1.cap k (hash_key k) s k2 hs
  obtain ⟨hlk, _, hlh⟩ := k1
  refine ⟨c1, by rw [c2]; exact k2, fun h => by rw [c2]; exact k8 h,
    fun h => by rw [c2]; exact k9 h, by rw [c3, k3], by rw [c2, c6]; exact k4,
    by rw [c2, c7]; exact k5, by rw [c2]; omega, fun hc => ?_⟩
  rw [c2, ht']
  exact hashesConsistent_set t1.keys t1.hashes t1.cap s k (by omega) (by omega) (k7 hc)

/-- What a call of `map_remove` with a non-sentinel key that ends does: shape,
capacity, count and overflow pair are unchanged, the stored triples are copied
from the old table and at most as many slots are occupied. -/
theorem map_remove_frame (t : Map) (k : Nat) (t' : Map) (hk : k ≠ 0) (hN : IsPow2 t.cap)
    (hsh : Shaped t) (h : map_remove t k = some t') :
    Shaped t' ∧ t'.cap = t.cap ∧ t'.count = t.count ∧
      rd t'.keys t'.cap = rd t.keys t.cap ∧ rd t'.values t'.cap = rd t.values t.cap ∧
      CopiedFrom t t' ∧ occupied t'.keys t'.cap ≤ occupied t.keys t.cap := by
  have hke : ¬ k = empty := hk
  unfold map_remove at h
  simp only [hke, if_false] at h
  cases hs : find_slot t.keys t.cap k (hash_key k) with
  | none => rw [hs] at h; simp at h
  | some s =>
    rw [hs] at h
    simp only at h
    obtain ⟨hsN, _, _⟩ := find_slot_result t.keys t.cap k (hash_key k) s hN hs
    by_cases h0 : rd t.keys s = empty
    · rw [if_pos h0] at h
      obtain rfl := Option.some.inj h
      exact ⟨hsh, rfl, rfl, rfl, rfl, fun q hq _ => ⟨q, hq, rfl, rfl, rfl⟩, Nat.le_refl _⟩
    · rw [if_neg h0] at h
      obtain ⟨hlk, hlv, hlh⟩ := hsh
      obtain ⟨g1, g2, g3, g4, g5, g6, g7⟩ := remove_loop_frame t.cap
        { t with keys := t.keys.set s empty } s s t' hN ⟨by simp [hlk], hlv, hlh⟩ hsN
        (by show rd (t.keys.set s empty) s = 0
            rw [rd_set_eq _ _ _ (by omega)]; rfl) h
      have g2' : t'.cap = t.cap := g2
      refine ⟨g1, g2', g3, ?_, ?_, ?_, ?_⟩
      · rw [g2']
        have : rd t'.keys t.cap = rd (t.keys.set s empty) t.cap := g4
        rw [this, rd_set_ne _ _ _ _ (by omega)]
      · rw [g2']; exact g5
      · intro q hq hne
        obtain ⟨i, hi, e1, e2, e3⟩ := g6 q hq hne
        have hi' : i < t.cap := hi
        have e1' : rd (t.keys.set s empty) i = rd t'.keys q := e1
        have his : s ≠ i := by
          rintro rfl
          rw [rd_set_eq _ _ _ (by omega)] at e1'
          exact hne e1'.symm
        rw [rd_set_ne _ _ _ _ his] at e1'
        exact ⟨i, hi', e1', e2, e3⟩
      · rw [g2']
        have e : occupied t'.keys t.cap = occupied (t.keys.set s empty) t.cap := g7
        have := occupied_set_clear t.keys s t.cap hsN (by omega) h0
        have e3 : t.keys.set s empty = t.keys.set s 0 := rfl
        rw [e, e3]
        omega

/-- What a call of `map_reserve` that ends does: the capacity stays or becomes a
larger power of two, count and overflow pair are unchanged and the stored
triples are copied from the old table. -/
theorem map_reserve_frame (t : Map) (n : Int) (t' : Map) (hN : IsPow2 t.cap) (hsh : Shaped t)
    (h : map_reserve t n = some t') :
    Shaped t' ∧ IsPow2 t'.cap ∧ t.cap ≤ t'.cap ∧ t'.count = t.count ∧
      rd t'.keys t'.cap = rd t.keys t.cap ∧ rd t'.values t'.cap = rd t.values t.cap ∧
      CopiedFrom t t' ∧ occupied t'.keys t'.cap ≤ occupied t.keys t.cap := by
  unfold map_reserve at h
  simp only at h
  by_cases hgt : toS32 (next_power_of_two (toU32 n)) > (t.cap : Int)
  · rw [if_pos hgt] at h
    obtain ⟨j, _, hj, _, _⟩ := reserve_target (toU32 n) (toU32_lt n) (by omega)
    rw [hj] at hgt h
    rw [Int.toNat_ofNat] at h
    have hlt : t.cap < 2 ^ j := by omega
    obtain ⟨t2, hg2, hcap, hcount, hsh2, hov, hovv, hocc, _⟩ :=
      map_grow_spec t (2 ^ j) ⟨j, rfl⟩ hlt
    rw [h] at hg2
    obtain rfl := Option.some.inj hg2
    obtain ⟨hcop, _⟩ := map_grow_copied t (2 ^ j) ⟨j, rfl⟩ t' h
    exact ⟨hsh2, ⟨j, hcap⟩, by omega, hcount, by rw [hcap]; exact hov,
      by rw [hcap]; exact hovv, hcop, by rw [hcap]; exact hocc⟩
  · rw [if_neg hgt] at h
    obtain rfl := Option.some.inj h
    exact ⟨hsh, hN, Nat.le_refl _, rfl, rfl, rfl, fun q hq _ => ⟨q, hq, rfl, rfl, rfl⟩,
      Nat.le_refl _⟩

/-- Source `map_remove` only copies keys together with their value and cached
hash, for the sentinel key (primary region untouched) and any other key. -/
theorem map_remove_copied (t : Map) (k : Nat) (t' : Map) (hN : IsPow2 t.cap) (hsh : Shaped t)
    (h : map_remove t k = some t') : CopiedFrom t t' ∧ t'.cap = t.cap ∧ Shaped t' := by
  by_cases hk : k = 0
  · subst hk
    obtain ⟨hlk, hlv, hlh⟩ := hsh
    rw [map_remove_sentinel] at h
    split at h
    · obtain rfl := Option.some.inj h
      refine ⟨fun q hq hne => ⟨q, hq, ?_, ?_, rfl⟩, rfl, ⟨by simp [hlk], by simp [hlv], hlh⟩⟩
      · exact (rd_set_ne _ _ _ _ (Nat.ne_of_gt hq)).symm
      · exact (rd_set_ne _ _ _ _ (Nat.ne_of_gt hq)).symm
    · obtain rfl := Option.some.inj h
      exact ⟨fun q hq _ => ⟨q, hq, rfl, rfl, rfl⟩, rfl, ⟨hlk, hlv, hlh⟩⟩
  · obtain ⟨g1, g2, _, _, _, g6, _⟩ := map_remove_frame t k t' hk hN hsh h
    exact ⟨g6, g2, g1⟩

/-- Shape, capacity and cached hashes in the states reached from `map_create`:
the arrays have `cap + 1`, `cap + 1` and `cap` slots, the capacity is a power
of two at least 16 and every cached hash is the hash of its key. -/
theorem reached_basic (addOk removeOk : Map → Nat → Prop) (t : Map)
    (h : ReachedBy addOk removeOk t) :
    Shaped t ∧ IsPow2 t.cap ∧ 16 ≤ t.cap ∧ HashesConsistent t.keys t.hashes t.cap := by
  induction h with
  | create => exact ⟨inv_create.shaped, inv_create.pow2, inv_create.cap_ge, inv_create.hashes⟩
  | add t t' k v _ _ hadd ih =>
    obtain ⟨hsh, hN, hcap, hc⟩ := ih
    by_cases hk : k = 0
    · subst hk
      rw [map_add_sentinel] at hadd
      obtain rfl := Option.some.inj hadd
      obtain ⟨hlk, hlv, hlh⟩ := hsh
      exact ⟨⟨by simp [hlk], by simp [hlv], hlh⟩, hN, hcap,
        hashesConsistent_congr t.keys _ t.hashes _ t.cap
          (fun q hq => rd_set_ne _ _ _ _ (Nat.ne_of_gt hq)) (fun _ _ => rfl) hc⟩
    · obtain ⟨c1, c2, c3, c4, _, _, _, _, c9⟩ := map_add_frame t k v t' hk hN hsh hadd
      refine ⟨c1, c2, ?_, c9 hc⟩
      by_cases hg : t.count ≥ (3 * (t.cap : Int)) / 4
      · rw [c4 hg]; omega
      · rw [c3 (by omega)]; exact hcap
  | remove t t' k _ _ hrem ih =>
    obtain ⟨hsh, hN, hcap, hc⟩ := ih
    obtain ⟨hcop, hcap', hsh'⟩ := map_remove_copied t k t' hN hsh hrem
    exact ⟨hsh', by rw [hcap']; exact hN, by rw [hcap']; exact hcap,
      hashesConsistent_of_copied t t' hcop hc⟩
  | reserve t t' n _ hres ih =>
    obtain ⟨hsh, hN, hcap, hc⟩ := ih
    obtain ⟨c1, c2, c3, _, _, _, c7, _⟩ := map_reserve_frame t n t' hN hsh hres
    exact ⟨c1, c2, by omega, hashesConsistent_of_copied t t' c7 hc⟩

theorem reached_add_all (l : List (Nat × Nat)) :
    ∀ (t t' : Map), Reached t → add_all t l = some t' → Reached t' := by
  induction l with
  | nil =>
    intro t t' h e
    simp only [add_all] at e
    obtain rfl := Option.some.inj e
    exact h
  | cons p rest ih =>
    intro t t' h e
    obtain ⟨k, v⟩ := p
    simp only [add_all] at e
    cases h1 : map_add t k v with
    | none => rw [h1] at e; simp at e
    | some t1 =>
      rw [h1] at e
      exact ih t1 t' (ReachedBy.add t t1 k v h trivial h1) e

theorem int_emod_cases (a n : Int) (h1 : -n ≤ a) (h2 : a < n) :
    a % n = if 0 ≤ a then a else a + n := by
  split
  · rename_i h; exact Int.emod_eq_of_lt h h2
  · rename_i h
    have : (a + n) % n = a + n := Int.emod_eq_of_lt (by omega) (by omega)
    rw [← this, Int.add_emod_self]

/-- Source `is_power_of_two` on a `u32` is the test for a power of two. -/
theorem is_power_of_two_iff (x : Nat) (hx : x < 2 ^ 32) :
    is_power_of_two x = true ↔ IsPow2 x := by
  unfold is_power_of_two
  constructor
  · intro h
    simp only [Bool.and_eq_true, bne_iff_ne, ne_eq, beq_iff_eq] at h
    obtain ⟨h0, hand⟩ := h
    have hsub : (x + (2 ^ 32 - 1)) % 2 ^ 32 = x - 1 := by omega
    rw [hsub] at hand
    obtain ⟨t, hbit, htop⟩ := Nat.exists_most_significant_bit h0
    have hlt : x < 2 ^ (t + 1) := Nat.lt_pow_two_of_testBit x (fun i hi => htop i (by omega))
    have hge : 2 ^ t ≤ x := Nat.testBit_implies_ge hbit
    refine ⟨t, ?_⟩
    by_contra hne
    have h1 : 2 ^ t ≤ x - 1 := by omega
    have h2 : (x - 1).testBit t = true := by
      have e : x - 1 = 2 ^ t + (x - 1 - 2 ^ t) := by omega
      have hr : x - 1 - 2 ^ t < 2 ^ t := by
        have : 2 ^ (t + 1) = 2 * 2 ^ t := by rw [Nat.pow_succ]; omega
        omega
      rw [e, Nat.testBit_two_pow_add_eq, Nat.testBit_lt_two_pow hr]
      rfl
    have h3 : (x &&& (x - 1)).testBit t = true := by
      rw [Nat.testBit_and, hbit, h2]; rfl
    rw [hand] at h3
    simp at h3
  · rintro ⟨k, rfl⟩
    have hpos : 0 < 2 ^ k := Nat.pos_pow_of_pos k (by decide)
    have hsub : (2 ^ k + (2 ^ 32 - 1)) % 2 ^ 32 = 2 ^ k - 1 := by omega
    rw [hsub, Nat.and_pow_two_sub_one_eq_mod, Nat.mod_self]
    simp only [Bool.and_eq_true, bne_iff_ne, ne_eq, beq_iff_eq, and_true]
    omega

/-! ## Counting live pairs -/

theorem overflow_count_eq (t t' : Map) (h : rd t'.keys t'.cap = rd t.keys t.cap) :
    overflow_count t' = overflow_count t := by
  unfold overflow_count
  rw [h]

theorem get_sentinel_none (t : Map) (h : map_get t 0 = some none) : rd t.keys t.cap = 1 := by
  rw [map_get_sentinel] at h
  by_contra hne
  rw [if_neg hne] at h
  simp at h

/-- When the sentinel key is only added while the overflow slot is empty, `count`
minus the overflow pair never exceeds the load limit `3 * cap / 4`. -/
theorem reached_once_count (t : Map) (h : ReachedOnce t) :
    t.count - (overflow_count t : Int) ≤ (3 * (t.cap : Int)) / 4 := by
  induction h with
  | create => decide
  | add t t' k v hprev hok hadd ih =>
    obtain ⟨hsh, hN, _, _⟩ := reached_basic _ _ t hprev
    by_cases hk : k = 0
    · subst hk
      have h1 : rd t.keys t.cap = 1 := by
        rcases hok with h | h
        · exact absurd rfl h
        · exact get_sentinel_none t h
      rw [map_add_sentinel] at hadd
      obtain rfl := Option.some.inj hadd
      obtain ⟨hlk, _, _⟩ := hsh
      have e1 : overflow_count t = 0 := by
        unfold overflow_count; rw [h1]; rfl
      have e2 : overflow_count
          { t with keys := t.keys.set t.cap 0, values := t.values.set t.cap v,
                   count := t.count + 1 } = 1 := by
        unfold overflow_count
        simp only
        rw [rd_set_eq _ _ _ (by omega)]
        rfl
      rw [e2]
      rw [e1] at ih
      show t.count + 1 - ((1 : Nat) : Int) ≤ (3 * (t.cap : Int)) / 4
      omega
    · obtain ⟨_, _, c3, c4, c5, c6, _, _, _⟩ := map_add_frame t k v t' hk hN hsh hadd
      rw [overflow_count_eq t t' c6, c5]
      by_cases hg : t.count ≥ (3 * (t.cap : Int)) / 4
      · rw [c4 hg]; push_cast; omega
      · rw [c3 (by omega)]; omega
  | remove t t' k hprev _ hrem ih =>
    obtain ⟨hsh, hN, _, _⟩ := reached_basic _ _ t hprev
    by_cases hk : k = 0
    · subst hk
      rw [map_remove_sentinel] at hrem
      by_cases h0 : rd t.keys t.cap = 0
      · rw [if_pos h0] at hrem
        obtain rfl := Option.some.inj hrem
        obtain ⟨hlk, _, _⟩ := hsh
        have e1 : overflow_count t = 1 := by
          unfold overflow_count; rw [h0]; rfl
        have e2 : overflow_count
            { t with keys := t.keys.set t.cap 1, values := t.values.set t.cap 0,
                     count := t.count - 1 } = 0 := by
          unfold overflow_count
          simp only
          rw [rd_set_eq _ _ _ (by omega)]
          rfl
        rw [e2]
        rw [e1] at ih
        show t.count - 1 - ((0 : Nat) : Int) ≤ (3 * (t.cap : Int)) / 4
        omega
      · rw [if_neg h0] at hrem
        obtain rfl := Option.some.inj hrem
        exact ih
    · obtain ⟨_, c2, c3, c4, _, _, _⟩ := map_remove_frame t k t' hk hN hsh hrem
      rw [overflow_count_eq t t' (by rw [c4]), c3, c2]
      exact ih
  | reserve t t' n hprev hres ih =>
    obtain ⟨hsh, hN, _, _⟩ := reached_basic _ _ t hprev
    obtain ⟨_, _, c3, c4, c5, _, _, _⟩ := map_reserve_frame t n t' hN hsh hres
    rw [overflow_count_eq t t' c5, c4]
    omega

/-- On a duplicate-free, hash-consistent old table the rehash loop fills one
empty slot per occupied old slot. -/
theorem grow_loop_exact (m : Map) (N : Nat) (hN : IsPow2 N) (hlt : m.cap < N)
    (hnd : NoDuplicate m.keys m.cap) (hc : HashesConsistent m.keys m.hashes m.cap) :
    ∀ n, n ≤ m.cap → ∀ a, grow_loop m N (List.range n)
        { keys := List.replicate (N + 1) 0, values := List.replicate (N + 1) 0,
          hashes := List.replicate N 0 } = some a →
      occupied a.keys N = occupied m.keys n := by
  intro n
  induction n with
  | zero =>
    intro _ a h
    simp only [List.range_zero, grow_loop] at h
    obtain rfl := Option.some.inj h
    simp only [occupied]
    exact occupied_replicate _ _
  | succ n ih =>
    intro hn a' h
    rw [List.range_succ] at h
    obtain ⟨a, ha, hstep⟩ := grow_loop_snoc m N _ n _ a' h
    have hocc := ih (by omega) a ha
    obtain ⟨a0, ha0, hlk, _, _, _, hstrong⟩ := grow_loop_spec m N hN hlt n (by omega)
    rw [ha] at ha0
    obtain rfl := Option.some.inj ha0
    obtain ⟨_, _, _, hcont⟩ := hstrong hnd hc
    unfold grow_step at hstep
    by_cases hkey : rd m.keys n = empty
    · simp only [hkey, if_true] at hstep
      obtain rfl := Option.some.inj hstep
      have : rd m.keys n = 0 := hkey
      simp only [occupied]
      rw [if_pos this, hocc]
      rfl
    · simp only [hkey, if_false] at hstep
      have hkey0 : rd m.keys n ≠ 0 := hkey
      cases hs : find_slot a.keys N (rd m.keys n) (rd m.hashes n) with
      | none => rw [hs] at hstep; simp at hstep
      | some s =>
        rw [hs] at hstep
        obtain rfl := Option.some.inj hstep
        obtain ⟨hsN, hstop, _⟩ := find_slot_result a.keys N _ _ s hN hs
        have hs0 : rd a.keys s = 0 := by
          rcases hstop with e | e
          · exfalso
            obtain ⟨i, hi, h1, _⟩ := (hcont _ (rd a.values s) hkey0).1 ⟨s, hsN, e, rfl⟩
            have := hnd i (by omega) n (by omega) (by rw [h1]; exact hkey0) h1
            omega
          · exact e
        simp only [occupied]
        rw [if_neg hkey0, ← hocc]
        exact occupied_set_fill a.keys s _ N hsN (by omega) hs0 hkey0

/-- Source `map_grow` of a duplicate-free, hash-consistent table keeps the number
of occupied primary slots. -/
theorem map_grow_occupied (m : Map) (N : Nat) (t' : Map) (hN : IsPow2 N) (hlt : m.cap < N)
    (hnd : NoDuplicate m.keys m.cap) (hc : HashesConsistent m.keys m.hashes m.cap)
    (h : map_grow m N = some t') : occupied t'.keys N = occupied m.keys m.cap := by
  unfold map_grow at h
  simp only at h
  cases ha : grow_loop m N (List.range m.cap)
      { keys := List.replicate (N + 1) 0, values := List.replicate (N + 1) 0,
        hashes := List.replicate N 0 } with
  | none => rw [ha] at h; simp at h
  | some a =>
    rw [ha] at h
    obtain rfl := Option.some.inj h
    simp only
    rw [occupied_congr a.keys _ N (fun q hq => rd_set_ne _ _ _ _ (by omega))]
    exact grow_loop_exact m N hN hlt hnd hc m.cap (Nat.le_refl _) a ha

/-- A lookup that reports not found on a duplicate-free, reachable table means
that no primary slot holds the key. -/
theorem absent_of_get_none (t : Map) (k : Nat) (hk : k ≠ 0) (hN : IsPow2 t.cap)
    (hnd : NoDuplicate t.keys t.cap) (hr : Reachable t.keys t.cap)
    (h : map_get t k = some none) : ∀ i, i < t.cap → rd t.keys i ≠ k := by
  intro i hi e
  have := map_get_present t i hN hnd hr hi (by rw [e]; exact hk)
  rw [e, h] at this
  simp at this

/-- Source `map_remove` of a key that `map_get` does not find returns the table
unchanged. -/
theorem map_remove_of_get_none (t : Map) (k : Nat) (hpow : IsPow2 t.cap)
    (hget : map_get t k = some none) : map_remove t k = some t := by
  by_cases hk : k = 0
  · subst hk
    have h1 := get_sentinel_none t hget
    rw [map_remove_sentinel, if_neg (by rw [h1]; decide)]
  · have hke : ¬ k = empty := hk
    cases hs : find_slot t.keys t.cap k (hash_key k) with
    | none =>
      simp only [map_get, hke, if_false, hs] at hget
      simp at hget
    | some s =>
      rw [map_get_nonzero t k s hk hs] at hget
      obtain ⟨_, hstop, _⟩ := find_slot_result t.keys t.cap k (hash_key k) s hpow hs
      have hne : rd t.keys s ≠ k := by
        intro e
        rw [if_pos e] at hget
        simp at hget
      have h0 : rd t.keys s = empty := by
        rcases hstop with h | h
        · exact absurd h hne
        · exact h
      simp only [map_remove, hke, if_false, hs, h0, if_true]

/-- Source `map_grow` to a larger power-of-two capacity keeps the invariant, the
count and the number of live pairs. -/
theorem map_grow_inv (t : Map) (N : Nat) (t' : Map) (h : Inv t) (hN : IsPow2 N)
    (hlt : t.cap < N) (hg : map_grow t N = some t') :
    Inv t' ∧ t'.count = t.count ∧ live t' = live t := by
  obtain ⟨hsh, hpow, hcap, hnd, hr, hc, hload, hlive, hov⟩ := h
  have hload' : 4 * occupied t.keys t.cap ≤ 3 * t.cap := hload
  obtain ⟨t2, hg2, hcap2, hcount, hsh2, hovk, hovv, _, hstrong⟩ := map_grow_spec t N hN hlt
  rw [hg] at hg2
  obtain rfl := Option.some.inj hg2
  obtain ⟨g1, g2, g3, _⟩ := hstrong hnd hc
  have hocc := map_grow_occupied t N t' hN hlt hnd hc hg
  rw [← hcap2] at g1 g2 g3 hocc hovk hovv
  refine ⟨⟨hsh2, ⟨_, hcap2.trans hN.choose_spec⟩, by omega, g1, g2, g3, ?_, ?_, ?_⟩, hcount, ?_⟩
  · show 4 * occupied t'.keys t'.cap ≤ 3 * t'.cap
    omega
  · rw [hocc, hcount]; exact hlive
  · unfold OverflowState
    rw [hovk]; exact hov
  · unfold live
    rw [hocc, overflow_count_eq t t' hovk]

/-- When every key added is new and no stored primary key is removed, the
invariant of `map_add` holds and `count` is the number of live pairs. -/
theorem reached_fresh_inv (t : Map) (h : ReachedFresh t) :
    Inv t ∧ t.count = (live t : Int) := by
  induction h with
  | create => exact ⟨inv_create, by decide⟩
  | add t t' k v _ hok hadd ih =>
    obtain ⟨hinv, hcount⟩ := ih
    obtain ⟨t2, hadd2, hinv', _, _⟩ := map_add_inv t k v hinv
    rw [hadd] at hadd2
    obtain rfl := Option.some.inj hadd2
    refine ⟨hinv', ?_⟩
    obtain ⟨hsh, hpow, hcap, hnd, hr, hc, _, _, _⟩ := hinv
    by_cases hk : k = 0
    · subst hk
      have h1 := get_sentinel_none t hok
      rw [map_add_sentinel] at hadd
      obtain rfl := Option.some.inj hadd
      obtain ⟨hlk, _, _⟩ := hsh
      have e1 : overflow_count t = 0 := by
        unfold overflow_count; rw [h1]; rfl
      unfold live at hcount ⊢
      unfold overflow_count
      simp only
      rw [rd_set_eq _ _ _ (by omega),
        occupied_congr t.keys _ t.cap (fun q hq => rd_set_ne _ _ _ _ (by omega))]
      rw [e1] at hcount
      rw [if_neg (show ¬ (0 = overflow_empty) from by decide)]
      push_cast at hcount ⊢
      omega
    · obtain ⟨t1, s, hcase, hs, ht'⟩ := map_add_cases t k v t' hk hadd
      have habs := absent_of_get_none t k hk hpow hnd hr hok
      have key : Shaped t1 ∧ IsPow2 t1.cap ∧ t1.count = t.count ∧
          occupied t1.keys t1.cap = occupied t.keys t.cap ∧
          rd t1.keys t1.cap = rd t.keys t.cap ∧ ∀ i, i < t1.cap → rd t1.keys i ≠ k := by
        rcases hcase with ⟨_, rfl⟩ | ⟨_, hg⟩
        · exact ⟨hsh, hpow, rfl, rfl, rfl, habs⟩
        · have hpos := pow2_pos t.cap hpow
          obtain ⟨t2, hg2, hcap2, hcount2, hsh2, hovk, _, _, hstrong⟩ :=
            map_grow_spec t (2 * t.cap) (isPow2_double _ hpow) (by omega)
          rw [hg] at hg2
          obtain rfl := Option.some.inj hg2
          obtain ⟨_, _, _, g4⟩ := hstrong hnd hc
          have hocc := map_grow_occupied t (2 * t.cap) t1 (isPow2_double _ hpow) (by omega)
            hnd hc hg
          refine ⟨hsh2, by rw [hcap2]; exact isPow2_double _ hpow, hcount2,
            by rw [hcap2]; exact hocc, by rw [hcap2]; exact hovk, fun i hi e => ?_⟩
          rw [hcap2] at hi
          obtain ⟨i0, hi0, e0, _⟩ := (g4 k (rd t1.values i) hk).1 ⟨i, hi, e, rfl⟩
          exact habs i0 hi0 e0
      obtain ⟨k1, k2, k3, k4, k5, k6⟩ := key
      obtain ⟨hsN, hstop, _⟩ := find_slot_result t1.keys t1.cap k (hash_key k) s k2 hs
      have hs0 : rd t1.keys s = 0 := by
        rcases hstop with e | e
        · exact absurd e (k6 s hsN)
        · exact e
      obtain ⟨hlk1, _, _⟩ := k1
      have hfill := occupied_set_fill t1.keys s k t1.cap hsN (by omega) hs0 hk
      have hovf : rd (t1.keys.set s k) t1.cap = rd t.keys t.cap := by
        rw [rd_set_ne _ _ _ _ (by omega)]; exact k5
      have hovc : overflow_count t' = overflow_count t :=
        overflow_count_eq t t' (by rw [ht']; exact hovf)
      have hocc' : occupied t'.keys t'.cap = occupied t.keys t.cap + 1 := by
        rw [ht']
        show occupied (t1.keys.set s k) t1.cap = _
        rw [hfill, k4]
      have hc' : t'.count = t.count + 1 := by
        rw [ht']
        show t1.count + 1 = _
        rw [k3]
      unfold live at hcount ⊢
      rw [hovc, hocc', hc']
      push_cast at hcount ⊢
      omega
  | remove t t' k _ hok hrem ih =>
    obtain ⟨hinv, hcount⟩ := ih
    by_cases hget : map_get t k = some none
    · rw [map_remove_of_get_none t k hinv.pow2 hget] at hrem
      obtain rfl := Option.some.inj hrem
      exact ⟨hinv, hcount⟩
    · have hk : k = 0 := by
        rcases hok with h | h
        · exact h
        · exact absurd h hget
      subst hk
      rw [map_remove_sentinel] at hrem
      by_cases h0 : rd t.keys t.cap = 0
      · rw [if_pos h0] at hrem
        obtain rfl := Option.some.inj hrem
        obtain ⟨hsh, hpow, hcap, hnd, hr, hc, hload, hlive, hov⟩ := hinv
        obtain ⟨hlk, hlv, hlh⟩ := hsh
        have hload' : 4 * occupied t.keys t.cap ≤ 3 * t.cap := hload
        have hkeys : ∀ q, q < t.cap → rd (t.keys.set t.cap 1) q = rd t.keys q :=
          fun q hq => rd_set_ne _ _ _ _ (by omega)
        have e1 : overflow_count t = 1 := by
          unfold overflow_count; rw [h0]; rfl
        unfold live at hcount
        rw [e1] at hcount
        refine ⟨⟨⟨by simp [hlk], by simp [hlv], hlh⟩, hpow, hcap,
          noDuplicate_congr _ _ _ hkeys hnd, reachable_congr _ _ _ hpow hkeys hr,
          hashesConsistent_congr _ _ _ _ _ hkeys (fun _ _ => rfl) hc, ?_, ?_, ?_⟩, ?_⟩
        · show 4 * occupied (t.keys.set t.cap 1) t.cap ≤ 3 * t.cap
          rw [occupied_congr _ _ _ hkeys]; exact hload'
        · show ((occupied (t.keys.set t.cap 1) t.cap : Nat) : Int) ≤ t.count - 1
          rw [occupied_congr _ _ _ hkeys]; omega
        · exact Or.inr (rd_set_eq _ _ _ (by omega))
        · unfold live overflow_count
          simp only
          rw [rd_set_eq _ _ _ (by omega), occupied_congr _ _ _ hkeys]
          simp only [overflow_empty, if_true]
          omega
      · rw [if_neg h0] at hrem
        obtain rfl := Option.some.inj hrem
        exact ⟨hinv, hcount⟩
  | reserve t t' n _ hres ih =>
    obtain ⟨hinv, hcount⟩ := ih
    unfold map_reserve at hres
    simp only at hres
    by_cases hgt : toS32 (next_power_of_two (toU32 n)) > (t.cap : Int)
    · rw [if_pos hgt] at hres
      obtain ⟨j, _, hj, _, _⟩ := reserve_target (toU32 n) (toU32_lt n) (by omega)
      rw [hj] at hgt hres
      rw [Int.toNat_ofNat] at hres
      obtain ⟨g1, g2, g3⟩ := map_grow_inv t (2 ^ j) t' hinv ⟨j, rfl⟩ (by omega) hres
      exact ⟨g1, by rw [g2, g3]; exact hcount⟩
    · rw [if_neg hgt] at hres
      obtain rfl := Option.some.inj hres
      exact ⟨hinv, hcount⟩

/-- C11: removing an absent key changes nothing. On a table with power-of-two
capacity and an empty primary slot, for every key (sentinel or not) for which
`map_get` reports not found, `map_remove` returns the table itself: same keys,
values, hashes, capacity and count. -/
theorem remove_absent_noop (t : Map) (k : Nat) (hpow : IsPow2 t.cap)
    (_hempty : HasEmpty t.keys t.cap) (hget : map_get t k = some none) :
    map_remove t k = some t :=
  map_remove_of_get_none t k hpow hget

/-- C11 at the key of `test_get_missing` and at the sentinel key, on the table of
`map_create`. -/
theorem remove_absent_noop_witness :
    map_remove map_create 0x12aa5f = some map_create ∧
    map_remove map_create 0 = some map_create :=
  ⟨remove_absent_noop map_create 0x12aa5f ⟨4, rfl⟩ ⟨0, by decide, rfl⟩ (by decide),
    remove_absent_noop map_create 0 ⟨4, rfl⟩ ⟨0, by decide, rfl⟩ (by decide)⟩

/-- C12: in every state reachable from `map_create` by `map_add`, `map_remove`
and `map_reserve` calls, the capacity is a power of two and at least 16, the
keys and values arrays have `cap + 1` slots and the hashes array has `cap`
slots. (Signed arithmetic is not bounded in the model, so the bound `2^30` on
the capacities is not needed.) -/
theorem reached_capacity_and_lengths (t : Map) (h : Reached t) :
    IsPow2 t.cap ∧ 16 ≤ t.cap ∧ t.keys.length = t.cap + 1 ∧
      t.values.length = t.cap + 1 ∧ t.hashes.length = t.cap := by
  obtain ⟨⟨h1, h2, h3⟩, hN, hcap, _⟩ := reached_basic _ _ t h
  exact ⟨hN, hcap, h1, h2, h3⟩

/-- C12 at the table after `map_add(1, 10)` on a fresh table. -/
theorem reached_capacity_and_lengths_witness :
    ∃ t, map_add map_create 1 10 = some t ∧ Reached t ∧
      (IsPow2 t.cap ∧ 16 ≤ t.cap ∧ t.keys.length = t.cap + 1 ∧
        t.values.length = t.cap + 1 ∧ t.hashes.length = t.cap) :=
  ⟨({ keys := [0, 0, 0, 0, 0, 0, 0, 0, 0, 0, 0, 0, 1, 0, 0, 0, 1]
      values := [0, 0, 0, 0, 0, 0, 0, 0, 0, 0, 0, 0, 10, 0, 0, 0, 0]
      hashes := [0, 0, 0, 0, 0, 0, 0, 0, 0, 0, 0, 0, 357654460, 0, 0, 0]
      cap := 16
      count := 1 } : Map), by decide,
    ReachedBy.add map_create _ 1 10 ReachedBy.create trivial (by decide),
    reached_capacity_and_lengths _
      (ReachedBy.add map_create _ 1 10 ReachedBy.create trivial (by decide))⟩

/-- C13 fails on the code: `map_add(1, 10)`, `map_add(4, 40)`, `map_remove(1)`,
`map_add(4, 41)` on a fresh table leaves key 4 in the primary slots 12 and 13.
The removal moved key 4 from its home slot 13 to slot 12 (it tests the raw
cached hash instead of the home position), so the second add no longer finds it
and stores it again. -/
theorem reachable_duplicate_key :
    (((add_all map_create [(1, 10), (4, 40)]).bind (fun t => map_remove t 1)).bind
      (fun t => map_add t 4 41)).map (fun t => (rd t.keys 12, rd t.keys 13, t.cap)) =
        some (4, 4, 16) ∧
    ∃ t, Reached t ∧ ¬ NoDuplicate t.keys t.cap := by
  have h : (((add_all map_create [(1, 10), (4, 40)]).bind (fun t => map_remove t 1)).bind
      (fun t => map_add t 4 41)).map (fun t => (rd t.keys 12, rd t.keys 13, t.cap)) =
        some (4, 4, 16) := by decide
  refine ⟨h, ?_⟩
  cases h1 : add_all map_create [(1, 10), (4, 40)] with
  | none => rw [h1] at h; simp at h
  | some t1 =>
    rw [h1] at h
    simp only [Option.some_bind] at h
    cases h2 : map_remove t1 1 with
    | none => rw [h2] at h; simp at h
    | some t2 =>
      rw [h2] at h
      simp only [Option.some_bind] at h
      cases h3 : map_add t2 4 41 with
      | none => rw [h3] at h; simp at h
      | some t3 =>
        rw [h3] at h
        simp only [Option.map_some', Option.some.injEq, Prod.mk.injEq] at h
        obtain ⟨e1, e2, e3⟩ := h
        have hr1 : Reached t1 := reached_add_all _ map_create t1 ReachedBy.create h1
        have hr3 : Reached t3 :=
          ReachedBy.add t2 t3 4 41 (ReachedBy.remove t1 t2 1 hr1 trivial h2) trivial h3
        refine ⟨t3, hr3, fun hnd => ?_⟩
        have := hnd 12 (by omega) 13 (by omega) (by rw [e1]; decide) (by rw [e1, e2])
        omega

/-- C14 fails on the code: `map_add(1, 10)` followed by `map_add(1, 11)` on a
fresh table overwrites the value in place but increments `count` again, so
`count` is 2 while one primary slot is occupied and the overflow slot is empty:
a reachable state in which `count` is not the number of live pairs. -/
theorem count_exceeds_live_pairs :
    (add_all map_create [(1, 10), (1, 11)]).map
      (fun t => (t.count, occupied t.keys t.cap, rd t.keys t.cap, live t)) =
        some (2, 1, overflow_empty, 1) ∧
    ∃ t, Reached t ∧ t.count ≠ (live t : Int) := by
  have h : (add_all map_create [(1, 10), (1, 11)]).map
      (fun t => (t.count, occupied t.keys t.cap, rd t.keys t.cap, live t)) =
        some (2, 1, overflow_empty, 1) := by decide
  refine ⟨h, ?_⟩
  cases h1 : add_all map_create [(1, 10), (1, 11)] with
  | none => rw [h1] at h; simp at h
  | some t1 =>
    rw [h1] at h
    simp only [Option.map_some', Option.some.injEq, Prod.mk.injEq] at h
    obtain ⟨e1, _, _, e4⟩ := h
    refine ⟨t1, reached_add_all _ map_create t1 ReachedBy.create h1, ?_⟩
    rw [e1, e4]
    decide

/-- C14 amended: in every state reached from `map_create` by `map_add` calls
whose key is not stored at that moment, `map_remove` calls of the sentinel key
or of a key that is not stored, and `map_reserve` calls, `count` equals the
number of live pairs: the occupied primary slots plus one if the overflow slot
is occupied. -/
theorem count_is_live_when_fresh (t : Map) (h : ReachedFresh t) :
    t.count = (live t : Int) :=
  (reached_fresh_inv t h).2

/-- C14 amended, at the table after `map_add(1, 10)` on a fresh table. -/
theorem count_is_live_when_fresh_witness :
    ∃ t, map_add map_create 1 10 = some t ∧ ReachedFresh t ∧ t.count = (live t : Int) :=
  ⟨({ keys := [0, 0, 0, 0, 0, 0, 0, 0, 0, 0, 0, 0, 1, 0, 0, 0, 1]
      values := [0, 0, 0, 0, 0, 0, 0, 0, 0, 0, 0, 0, 10, 0, 0, 0, 0]
      hashes := [0, 0, 0, 0, 0, 0, 0, 0, 0, 0, 0, 0, 357654460, 0, 0, 0]
      cap := 16
      count := 1 } : Map), by decide,
    ReachedBy.add map_create _ 1 10 ReachedBy.create (by decide) (by decide),
    count_is_live_when_fresh _
      (ReachedBy.add map_create _ 1 10 ReachedBy.create (by decide) (by decide))⟩

/-- C15 fails on the code: eighteen calls `map_add(0, 7)` on a fresh table each
overwrite the overflow slot and increment `count`, and the sentinel path never
grows the table, so `count` is 18 with capacity 16: a reachable state with
`count > capacity + 1`. -/
theorem count_exceeds_capacity :
    (add_all map_create (List.replicate 18 (0, 7))).map (fun t => (t.count, t.cap)) =
      some (18, 16) ∧
    ∃ t, Reached t ∧ ¬ (t.count ≤ (t.cap : Int) + 1) := by
  have h : (add_all map_create (List.replicate 18 (0, 7))).map (fun t => (t.count, t.cap)) =
      some (18, 16) := by decide
  refine ⟨h, ?_⟩
  cases h1 : add_all map_create (List.replicate 18 (0, 7)) with
  | none => rw [h1] at h; simp at h
  | some t1 =>
    rw [h1] at h
    simp only [Option.map_some', Option.some.injEq, Prod.mk.injEq] at h
    obtain ⟨e1, e2⟩ := h
    refine ⟨t1, reached_add_all _ map_create t1 ReachedBy.create h1, ?_⟩
    rw [e1, e2]
    decide

/-- C15 amended: in every state reached from `map_create` by `map_add`,
`map_remove` and `map_reserve` calls in which the sentinel key is only added
while the overflow slot is empty, `count <= capacity + 1`. -/
theorem count_bounded_when_sentinel_added_once (t : Map) (h : ReachedOnce t) :
    t.count ≤ (t.cap : Int) + 1 := by
  have h1 := reached_once_count t h
  have h2 : overflow_count t ≤ 1 := by
    unfold overflow_count
    split <;> omega
  omega

/-- C15 amended, at the table after `map_add(0, 612377)` on a fresh table. -/
theorem count_bounded_when_sentinel_added_once_witness :
    ∃ t, map_add map_create 0 612377 = some t ∧ ReachedOnce t ∧
      t.count ≤ (t.cap : Int) + 1 :=
  ⟨({ keys := [0, 0, 0, 0, 0, 0, 0, 0, 0, 0, 0, 0, 0, 0, 0, 0, 0]
      values := [0, 0, 0, 0, 0, 0, 0, 0, 0, 0, 0, 0, 0, 0, 0, 0, 612377]
      hashes := [0, 0, 0, 0, 0, 0, 0, 0, 0, 0, 0, 0, 0, 0, 0, 0]
      cap := 16
      count := 1 } : Map), by decide,
    ReachedBy.add map_create _ 0 612377 ReachedBy.create (Or.inr (by decide)) (by decide),
    count_bounded_when_sentinel_added_once _
      (ReachedBy.add map_create _ 0 612377 ReachedBy.create (Or.inr (by decide))
        (by decide))⟩

/-- C16: in every state reachable from `map_create` the cached hash of every
occupied primary slot is `hash_key` of its key; and `map_remove` and `map_grow`
only copy: on any table of the data model's shape, every occupied slot of their
result holds a key, value and cached hash that one slot of the old table held
together, whatever the cached hashes were. -/
theorem reached_hashes_consistent (t : Map) (h : Reached t) :
    HashesConsistent t.keys t.hashes t.cap ∧
    (∀ (u : Map) (k : Nat) (u' : Map), Shaped u → IsPow2 u.cap → map_remove u k = some u' →
      CopiedFrom u u') ∧
    (∀ (u : Map) (N : Nat) (u' : Map), IsPow2 N → map_grow u N = some u' →
      CopiedFrom u u') := by
  obtain ⟨_, _, _, hc⟩ := reached_basic _ _ t h
  exact ⟨hc, fun u k u' hsh hN hr => (map_remove_copied u k u' hN hsh hr).1,
    fun u N u' hN hg => (map_grow_copied u N hN u' hg).1⟩

/-- C16 at the table after `map_add(1, 10)` on a fresh table. -/
theorem reached_hashes_consistent_witness :
    ∃ t, map_add map_create 1 10 = some t ∧ Reached t ∧
      (HashesConsistent t.keys t.hashes t.cap ∧
      (∀ (u : Map) (k : Nat) (u' : Map), Shaped u → IsPow2 u.cap →
        map_remove u k = some u' → CopiedFrom u u') ∧
      (∀ (u : Map) (N : Nat) (u' : Map), IsPow2 N → map_grow u N = some u' →
        CopiedFrom u u')) :=
  ⟨({ keys := [0, 0, 0, 0, 0, 0, 0, 0, 0, 0, 0, 0, 1, 0, 0, 0, 1]
      values := [0, 0, 0, 0, 0, 0, 0, 0, 0, 0, 0, 0, 10, 0, 0, 0, 0]
      hashes := [0, 0, 0, 0, 0, 0, 0, 0, 0, 0, 0, 0, 357654460, 0, 0, 0]
      cap := 16
      count := 1 } : Map), by decide,
    ReachedBy.add map_create _ 1 10 ReachedBy.create trivial (by decide),
    reached_hashes_consistent _
      (ReachedBy.add map_create _ 1 10 ReachedBy.create trivial (by decide))⟩

/-- C17 fails on the code: after `map_add(15, 150)` and `map_add(16, 160)` on a
fresh table both keys have home slot 0 and sit in slots 0 and 1. In
`map_remove(15)` the hole is `i = 0` and the scan is at `j = 1`; the home
position 0 of key 16 lies outside `(0, 1]`, yet the entry is moved into slot 0
and slot 1 becomes the hole. -/
theorem scan_moves_entry_with_home_outside :
    hash_key 15 &&& (16 - 1) = 0 ∧ hash_key 16 &&& (16 - 1) = 0 ∧
    in_cyclic_interval 0 0 1 = false ∧
    (add_all map_create [(15, 150), (16, 160)]).map
      (fun t => (rd t.keys 0, rd t.keys 1)) = some (15, 16) ∧
    ((add_all map_create [(15, 150), (16, 160)]).bind (fun t => map_remove t 15)).map
      (fun t => (rd t.keys 0, rd t.keys 1)) = some (16, 0) := by
  decide

/-- C17 amended: in the scan of `map_remove`, with the hole at `i` and the scan
arriving at an occupied slot `j' = (j + 1) & (cap - 1)` whose cached hash is
below the capacity (so that it is its own home position `h & (cap - 1)`), the
entry is left in place and the scan continues from `j'` with the same hole
exactly when the home position lies inside the cyclic interval `(i, j']`;
when it lies outside, the entry (key, value, cached hash) is moved into `i`
and `j'` becomes the new, emptied hole. -/
theorem scan_decision (fuel : Nat) (m : Map) (i j : Nat) (hpow : IsPow2 m.cap)
    (hcap : m.cap < 2 ^ 31)
    (hocc : rd m.keys ((j + 1) &&& (m.cap - 1)) ≠ empty)
    (hhome : rd m.hashes ((j + 1) &&& (m.cap - 1)) < m.cap) :
    rd m.hashes ((j + 1) &&& (m.cap - 1)) &&& (m.cap - 1) =
      rd m.hashes ((j + 1) &&& (m.cap - 1)) ∧
    (in_cyclic_interval ((rd m.hashes ((j + 1) &&& (m.cap - 1)) &&& (m.cap - 1) : Nat) : Int)
        (i : Int) (((j + 1) &&& (m.cap - 1) : Nat) : Int) = true →
      remove_loop (fuel + 1) m i j = remove_loop fuel m i ((j + 1) &&& (m.cap - 1))) ∧
    (in_cyclic_interval ((rd m.hashes ((j + 1) &&& (m.cap - 1)) &&& (m.cap - 1) : Nat) : Int)
        (i : Int) (((j + 1) &&& (m.cap - 1) : Nat) : Int) = false →
      remove_loop (fuel + 1) m i j =
        remove_loop fuel
          { keys := (m.keys.set i (rd m.keys ((j + 1) &&& (m.cap - 1)))).set
                      ((j + 1) &&& (m.cap - 1)) empty
            values := m.values.set i (rd m.values ((j + 1) &&& (m.cap - 1)))
            hashes := m.hashes.set i (rd m.hashes ((j + 1) &&& (m.cap - 1)))
            cap := m.cap
            count := m.count }
          ((j + 1) &&& (m.cap - 1)) ((j + 1) &&& (m.cap - 1))) := by
  have hhome' : rd m.hashes ((j + 1) &&& (m.cap - 1)) &&& (m.cap - 1) =
      rd m.hashes ((j + 1) &&& (m.cap - 1)) := by
    rw [mask_eq_mod m.cap hpow (rd m.hashes ((j + 1) &&& (m.cap - 1)))]
    exact Nat.mod_eq_of_lt hhome
  have hs : toS32 (rd m.hashes ((j + 1) &&& (m.cap - 1))) =
      ((rd m.hashes ((j + 1) &&& (m.cap - 1)) : Nat) : Int) := toS32_small _ (by omega)
  refine ⟨hhome', ?_, ?_⟩
  · intro h
    rw [hhome'] at h
    rw [remove_loop_unfold, if_neg hocc, hs, if_pos h]
  · intro h
    rw [hhome'] at h
    rw [remove_loop_unfold, if_neg hocc, hs, if_neg (by rw [h]; decide)]

/-- C17 amended, at the scan of `map_remove(1)` on the table holding key 1 (home
slot 12) and key 47686018490512, whose hash is 13: with the hole at 12 and the
scan arriving at slot 13, the home position 13 lies inside `(12, 13]` and the
entry stays. -/
theorem scan_decision_witness :
    hash_key 47686018490512 = 13 ∧
    in_cyclic_interval 13 12 13 = true ∧
    remove_loop (15 + 1)
        { keys := [0, 0, 0, 0, 0, 0, 0, 0, 0, 0, 0, 0, 0, 47686018490512, 0, 0, 1]
          values := [0, 0, 0, 0, 0, 0, 0, 0, 0, 0, 0, 0, 10, 50, 0, 0, 0]
          hashes := [0, 0, 0, 0, 0, 0, 0, 0, 0, 0, 0, 0, 357654460, 13, 0, 0]
          cap := 16
          count := 2 } 12 12 =
      remove_loop 15
        { keys := [0, 0, 0, 0, 0, 0, 0, 0, 0, 0, 0, 0, 0, 47686018490512, 0, 0, 1]
          values := [0, 0, 0, 0, 0, 0, 0, 0, 0, 0, 0, 0, 10, 50, 0, 0, 0]
          hashes := [0, 0, 0, 0, 0, 0, 0, 0, 0, 0, 0, 0, 357654460, 13, 0, 0]
          cap := 16
          count := 2 } 12 13 :=
  ⟨by decide, by decide,
    (scan_decision 15
      { keys := [0, 0, 0, 0, 0, 0, 0, 0, 0, 0, 0, 0, 0, 47686018490512, 0, 0, 1]
        values := [0, 0, 0, 0, 0, 0, 0, 0, 0, 0, 0, 0, 10, 50, 0, 0, 0]
        hashes := [0, 0, 0, 0, 0, 0, 0, 0, 0, 0, 0, 0, 357654460, 13, 0, 0]
        cap := 16
        count := 2 } 12 12 ⟨4, rfl⟩ (by decide) (by decide) (by decide)).2.1 (by decide)⟩

/-- C18: on a ring of `n >= 1` slots and for positions `0 <= x, first, second < n`,
`in_cyclic_interval x first second` is membership of `x` in the cyclic half-open
interval `(first, second]`: it is true exactly when
`(x - first - 1) mod n <= (second - first - 1) mod n`. For `second > first` that
is `first < x <= second`, for `second < first` it is `x > first` or
`x <= second`, and for `first = second` it is true for every `x`. -/
theorem in_cyclic_interval_spec (n x first second : Int) (_hn : 1 ≤ n)
    (hx0 : 0 ≤ x) (hx : x < n) (hf0 : 0 ≤ first) (hf : first < n)
    (hs0 : 0 ≤ second) (hs : second < n) :
    (in_cyclic_interval x first second = true ↔
      (x - first - 1) % n ≤ (second - first - 1) % n) ∧
    (second > first → (in_cyclic_interval x first second = true ↔ first < x ∧ x ≤ second)) ∧
    (second < first → (in_cyclic_interval x first second = true ↔ x > first ∨ x ≤ second)) ∧
    (first = second → in_cyclic_interval x first second = true) := by
  have e1 := int_emod_cases (x - first - 1) n (by omega) (by omega)
  have e2 := int_emod_cases (second - first - 1) n (by omega) (by omega)
  unfold in_cyclic_interval
  refine ⟨?_, ?_, ?_, ?_⟩
  · rw [e1, e2]
    by_cases h : second > first
    · simp only [h, if_true, Bool.and_eq_true, decide_eq_true_eq]
      split <;> split <;> omega
    · simp only [h, if_false, Bool.or_eq_true, decide_eq_true_eq]
      split <;> split <;> omega
  · intro h
    simp only [h, if_true, Bool.and_eq_true, decide_eq_true_eq]
  · intro h
    have h' : ¬ second > first := by omega
    simp only [h', if_false, Bool.or_eq_true, decide_eq_true_eq]
  · intro h
    have h' : ¬ second > first := by omega
    simp only [h', if_false, Bool.or_eq_true, decide_eq_true_eq]
    omega

/-- C18 on the ring of 16 slots, across the wraparound: 1 lies in `(14, 2]`. -/
theorem in_cyclic_interval_spec_witness :
    (in_cyclic_interval 1 14 2 = true ↔ ((1 : Int) - 14 - 1) % 16 ≤ ((2 : Int) - 14 - 1) % 16) ∧
    ((2 : Int) > 14 → (in_cyclic_interval 1 14 2 = true ↔ (14 : Int) < 1 ∧ (1 : Int) ≤ 2)) ∧
    ((2 : Int) < 14 → (in_cyclic_interval 1 14 2 = true ↔ (1 : Int) > 14 ∨ (1 : Int) ≤ 2)) ∧
    ((14 : Int) = 2 → in_cyclic_interval 1 14 2 = true) :=
  in_cyclic_interval_spec 16 1 14 2 (by decide) (by decide) (by decide) (by decide)
    (by decide) (by decide) (by decide)

/-- C19: for a power-of-two `cap`, a keys array whose first `cap` slots contain
an empty slot or the searched key, any key and any hash, `find_slot` ends and
returns an index `p < cap` whose slot holds the key or is empty; `p` is the
first such index in the cyclic order `home, home + 1, ...` from
`home = hash & (cap - 1) = hash mod cap`, and every slot before it in that
order holds a different, non-empty key. The assertion
`can_use_bitwise_and_to_cycle(cap)` of `find_slot` holds for such a `cap` below
`2^32`. -/
theorem find_slot_first (keys : List Nat) (cap key hash : Nat) (hpow : IsPow2 cap)
    (hstop : ∃ q, q < cap ∧ (rd keys q = key ∨ rd keys q = empty)) :
    hash &&& (cap - 1) = hash % cap ∧
    (cap < 2 ^ 32 → can_use_bitwise_and_to_cycle cap = true) ∧
    ∃ p d, find_slot keys cap key hash = some p ∧ p < cap ∧
      (rd keys p = key ∨ rd keys p = empty) ∧
      d < cap ∧ p = (hash % cap + d) % cap ∧
      ∀ e, e < d → rd keys ((hash % cap + e) % cap) ≠ key ∧
        rd keys ((hash % cap + e) % cap) ≠ empty := by
  refine ⟨mask_eq_mod cap hpow hash, fun hlt => (is_power_of_two_iff cap hlt).2 hpow, ?_⟩
  obtain ⟨q, hq, hqs⟩ := hstop
  obtain ⟨p, hp⟩ := find_slot_terminates keys cap key hash q hpow hq hqs
  obtain ⟨hlt, hst, d, hd, hpd, hpre⟩ := find_slot_result keys cap key hash p hpow hp
  refine ⟨p, d, hp, hlt, hst, hd, hpd, fun e he => ?_⟩
  have := hpre e he
  exact ⟨fun h => this (Or.inl h), fun h => this (Or.inr h)⟩

/-- C19 on the table holding keys 15 and 16 (both with home slot 0), probing for
key 17 (home slot 0 as well): the result is slot 2. -/
theorem find_slot_first_witness :
    (hash_key 17 &&& (16 - 1) = hash_key 17 % 16 ∧
    ((16 : Nat) < 2 ^ 32 → can_use_bitwise_and_to_cycle 16 = true) ∧
    ∃ p d, find_slot [15, 16, 0, 0, 0, 0, 0, 0, 0, 0, 0, 0, 0, 0, 0, 0, 1] 16 17
        (hash_key 17) = some p ∧ p < 16 ∧
      (rd [15, 16, 0, 0, 0, 0, 0, 0, 0, 0, 0, 0, 0, 0, 0, 0, 1] p = 17 ∨
        rd [15, 16, 0, 0, 0, 0, 0, 0, 0, 0, 0, 0, 0, 0, 0, 0, 1] p = empty) ∧
      d < 16 ∧ p = (hash_key 17 % 16 + d) % 16 ∧
      ∀ e, e < d →
        rd [15, 16, 0, 0, 0, 0, 0, 0, 0, 0, 0, 0, 0, 0, 0, 0, 1]
          ((hash_key 17 % 16 + e) % 16) ≠ 17 ∧
        rd [15, 16, 0, 0, 0, 0, 0, 0, 0, 0, 0, 0, 0, 0, 0, 0, 1]
          ((hash_key 17 % 16 + e) % 16) ≠ empty) ∧
    find_slot [15, 16, 0, 0, 0, 0, 0, 0, 0, 0, 0, 0, 0, 0, 0, 0, 1] 16 17 (hash_key 17) =
      some 2 :=
  ⟨find_slot_first [15, 16, 0, 0, 0, 0, 0, 0, 0, 0, 0, 0, 0, 0, 0, 0, 1] 16 17 (hash_key 17)
    ⟨4, rfl⟩ ⟨2, by decide, Or.inr rfl⟩, by decide⟩

/-- The scan of `map_remove` ends before it passes an empty slot `e`, whatever
keys and cached hashes the other slots hold. -/
theorem remove_loop_terminates (e : Nat) :
    ∀ (d fuel : Nat) (m : Map) (i j : Nat), IsPow2 m.cap → Shaped m →
      i < m.cap → j < m.cap → e < m.cap → rd m.keys e = 0 → j ≠ e → i ≠ e →
      (j + d) % m.cap = e → d ≤ fuel → ∃ m', remove_loop fuel m i j = some m' := by
  intro d
  induction d with
  | zero =>
    intro fuel m i j _ _ _ hj _ _ hje _ hd
    exfalso
    have : (j + 0) % m.cap = j := by simpa using Nat.mod_eq_of_lt hj
    rw [this] at hd
    exact hje hd
  | succ d ih =>
    intro fuel m i j hN hsh hi hj he he0 hje hie hd hfuel
    obtain ⟨f, rfl⟩ : ∃ f, fuel = f + 1 := ⟨fuel - 1, by omega⟩
    have hpos := pow2_pos m.cap hN
    have hj' : (j + 1) % m.cap < m.cap := Nat.mod_lt _ hpos
    have hd' : ((j + 1) % m.cap + d) % m.cap = e := by rw [ring_succ]; exact hd
    rw [remove_loop_unfold, mask_eq_mod m.cap hN]
    by_cases h0 : rd m.keys ((j + 1) % m.cap) = empty
    · rw [if_pos h0]
      exact ⟨m, rfl⟩
    · rw [if_neg h0]
      have hj'e : (j + 1) % m.cap ≠ e := by
        intro heq; rw [heq] at h0; exact h0 he0
      split
      · exact ih f m i _ hN hsh hi hj' he he0 hj'e hie hd' (by omega)
      · obtain ⟨hlk, hlv, hlh⟩ := hsh
        generalize (j + 1) % m.cap = j' at *
        have hkeys : ∀ q, rd ((m.keys.set i (rd m.keys j')).set j' empty) q =
            if q = j' then 0 else if q = i then rd m.keys j' else rd m.keys q := by
          intro q
          rw [rd_set _ _ _ _ (by simp; omega), rd_set _ _ _ _ (by omega)]
          rfl
        exact ih f
          { keys := (m.keys.set i (rd m.keys j')).set j' empty
            values := m.values.set i (rd m.values j')
            hashes := m.hashes.set i (rd m.hashes j')
            cap := m.cap
            count := m.count } j' j' hN
          ⟨by simp [hlk], by simp [hlv], by simp [hlh]⟩ hj' hj' he
          (by show rd _ e = 0
              rw [hkeys, if_neg (fun h => hj'e h.symm), if_neg (fun h => hie h.symm)]
              exact he0)
          hj'e hj'e hd' (by omega)

/-- On a table with an empty primary slot `map_remove` ends for every key; the
scan needs at most `cap` advances of `j`. -/
theorem map_remove_terminates (t : Map) (k : Nat) (hsh : Shaped t) (hN : IsPow2 t.cap)
    (he : HasEmpty t.keys t.cap) : ∃ t', map_remove t k = some t' := by
  by_cases hk : k = 0
  · subst hk
    rw [map_remove_sentinel]
    split
    · exact ⟨_, rfl⟩
    · exact ⟨_, rfl⟩
  · have hke : ¬ k = empty := hk
    obtain ⟨e, he, he0⟩ := he
    obtain ⟨s, hs⟩ := find_slot_terminates t.keys t.cap k (hash_key k) e hN he (Or.inr he0)
    obtain ⟨hsN, _, _⟩ := find_slot_result t.keys t.cap k (hash_key k) s hN hs
    simp only [map_remove, hke, if_false, hs]
    by_cases hs0 : rd t.keys s = empty
    · rw [if_pos hs0]
      exact ⟨t, rfl⟩
    · rw [if_neg hs0]
      have hse : s ≠ e := by
        intro h; rw [h] at hs0; exact hs0 he0
      obtain ⟨hlk, hlv, hlh⟩ := hsh
      obtain ⟨d, hd, hde⟩ := ring_reach t.cap s e hsN he
      exact remove_loop_terminates e d t.cap { t with keys := t.keys.set s empty } s s hN
        ⟨by simp [hlk], hlv, hlh⟩ hsN hsN he
        (by show rd (t.keys.set s empty) e = 0
            rw [rd_set_ne _ _ _ _ hse]; exact he0)
        hse hse hde (by omega)

/-- In every state that `map_add` and `map_remove` with the unbounded `count`
reach from `map_create`, whatever keys are added and removed, the live pairs
number at most `count` and the occupied primary slots at most three quarters of
the capacity. -/
theorem reached_counts (addOk removeOk : Map → Nat → Prop) (t : Map)
    (h : ReachedBy addOk removeOk t) :
    ((occupied t.keys t.cap : Int) + (overflow_count t : Int) ≤ t.count) ∧
      4 * occupied t.keys t.cap ≤ 3 * t.cap := by
  induction h with
  | create => decide
  | add t t' k v hprev _ hadd ih =>
    obtain ⟨hsh, hN, hcap, _⟩ := reached_basic _ _ t hprev
    obtain ⟨ih1, ih2⟩ := ih
    by_cases hk : k = 0
    · subst hk
      rw [map_add_sentinel] at hadd
      obtain rfl := Option.some.inj hadd
      obtain ⟨hlk, _, _⟩ := hsh
      have e2 : overflow_count
          { t with keys := t.keys.set t.cap 0, values := t.values.set t.cap v,
                   count := t.count + 1 } = 1 := by
        unfold overflow_count
        simp only
        rw [rd_set_eq _ _ _ (by omega)]
        rfl
      have e3 : occupied (t.keys.set t.cap 0) t.cap = occupied t.keys t.cap :=
        occupied_congr t.keys _ t.cap (fun q hq => rd_set_ne _ _ _ _ (by omega))
      rw [e2]
      show ((occupied (t.keys.set t.cap 0) t.cap : Int) + ((1 : Nat) : Int) ≤ t.count + 1) ∧
        4 * occupied (t.keys.set t.cap 0) t.cap ≤ 3 * t.cap
      rw [e3]
      constructor
      · omega
      · exact ih2
    · obtain ⟨_, _, c3, c4, c5, c6, _, c8, _⟩ := map_add_frame t k v t' hk hN hsh hadd
      rw [overflow_count_eq t t' c6, c5]
      by_cases hg : t.count ≥ (3 * (t.cap : Int)) / 4
      · rw [c4 hg] at c8 ⊢
        constructor <;> omega
      · rw [c3 (by omega)] at c8 ⊢
        constructor <;> omega
  | remove t t' k hprev _ hrem ih =>
    obtain ⟨hsh, hN, _, _⟩ := reached_basic _ _ t hprev
    obtain ⟨ih1, ih2⟩ := ih
    by_cases hk : k = 0
    · subst hk
      rw [map_remove_sentinel] at hrem
      by_cases h0 : rd t.keys t.cap = 0
      · rw [if_pos h0] at hrem
        obtain rfl := Option.some.inj hrem
        obtain ⟨hlk, _, _⟩ := hsh
        have e1 : overflow_count t = 1 := by
          unfold overflow_count; rw [h0]; rfl
        have e2 : overflow_count
            { t with keys := t.keys.set t.cap 1, values := t.values.set t.cap 0,
                     count := t.count - 1 } = 0 := by
          unfold overflow_count
          simp only
          rw [rd_set_eq _ _ _ (by omega)]
          rfl
        have e3 : occupied (t.keys.set t.cap 1) t.cap = occupied t.keys t.cap :=
          occupied_congr t.keys _ t.cap (fun q hq => rd_set_ne _ _ _ _ (by omega))
        rw [e2]
        rw [e1] at ih1
        show ((occupied (t.keys.set t.cap 1) t.cap : Int) + ((0 : Nat) : Int) ≤ t.count - 1) ∧
          4 * occupied (t.keys.set t.cap 1) t.cap ≤ 3 * t.cap
        rw [e3]
        constructor
        · omega
        · exact ih2
      · rw [if_neg h0] at hrem
        obtain rfl := Option.some.inj hrem
        exact ⟨ih1, ih2⟩
    · obtain ⟨_, c2, c3, c4, _, _, c7⟩ := map_remove_frame t k t' hk hN hsh hrem
      rw [overflow_count_eq t t' (by rw [c4]), c3]
      rw [c2] at c7 ⊢
      constructor <;> omega
  | reserve t t' n hprev hres ih =>
    obtain ⟨hsh, hN, _, _⟩ := reached_basic _ _ t hprev
    obtain ⟨ih1, ih2⟩ := ih
    obtain ⟨_, _, c3, c4, c5, _, _, c8⟩ := map_reserve_frame t n t' hN hsh hres
    rw [overflow_count_eq t t' c5, c4]
    constructor <;> omega

/-! ## Capacity after map_add -/

theorem next_loop_unfold (map : Map) (fuel i : Nat) :
    iterator_next_loop map (fuel + 1) (i : Int) =
      if map.cap ≤ i + 1 then
        if i + 1 = map.cap ∧ rd map.keys map.cap ≠ overflow_empty then
          some { index := (map.cap : Int) }
        else some { index := end_index }
      else if rd map.keys (i + 1) = empty then
        iterator_next_loop map fuel ((i + 1 : Nat) : Int)
      else some { index := ((i + 1 : Nat) : Int) } := by
  have e : (i : Int) + 1 = ((i + 1 : Nat) : Int) := by push_cast; rfl
  rw [iterator_next_loop]
  simp only [e, Int.toNat_ofNat, ge_iff_le, Nat.cast_le, Nat.cast_inj]

/-- From index `i`, over `d` empty slots, the loop stops at the occupied primary
slot `i + d + 1`. -/
theorem next_loop_found (map : Map) :
    ∀ (d fuel i : Nat), d < fuel → i + d + 1 < map.cap →
      (∀ q, i < q → q ≤ i + d → rd map.keys q = empty) → rd map.keys (i + d + 1) ≠ empty →
      iterator_next_loop map fuel (i : Int) = some { index := ((i + d + 1 : Nat) : Int) } := by
  intro d
  induction d with
  | zero =>
    intro fuel i hf hlt _ hne
    obtain ⟨f, rfl⟩ : ∃ f, fuel = f + 1 := ⟨fuel - 1, by omega⟩
    rw [next_loop_unfold, if_neg (by omega), if_neg hne]
  | succ d ih =>
    intro fuel i hf hlt hemp hne
    obtain ⟨f, rfl⟩ : ∃ f, fuel = f + 1 := ⟨fuel - 1, by omega⟩
    rw [next_loop_unfold, if_neg (by omega), if_pos (hemp (i + 1) (by omega) (by omega))]
    have := ih f (i + 1) (by omega) (by omega) (fun q h1 h2 => hemp q (by omega) (by omega))
      (by rw [show i + 1 + d + 1 = i + (d + 1) + 1 from by omega]; exact hne)
    rw [this, show i + 1 + d + 1 = i + (d + 1) + 1 from by omega]

/-- From index `i`, when every later primary slot is empty, the loop leaves the
primary region and returns the overflow index or the end index. -/
theorem next_loop_exhausted (map : Map) :
    ∀ (d fuel i : Nat), d < fuel → i + d + 1 = map.cap →
      (∀ q, i < q → q < map.cap → rd map.keys q = empty) →
      iterator_next_loop map fuel (i : Int) =
        if rd map.keys map.cap ≠ overflow_empty then some { index := (map.cap : Int) }
        else some { index := end_index } := by
  intro d
  induction d with
  | zero =>
    intro fuel i hf heq _
    obtain ⟨f, rfl⟩ : ∃ f, fuel = f + 1 := ⟨fuel - 1, by omega⟩
    rw [next_loop_unfold, if_pos (by omega)]
    by_cases ho : rd map.keys map.cap ≠ overflow_empty
    · rw [if_pos ⟨by omega, ho⟩, if_pos ho]
    · rw [if_neg (fun h => ho h.2), if_neg ho]
  | succ d ih =>
    intro fuel i hf heq hemp
    obtain ⟨f, rfl⟩ : ∃ f, fuel = f + 1 := ⟨fuel - 1, by omega⟩
    rw [next_loop_unfold, if_neg (by omega), if_pos (hemp (i + 1) (by omega) (by omega))]
    exact ih f (i + 1) (by omega) (by omega) (fun q h1 h2 => hemp q (by omega) h2)

theorem next_from_overflow (map : Map) :
    map_iterator_next map { index := (map.cap : Int) } = some { index := end_index } := by
  unfold map_iterator_next
  simp only
  rw [next_loop_unfold, if_pos (by omega), if_neg (fun h => by omega)]

/-- From a position `i ≤ cap`, `map_iterator_next` returns the end index or a
larger position that is at most `cap`. -/
theorem next_total (map : Map) (i : Nat) (hi : i ≤ map.cap) :
    ∃ it, map_iterator_next map { index := (i : Int) } = some it ∧
      (it.index = end_index ∨ ∃ j : Nat, it.index = (j : Int) ∧ i < j ∧ j ≤ map.cap) := by
  by_cases hc : i = map.cap
  · subst hc
    exact ⟨_, next_from_overflow map, Or.inl rfl⟩
  · unfold map_iterator_next
    simp only
    by_cases hex : ∃ j, i < j ∧ j < map.cap ∧ rd map.keys j ≠ empty
    · classical
      have hspec := Nat.find_spec hex
      have hmin := fun q => @Nat.find_min _ _ hex q
      obtain ⟨h1, h2, h3⟩ := hspec
      have hj : Nat.find hex = i + (Nat.find hex - i - 1) + 1 := by omega
      refine ⟨_, next_loop_found map (Nat.find hex - i - 1) (map.cap + 1) i (by omega)
        (by omega) ?_ (by rw [← hj]; exact h3), Or.inr ⟨_, rfl, by omega, by omega⟩⟩
      intro q hq1 hq2
      by_contra hq
      exact hmin q (by omega) ⟨hq1, by omega, hq⟩
    · have hemp : ∀ q, i < q → q < map.cap → rd map.keys q = empty := by
        intro q h1 h2
        by_contra hq
        exact hex ⟨q, h1, h2, hq⟩
      rw [next_loop_exhausted map (map.cap - i - 1) (map.cap + 1) i (by omega) (by omega) hemp]
      split
      · exact ⟨_, rfl, Or.inr ⟨map.cap, rfl, by omega, by omega⟩⟩
      · exact ⟨_, rfl, Or.inl rfl⟩

theorem iterate_loop_end (map : Map) (f : Nat) :
    iterate_loop map (f + 1) { index := end_index } = some [] := by
  rw [iterate_loop, if_neg]
  simp [map_iterator_is_not_end]

/-- The traversal from a position `i ≤ cap` ends and visits at most
`cap - i + 1` positions. -/
theorem iterate_total (map : Map) :
    ∀ (n fuel i : Nat), i ≤ map.cap → map.cap - i ≤ n → n + 2 ≤ fuel →
      ∃ l, iterate_loop map fuel { index := (i : Int) } = some l ∧
        l.length ≤ map.cap - i + 1 := by
  intro n
  induction n with
  | zero =>
    intro fuel i hi hn hf
    obtain ⟨f, rfl⟩ : ∃ f, fuel = f + 2 := ⟨fuel - 2, by omega⟩
    have hic : i = map.cap := by omega
    have hne : map_iterator_is_not_end { index := (i : Int) } = true := by
      simp [map_iterator_is_not_end, end_index]
    rw [iterate_loop, if_pos hne, hic, next_from_overflow]
    simp only [iterate_loop_end]
    exact ⟨[_], rfl, by simp⟩
  | succ n ih =>
    intro fuel i hi hn hf
    obtain ⟨f, rfl⟩ : ∃ f, fuel = f + 1 := ⟨fuel - 1, by omega⟩
    have hne : map_iterator_is_not_end { index := (i : Int) } = true := by
      simp [map_iterator_is_not_end, end_index]
    obtain ⟨it, hnext, hcase⟩ := next_total map i hi
    rw [iterate_loop, if_pos hne, hnext]
    rcases hcase with hend | ⟨j, hj, hij, hjc⟩
    · obtain ⟨f', rfl⟩ : ∃ f', f = f' + 1 := ⟨f - 1, by omega⟩
      have hit : it = { index := end_index } := by
        cases it; simp only at hend; rw [hend]
      rw [hit]
      simp only [iterate_loop_end]
      exact ⟨[_], rfl, by simp⟩
    · have hit : it = { index := (j : Int) } := by
        cases it; simp only at hj; rw [hj]
      obtain ⟨l, hl, hlen⟩ := ih f j hjc (by omega) (by omega)
      rw [hit]
      simp only [hl]
      exact ⟨_ :: l, rfl, by simp; omega⟩

/-! ## The stored triples under map_remove -/

theorem triplesOf_congr (keys keys' values values' hashes hashes' : List Nat) (n : Nat)
    (hk : ∀ q, q < n → rd keys' q = rd keys q)
    (hv : ∀ q, q < n → rd keys q ≠ 0 →
      rd values' q = rd values q ∧ rd hashes' q = rd hashes q) :
    triplesOf keys' values' hashes' n = triplesOf keys values hashes n := by
  induction n with
  | zero => rfl
  | succ n ih =>
    simp only [triplesOf]
    rw [hk n (by omega), ih (fun q hq => hk q (by omega)) (fun q hq => hv q (by omega))]
    by_cases h0 : rd keys n = 0
    · rw [if_pos h0, if_pos h0]
    · rw [if_neg h0, if_neg h0, (hv n (by omega) h0).1, (hv n (by omega) h0).2]

/-- Writing a triple into an empty slot adds it to the stored triples. -/
theorem triplesOf_fill (keys values hashes : List Nat) (s k v h n : Nat) (hs : s < n)
    (hlk : s < keys.length) (hlv : s < values.length) (hlh : s < hashes.length)
    (h0 : rd keys s = 0) (hk : k ≠ 0) :
    List.Perm (triplesOf (keys.set s k) (values.set s v) (hashes.set s h) n)
      ((k, v, h) :: triplesOf keys values hashes n) := by
  induction n with
  | zero => omega
  | succ n ih =>
    simp only [triplesOf]
    by_cases hsn : s = n
    · subst hsn
      rw [rd_set_eq _ _ _ hlk, rd_set_eq _ _ _ hlv, rd_set_eq _ _ _ hlh, if_neg hk, if_pos h0,
        triplesOf_congr keys (keys.set s k) values (values.set s v) hashes (hashes.set s h) s
          (fun q hq => rd_set_ne _ _ _ _ (by omega))
          (fun q hq _ => ⟨rd_set_ne _ _ _ _ (by omega), rd_set_ne _ _ _ _ (by omega)⟩)]
    · rw [rd_set_ne _ _ _ _ hsn, rd_set_ne _ _ _ _ hsn, rd_set_ne _ _ _ _ hsn]
      have := ih (by omega)
      by_cases hn0 : rd keys n = 0
      · rw [if_pos hn0, if_pos hn0]
        exact this
      · rw [if_neg hn0, if_neg hn0]
        exact (List.Perm.cons _ this).trans (List.Perm.swap _ _ _)

/-- Emptying an occupied slot takes its triple out of the stored triples. -/
theorem triplesOf_clear (keys values hashes : List Nat) (s n : Nat) (hs : s < n)
    (hlk : s < keys.length) (h0 : rd keys s ≠ 0) :
    List.Perm (triplesOf keys values hashes n)
      ((rd keys s, rd values s, rd hashes s) :: triplesOf (keys.set s 0) values hashes n) := by
  induction n with
  | zero => omega
  | succ n ih =>
    simp only [triplesOf]
    by_cases hsn : s = n
    · subst hsn
      rw [rd_set_eq _ _ _ hlk, if_neg h0, if_pos rfl,
        triplesOf_congr keys (keys.set s 0) values values hashes hashes s
          (fun q hq => rd_set_ne _ _ _ _ (by omega)) (fun q hq _ => ⟨rfl, rfl⟩)]
    · rw [rd_set_ne _ _ _ _ hsn]
      have := ih (by omega)
      by_cases hn0 : rd keys n = 0
      · rw [if_pos hn0, if_pos hn0]
        exact this
      · rw [if_neg hn0, if_neg hn0]
        exact (List.Perm.cons _ this).trans (List.Perm.swap _ _ _)

/-- A scan of `map_remove` that ends only moves triples: the stored triples
after it are a permutation of those before it (the hole slot `i` is empty on
entry). -/
theorem remove_loop_triples :
    ∀ (fuel : Nat) (m : Map) (i j : Nat) (m' : Map), IsPow2 m.cap → Shaped m → i < m.cap →
      rd m.keys i = 0 → remove_loop fuel m i j = some m' →
      List.Perm (triplesOf m'.keys m'.values m'.hashes m.cap)
        (triplesOf m.keys m.values m.hashes m.cap) := by
  intro fuel
  induction fuel with
  | zero => intro m i j m' _ _ _ _ h; simp [remove_loop] at h
  | succ f ih =>
    intro m i j m' hN hsh hi hi0 h
    have hpos := pow2_pos m.cap hN
    rw [remove_loop_unfold, mask_eq_mod m.cap hN] at h
    have hj' : (j + 1) % m.cap < m.cap := Nat.mod_lt _ hpos
    generalize (j + 1) % m.cap = j' at h hj'
    by_cases h0 : rd m.keys j' = empty
    · rw [if_pos h0] at h
      obtain rfl := Option.some.inj h
      exact List.Perm.refl _
    · rw [if_neg h0] at h
      have h0' : rd m.keys j' ≠ 0 := h0
      split at h
      · exact ih m i j' m' hN hsh hi hi0 h
      · obtain ⟨hlk, hlv, hlh⟩ := hsh
        have hij : i ≠ j' := by
          intro e; rw [e] at hi0; exact h0' hi0
        have hkeys : ∀ q, rd ((m.keys.set i (rd m.keys j')).set j' empty) q =
            if q = j' then 0 else if q = i then rd m.keys j' else rd m.keys q := by
          intro q
          rw [rd_set _ _ _ _ (by simp; omega), rd_set _ _ _ _ (by omega)]
          rfl
        have g := ih
          { keys := (m.keys.set i (rd m.keys j')).set j' empty
            values := m.values.set i (rd m.values j')
            hashes := m.hashes.set i (rd m.hashes j')
            cap := m.cap
            count := m.count } j' j' m' hN
          ⟨by simp [hlk], by simp [hlv], by simp [hlh]⟩ hj'
          (by show rd _ j' = 0
              rw [hkeys, if_pos rfl]) h
        refine g.trans ?_
        show List.Perm (triplesOf ((m.keys.set i (rd m.keys j')).set j' 0)
          (m.values.set i (rd m.values j')) (m.hashes.set i (rd m.hashes j')) m.cap) _
        have e1 := triplesOf_fill m.keys m.values m.hashes i (rd m.keys j') (rd m.values j')
          (rd m.hashes j') m.cap hi (by omega) (by omega) (by omega) hi0 h0'
        have e2 := triplesOf_clear (m.keys.set i (rd m.keys j'))
          (m.values.set i (rd m.values j')) (m.hashes.set i (rd m.hashes j')) j' m.cap hj'
          (by simp; omega) (by rw [rd_set_ne _ _ _ _ hij]; exact h0')
        rw [rd_set_ne _ _ _ _ hij, rd_set_ne _ _ _ _ hij, rd_set_ne _ _ _ _ hij] at e2
        exact List.Perm.cons_inv (e2.symm.trans e1)

/-! ## The two forms of the hash rounds -/

theorem not_form (key : Nat) (h : key < 2 ^ 64) :
    ((2 ^ 64 - 1 - key) + (key <<< 18)) % 2 ^ 64 =
      (((key <<< 18) % 2 ^ 64 + 2 ^ 64 - key) % 2 ^ 64 + 2 ^ 64 - 1) % 2 ^ 64 := by
  rw [Nat.shiftLeft_eq]
  norm_num at h ⊢
  omega

theorem times21_form (key : Nat) :
    (key * 21) % 2 ^ 64 =
      ((key + (key <<< 2) % 2 ^ 64) % 2 ^ 64 + (key <<< 4) % 2 ^ 64) % 2 ^ 64 := by
  rw [Nat.shiftLeft_eq, Nat.shiftLeft_eq]
  norm_num
  omega

/-! ## The 32-bit count -/

theorem wrap32_id (x : Int) (h0 : -2 ^ 31 ≤ x) (h1 : x < 2 ^ 31) : wrap32 x = x := by
  unfold wrap32 toS32 toU32
  split <;> omega

theorem wrap32_succ (x : Int) : wrap32 (wrap32 x + 1) = wrap32 (x + 1) := by
  unfold wrap32 toS32 toU32
  split <;> split <;> split <;> omega

/-- `map_add32` is `map_add` followed by the reduction of `count` to 32 bits. -/
theorem map_add32_eq (t : Map) (k v : Nat) :
    map_add32 t k v = (map_add t k v).map (fun u => { u with count := wrap32 u.count }) := by
  unfold map_add32 map_add
  by_cases hk : k = empty
  · simp only [hk, if_true, Option.map]
  · simp only [hk, if_false]
    split
    · rfl
    · split
      · rfl
      · rfl

theorem map_remove32_sentinel (t : Map) :
    map_remove32 t 0 =
      if rd t.keys t.cap = 0 then
        some { t with keys := t.keys.set t.cap 1, values := t.values.set t.cap 0,
                      count := wrap32 (t.count - 1) }
      else some t := by
  simp [map_remove32, empty, overflow_empty]

theorem map_remove32_nonzero (t : Map) (k : Nat) (hk : k ≠ 0) :
    map_remove32 t k = map_remove t k := by
  have hke : ¬ k = empty := hk
  simp only [map_remove32, map_remove, hke, if_false]

/-- While fewer than `2^31` calls of `map_add` have been made `count` has not
wrapped: the state is one the model with the unbounded `count` reaches, and
`count` is at most the number of `map_add` calls. -/
theorem within_is_reached (n : Nat) (t : Map) (h : ReachedWithin n t) :
    n < 2 ^ 31 → Reached t ∧ t.count ≤ (n : Int) := by
  induction h with
  | create => intro _; exact ⟨ReachedBy.create, by decide⟩
  | add n t t' k v _ hadd ih =>
    intro hn
    obtain ⟨hr, hc⟩ := ih (by omega)
    obtain ⟨hsh, hN, _, _⟩ := reached_basic _ _ t hr
    obtain ⟨hlive, _⟩ := reached_counts _ _ t hr
    rw [map_add32_eq] at hadd
    cases hu : map_add t k v with
    | none => rw [hu] at hadd; simp at hadd
    | some u =>
      rw [hu] at hadd
      have hcount : u.count = t.count + 1 := by
        by_cases hk : k = 0
        · subst hk
          rw [map_add_sentinel] at hu
          obtain rfl := Option.some.inj hu
          rfl
        · exact (map_add_frame t k v u hk hN hsh hu).2.2.2.2.1
      have hw : wrap32 u.count = u.count := wrap32_id _ (by omega) (by omega)
      have ht' : t' = u := by
        have := Option.some.inj hadd
        rw [← this]
        simp only [hw]
      rw [ht']
      exact ⟨ReachedBy.add t u k v hr trivial hu, by rw [hcount]; push_cast; omega⟩
  | remove n t t' k _ hrem ih =>
    intro hn
    obtain ⟨hr, hc⟩ := ih hn
    obtain ⟨hsh, hN, _, _⟩ := reached_basic _ _ t hr
    by_cases hk : k = 0
    · subst hk
      rw [map_remove32_sentinel] at hrem
      by_cases h0 : rd t.keys t.cap = 0
      · rw [if_pos h0] at hrem
        have hu := map_remove_sentinel t
        rw [if_pos h0] at hu
        have hr' := ReachedBy.remove t _ 0 hr trivial hu
        obtain ⟨hlive, _⟩ := reached_counts _ _ _ hr'
        have hge : (0 : Int) ≤ t.count - 1 :=
          Int.le_trans (by omega) hlive
        have hw : wrap32 (t.count - 1) = t.count - 1 := wrap32_id _ (by omega) (by omega)
        rw [hw] at hrem
        obtain rfl := Option.some.inj hrem
        exact ⟨hr', by show t.count - 1 ≤ (n : Int); omega⟩
      · rw [if_neg h0] at hrem
        obtain rfl := Option.some.inj hrem
        exact ⟨hr, hc⟩
    · rw [map_remove32_nonzero t k hk] at hrem
      obtain ⟨_, _, c3, _⟩ := map_remove_frame t k t' hk hN hsh hrem
      exact ⟨ReachedBy.remove t t' k hr trivial hrem, by rw [c3]; exact hc⟩
  | reserve n t t' m _ hres ih =>
    intro hn
    obtain ⟨hr, hc⟩ := ih hn
    obtain ⟨hsh, hN, _, _⟩ := reached_basic _ _ t hr
    obtain ⟨_, _, _, c4, _⟩ := map_reserve_frame t m t' hN hsh hres
    exact ⟨ReachedBy.reserve t t' m hr hres, by rw [c4]; exact hc⟩

theorem within_add_all32 (l : List (Nat × Nat)) :
    ∀ (n : Nat) (t t' : Map), ReachedWithin n t → add_all32 t l = some t' →
      ReachedWithin (n + l.length) t' := by
  induction l with
  | nil =>
    intro n t t' h e
    simp only [add_all32] at e
    obtain rfl := Option.some.inj e
    exact h
  | cons p rest ih =>
    intro n t t' h e
    obtain ⟨k, v⟩ := p
    simp only [add_all32] at e
    cases hadd : map_add32 t k v with
    | none => rw [hadd] at e; simp at e
    | some t1 =>
      rw [hadd] at e
      have := ih (n + 1) t1 t' (ReachedWithin.add n t t1 k v h hadd) e
      rw [List.length_cons, show n + (rest.length + 1) = n + 1 + rest.length from by omega]
      exact this

/-- After `n + 1` calls `map_add(0, 7)` on the table of `map_create` the overflow
slot holds the pair and `count` is `n + 1` reduced to 32 bits. -/
theorem within_sentinel_adds (n : Nat) :
    ReachedWithin (n + 1)
      { keys := [0, 0, 0, 0, 0, 0, 0, 0, 0, 0, 0, 0, 0, 0, 0, 0, 0]
        values := [0, 0, 0, 0, 0, 0, 0, 0, 0, 0, 0, 0, 0, 0, 0, 0, 7]
        hashes := [0, 0, 0, 0, 0, 0, 0, 0, 0, 0, 0, 0, 0, 0, 0, 0]
        cap := 16
        count := wrap32 ((n : Int) + 1) } := by
  induction n with
  | zero => exact ReachedWithin.add 0 map_create _ 0 7 ReachedWithin.create (by decide)
  | succ n ih =>
    refine ReachedWithin.add (n + 1) _ _ 0 7 ih ?_
    rw [map_add32_eq, map_add_sentinel]
    simp only [Option.map, wrap32_succ]
    rfl

/-- The state after `2^31` calls `map_add(0, 7)`: `count` has wrapped to
`-2^31`. -/
theorem within_wrapped :
    ReachedWithin 2147483648
      { keys := [0, 0, 0, 0, 0, 0, 0, 0, 0, 0, 0, 0, 0, 0, 0, 0, 0]
        values := [0, 0, 0, 0, 0, 0, 0, 0, 0, 0, 0, 0, 0, 0, 0, 0, 7]
        hashes := [0, 0, 0, 0, 0, 0, 0, 0, 0, 0, 0, 0, 0, 0, 0, 0]
        cap := 16
        count := -2147483648 } := by
  have h := within_sentinel_adds 2147483647
  have e : wrap32 (((2147483647 : Nat) : Int) + 1) = -2147483648 := by decide
  rw [e] at h
  exact h

/-- C22. From an iterator index `i` in the primary region, `map_iterator_next`
returns the smallest later occupied primary index if there is one; otherwise the
overflow index `cap` when the overflow slot does not hold `overflow_empty`, and
the end index when it does. From the overflow index it returns the end index.
Every step returns the end index or a larger index that is at most `cap`, and
the traversal of `ITERATE_MAP` ends after visiting at most `cap + 1`
positions. -/
theorem iterator_next_spec (t : Map) (i : Nat) (hi : i < t.cap) :
    ((∃ j, i < j ∧ j < t.cap ∧ rd t.keys j ≠ empty) →
      ∃ j, i < j ∧ j < t.cap ∧ rd t.keys j ≠ empty ∧
        (∀ q, i < q → q < j → rd t.keys q = empty) ∧
        map_iterator_next t { index := (i : Int) } = some { index := (j : Int) }) ∧
    ((∀ q, i < q → q < t.cap → rd t.keys q = empty) →
      map_iterator_next t { index := (i : Int) } =
        if rd t.keys t.cap ≠ overflow_empty then some { index := (t.cap : Int) }
        else some { index := end_index }) ∧
    map_iterator_next t { index := (t.cap : Int) } = some { index := end_index } ∧
    (∃ it, map_iterator_next t { index := (i : Int) } = some it ∧
      (it.index = end_index ∨ ((i : Int) < it.index ∧ it.index ≤ (t.cap : Int)))) ∧
    (∃ l, map_iterate t = some l ∧ l.length ≤ t.cap + 1) := by
  refine ⟨fun hex => ?_, fun hemp => ?_, next_from_overflow t, ?_, ?_⟩
  · classical
    obtain ⟨h1, h2, h3⟩ := Nat.find_spec hex
    have hmin := fun q => @Nat.find_min _ _ hex q
    have hj : Nat.find hex = i + (Nat.find hex - i - 1) + 1 := by omega
    have hemp : ∀ q, i < q → q < Nat.find hex → rd t.keys q = empty := by
      intro q hq1 hq2
      by_contra hq
      exact hmin q hq2 ⟨hq1, by omega, hq⟩
    refine ⟨Nat.find hex, h1, h2, h3, hemp, ?_⟩
    have := next_loop_found t (Nat.find hex - i - 1) (t.cap + 1) i (by omega) (by omega)
      (fun q hq1 hq2 => hemp q hq1 (by omega)) (by rw [← hj]; exact h3)
    rw [← hj] at this
    exact this
  · exact next_loop_exhausted t (t.cap - i - 1) (t.cap + 1) i (by omega) (by omega) hemp
  · obtain ⟨it, h1, h2⟩ := next_total t i (by omega)
    refine ⟨it, h1, ?_⟩
    rcases h2 with h | ⟨j, hj, hij, hjc⟩
    · exact Or.inl h
    · exact Or.inr (by rw [hj]; omega)
  · unfold map_iterate map_iterator_start
    split
    · obtain ⟨l, hl, hlen⟩ := iterate_total t t.cap (t.cap + 2) 0 (by omega) (by omega)
        (by omega)
      exact ⟨l, hl, by omega⟩
    · exact ⟨[], iterate_loop_end t (t.cap + 1), by simp⟩

/-- C22 on the table after `map_add(1, 10)` and `map_add(0, 7)` on a fresh
table: key 1 sits in slot 12, so from index 0 the next index is 12, from 12 it
is the overflow index 16, and from 16 it is the end. -/
theorem iterator_next_spec_witness :
    ∃ t, add_all map_create [(1, 10), (0, 7)] = some t ∧
      map_iterator_next t { index := 0 } = some { index := 12 } ∧
      map_iterator_next t { index := 12 } = some { index := 16 } ∧
      (((∃ j, 0 < j ∧ j < t.cap ∧ rd t.keys j ≠ empty) →
        ∃ j, 0 < j ∧ j < t.cap ∧ rd t.keys j ≠ empty ∧
          (∀ q, 0 < q → q < j → rd t.keys q = empty) ∧
          map_iterator_next t { index := ((0 : Nat) : Int) } = some { index := (j : Int) }) ∧
      ((∀ q, 0 < q → q < t.cap → rd t.keys q = empty) →
        map_iterator_next t { index := ((0 : Nat) : Int) } =
          if rd t.keys t.cap ≠ overflow_empty then some { index := (t.cap : Int) }
          else some { index := end_index }) ∧
      map_iterator_next t { index := (t.cap : Int) } = some { index := end_index } ∧
      (∃ it, map_iterator_next t { index := ((0 : Nat) : Int) } = some it ∧
        (it.index = end_index ∨ (((0 : Nat) : Int) < it.index ∧ it.index ≤ (t.cap : Int)))) ∧
      (∃ l, map_iterate t = some l ∧ l.length ≤ t.cap + 1)) :=
  ⟨({ keys := [0, 0, 0, 0, 0, 0, 0, 0, 0, 0, 0, 0, 1, 0, 0, 0, 0]
      values := [0, 0, 0, 0, 0, 0, 0, 0, 0, 0, 0, 0, 10, 0, 0, 0, 7]
      hashes := [0, 0, 0, 0, 0, 0, 0, 0, 0, 0, 0, 0, 357654460, 0, 0, 0]
      cap := 16
      count := 2 } : Map), by decide, by decide, by decide,
    iterator_next_spec _ 0 (by decide)⟩

/-- C23. For every `x < 2^31`, `next_power_of_two x` is a power of two strictly
greater than `x`, no power of two strictly greater than `x` is smaller, and for
`x ≥ 1` it is at most `2 * x`. -/
theorem next_power_of_two_is_next (x : Nat) (hx : x < 2 ^ 31) :
    ∃ k, next_power_of_two x = 2 ^ k ∧ x < next_power_of_two x ∧
      (∀ j, x < 2 ^ j → next_power_of_two x ≤ 2 ^ j) ∧
      (1 ≤ x → next_power_of_two x ≤ 2 * x) := by
  obtain ⟨k, _, hk, hlt, hmin⟩ := next_power_of_two_spec x (by omega)
  have hk31 : k ≤ 31 := hmin 31 hx
  have hpow : 2 ^ k ≤ 2 ^ 31 := Nat.pow_le_pow_right (by decide) hk31
  have e : next_power_of_two x = 2 ^ k := by
    rw [hk]
    exact Nat.mod_eq_of_lt (by omega)
  refine ⟨k, e, by omega, ?_, ?_⟩
  · intro j hj
    rw [e]
    exact Nat.pow_le_pow_right (by decide) (hmin j hj)
  · intro h1
    rw [e]
    cases k with
    | zero => simp at hlt; omega
    | succ n =>
      have : ¬ x < 2 ^ n := fun hc => by have := hmin n hc; omega
      rw [Nat.pow_succ]
      omega

/-- C23 at the argument of `test_reserve`: `next_power_of_two(1254) = 2048`. -/
theorem next_power_of_two_is_next_witness :
    next_power_of_two 1254 = 2048 ∧
    ∃ k, next_power_of_two 1254 = 2 ^ k ∧ 1254 < next_power_of_two 1254 ∧
      (∀ j, 1254 < 2 ^ j → next_power_of_two 1254 ≤ 2 ^ j) ∧
      (1 ≤ 1254 → next_power_of_two 1254 ≤ 2 * 1254) :=
  ⟨by decide, next_power_of_two_is_next 1254 (by decide)⟩

/-- C25 fails on a table without an empty primary slot. The sixteen keys
`1, .., 16` fill a table of capacity 16 (each in the slot linear probing gives
it); `find_slot` locates key 1 in slot 12, but the scan of `map_remove(1)` has
not ended after 16 advances of `j`: it moves entries, meets no empty slot on its
first lap and ends only at the 19th advance. The model of `map_remove` allows
`cap` advances and so returns `none` on this table. -/
theorem remove_scan_exceeds_capacity :
    find_slot [9, 12, 10, 7, 2, 11, 8, 5, 13, 14, 15, 16, 1, 3, 4, 6, 1] 16 1 (hash_key 1)
      = some 12 ∧
    remove_loop 16
      { keys := [9, 12, 10, 7, 2, 11, 8, 5, 13, 14, 15, 16, 0, 3, 4, 6, 1]
        values := [90, 120, 100, 70, 20, 110, 80, 50, 130, 140, 150, 160, 10, 30, 40, 60, 0]
        hashes := [3218863982, 4291839215, 3576533554, 2503556531, 715307540, 3934169234,
          2861226262, 1788267159, 354491313, 712146451, 1069831024, 1427486512, 357654460,
          1072960876, 1430614333, 2145921005]
        cap := 16
        count := 16 } 12 12 = none ∧
    (remove_loop 18
      { keys := [9, 12, 10, 7, 2, 11, 8, 5, 13, 14, 15, 16, 0, 3, 4, 6, 1]
        values := [90, 120, 100, 70, 20, 110, 80, 50, 130, 140, 150, 160, 10, 30, 40, 60, 0]
        hashes := [3218863982, 4291839215, 3576533554, 2503556531, 715307540, 3934169234,
          2861226262, 1788267159, 354491313, 712146451, 1069831024, 1427486512, 357654460,
          1072960876, 1430614333, 2145921005]
        cap := 16
        count := 16 } 12 12 = none) ∧
    (remove_loop 19
      { keys := [9, 12, 10, 7, 2, 11, 8, 5, 13, 14, 15, 16, 0, 3, 4, 6, 1]
        values := [90, 120, 100, 70, 20, 110, 80, 50, 130, 140, 150, 160, 10, 30, 40, 60, 0]
        hashes := [3218863982, 4291839215, 3576533554, 2503556531, 715307540, 3934169234,
          2861226262, 1788267159, 354491313, 712146451, 1069831024, 1427486512, 357654460,
          1072960876, 1430614333, 2145921005]
        cap := 16
        count := 16 } 12 12).isSome = true ∧
    map_remove
      { keys := [9, 12, 10, 7, 2, 11, 8, 5, 13, 14, 15, 16, 1, 3, 4, 6, 1]
        values := [90, 120, 100, 70, 20, 110, 80, 50, 130, 140, 150, 160, 10, 30, 40, 60, 0]
        hashes := [3218863982, 4291839215, 3576533554, 2503556531, 715307540, 3934169234,
          2861226262, 1788267159, 354491313, 712146451, 1069831024, 1427486512, 357654460,
          1072960876, 1430614333, 2145921005]
        cap := 16
        count := 16 } 1 = none := by
  decide

/-- C25 amended: on a table of the data model's shape with power-of-two capacity
and at least one empty primary slot, for a non-sentinel key `k` that `find_slot`
locates in slot `s`, the scan of `map_remove(k)` ends within `cap` advances of
`j`; the triples stored before are, up to order, the triple of slot `s` (key `k`)
together with the triples stored afterwards; the overflow pair and the capacity
are unchanged. -/
theorem remove_keeps_other_triples (t : Map) (k s : Nat) (hshape : Shaped t)
    (hpow : IsPow2 t.cap) (hempty : HasEmpty t.keys t.cap) (hk : k ≠ 0)
    (hslot : find_slot t.keys t.cap k (hash_key k) = some s) (hfound : rd t.keys s = k) :
    ∃ t', remove_loop t.cap { t with keys := t.keys.set s empty } s s = some t' ∧
      map_remove t k = some t' ∧
      List.Perm (triples t) ((k, rd t.values s, rd t.hashes s) :: triples t') ∧
      rd t'.keys t'.cap = rd t.keys t.cap ∧ rd t'.values t'.cap = rd t.values t.cap ∧
      t'.cap = t.cap := by
  have hke : ¬ k = empty := hk
  obtain ⟨t', hrem⟩ := map_remove_terminates t k hshape hpow hempty
  obtain ⟨_, c2, _, c4, c5, _, _⟩ := map_remove_frame t k t' hk hpow hshape hrem
  obtain ⟨hsN, _, _⟩ := find_slot_result t.keys t.cap k (hash_key k) s hpow hslot
  have hs0 : ¬ rd t.keys s = empty := by rw [hfound]; exact hk
  have hloop : remove_loop t.cap { t with keys := t.keys.set s empty } s s = some t' := by
    simp only [map_remove, hke, if_false, hslot, if_neg hs0] at hrem
    exact hrem
  refine ⟨t', hloop, hrem, ?_, c4, c5, c2⟩
  obtain ⟨hlk, hlv, hlh⟩ := hshape
  have g := remove_loop_triples t.cap { t with keys := t.keys.set s empty } s s t' hpow
    ⟨by simp [hlk], hlv, hlh⟩ hsN
    (by show rd (t.keys.set s empty) s = 0
        rw [rd_set_eq _ _ _ (by omega)]; rfl) hloop
  have g' : List.Perm (triplesOf t'.keys t'.values t'.hashes t.cap)
      (triplesOf (t.keys.set s 0) t.values t.hashes t.cap) := g
  have e := triplesOf_clear t.keys t.values t.hashes s t.cap hsN (by omega)
    (by rw [hfound]; exact hk)
  rw [hfound] at e
  unfold triples
  rw [c2]
  exact e.trans (List.Perm.cons _ g'.symm)

/-- C25 amended, on the table after `map_add(1, 10)` and `map_add(4, 40)` on a
fresh table (slots 12 and 13): `map_remove(1)` leaves the triple of key 4, moved
to slot 12. -/
theorem remove_keeps_other_triples_witness :
    ∃ t', remove_loop 16
        { keys := [0, 0, 0, 0, 0, 0, 0, 0, 0, 0, 0, 0, 0, 4, 0, 0, 1]
          values := [0, 0, 0, 0, 0, 0, 0, 0, 0, 0, 0, 0, 10, 40, 0, 0, 0]
          hashes := [0, 0, 0, 0, 0, 0, 0, 0, 0, 0, 0, 0, 357654460, 1430614333, 0, 0]
          cap := 16
          count := 2 } 12 12 = some t' ∧
      map_remove
        { keys := [0, 0, 0, 0, 0, 0, 0, 0, 0, 0, 0, 0, 1, 4, 0, 0, 1]
          values := [0, 0, 0, 0, 0, 0, 0, 0, 0, 0, 0, 0, 10, 40, 0, 0, 0]
          hashes := [0, 0, 0, 0, 0, 0, 0, 0, 0, 0, 0, 0, 357654460, 1430614333, 0, 0]
          cap := 16
          count := 2 } 1 = some t' ∧
      List.Perm [(4, 40, 1430614333), (1, 10, 357654460)]
        ((1, 10, 357654460) :: triples t') ∧
      rd t'.keys t'.cap = 1 ∧ rd t'.values t'.cap = 0 ∧ t'.cap = 16 :=
  remove_keeps_other_triples
    { keys := [0, 0, 0, 0, 0, 0, 0, 0, 0, 0, 0, 0, 1, 4, 0, 0, 1]
      values := [0, 0, 0, 0, 0, 0, 0, 0, 0, 0, 0, 0, 10, 40, 0, 0, 0]
      hashes := [0, 0, 0, 0, 0, 0, 0, 0, 0, 0, 0, 0, 357654460, 1430614333, 0, 0]
      cap := 16
      count := 2 } 1 12 ⟨rfl, rfl, rfl⟩ ⟨4, rfl⟩ ⟨0, by decide, by decide⟩ (by decide) (by decide)
    (by decide)

/-- C26 fails on the code: after `2^31` calls `map_add(0, 7)` on a fresh table
the `int` `count` has wrapped to `-2^31`, while one pair is live. -/
theorem count_negative_after_wrap :
    ∃ t, ReachedWithin 2147483648 t ∧ t.count = -2147483648 ∧ live t = 1 ∧
      map_get t 0 = some (some 7) :=
  ⟨({ keys := [0, 0, 0, 0, 0, 0, 0, 0, 0, 0, 0, 0, 0, 0, 0, 0, 0]
      values := [0, 0, 0, 0, 0, 0, 0, 0, 0, 0, 0, 0, 0, 0, 0, 0, 7]
      hashes := [0, 0, 0, 0, 0, 0, 0, 0, 0, 0, 0, 0, 0, 0, 0, 0]
      cap := 16
      count := -2147483648 } : Map),
    within_wrapped, by decide, by decide, by decide⟩

/-- C26 amended: in every state reached from `map_create` by `map_add`,
`map_remove` and `map_reserve` calls of which fewer than `2^31` are `map_add`
calls, `count` is at least the number of live pairs (occupied primary slots,
plus one when the overflow slot is occupied), is not negative, and is at most
the number of `map_add` calls. -/
theorem count_at_least_live_within (n : Nat) (t : Map) (h : ReachedWithin n t)
    (hn : n < 2 ^ 31) :
    (live t : Int) ≤ t.count ∧ 0 ≤ t.count ∧ t.count ≤ (n : Int) := by
  obtain ⟨hr, hc⟩ := within_is_reached n t h hn
  obtain ⟨h1, _⟩ := reached_counts _ _ t hr
  unfold live
  push_cast
  omega

/-- C26 amended, on the table after `map_add(0, 612377)` twice on a fresh table:
one live pair, `count` is 2. -/
theorem count_at_least_live_within_witness :
    ∃ t, add_all32 map_create [(0, 612377), (0, 612377)] = some t ∧ ReachedWithin 2 t ∧
      live t = 1 ∧ t.count = 2 ∧
      ((live t : Int) ≤ t.count ∧ 0 ≤ t.count ∧ t.count ≤ ((2 : Nat) : Int)) :=
  ⟨({ keys := [0, 0, 0, 0, 0, 0, 0, 0, 0, 0, 0, 0, 0, 0, 0, 0, 0]
      values := [0, 0, 0, 0, 0, 0, 0, 0, 0, 0, 0, 0, 0, 0, 0, 0, 612377]
      hashes := [0, 0, 0, 0, 0, 0, 0, 0, 0, 0, 0, 0, 0, 0, 0, 0]
      cap := 16
      count := 2 } : Map),
    by decide,
    within_add_all32 [(0, 612377), (0, 612377)] 0 map_create _ ReachedWithin.create
      (by decide),
    by decide, by decide,
    count_at_least_live_within 2 _
      (within_add_all32 [(0, 612377), (0, 612377)] 0 map_create _ ReachedWithin.create
        (by decide))
      (by decide)⟩

/-- C27. For every 64-bit key, modulo `2^64`, `(~key) + (key << 18)` equals
`(key << 18) - key - 1` and `key * 21` equals `(key + (key << 2)) + (key << 4)`;
`hash_key` is the same function as the mix written with the two forms of its
comments. -/
theorem hash_key_comment_forms (key : Nat) (hkey : key < 2 ^ 64) :
    ((2 ^ 64 - 1 - key) + (key <<< 18)) % 2 ^ 64 =
        (((key <<< 18) % 2 ^ 64 + 2 ^ 64 - key) % 2 ^ 64 + 2 ^ 64 - 1) % 2 ^ 64 ∧
      (key * 21) % 2 ^ 64 =
        ((key + (key <<< 2) % 2 ^ 64) % 2 ^ 64 + (key <<< 4) % 2 ^ 64) % 2 ^ 64 ∧
      hash_key key = hash_key_rewritten key := by
  refine ⟨not_form key hkey, times21_form key, ?_⟩
  unfold hash_key hash_key_rewritten
  simp only
  rw [not_form (key % 2 ^ 64) (Nat.mod_lt _ (by decide)), times21_form]

/-- C27 at the key 253 of `test_get`. -/
theorem hash_key_comment_forms_witness :
    ((2 ^ 64 - 1 - 253) + (253 <<< 18)) % 2 ^ 64 =
        (((253 <<< 18) % 2 ^ 64 + 2 ^ 64 - 253) % 2 ^ 64 + 2 ^ 64 - 1) % 2 ^ 64 ∧
      (253 * 21) % 2 ^ 64 =
        ((253 + (253 <<< 2) % 2 ^ 64) % 2 ^ 64 + (253 <<< 4) % 2 ^ 64) % 2 ^ 64 ∧
      hash_key 253 = hash_key_rewritten 253 :=
  hash_key_comment_forms 253 (by decide)

end PointerMap
